import Mathlib

/-!
Verification of the onnxruntime graph-fusion, tensor-copy, slice and logging
sources against their specification.

The fusion pass (`conv_activation_fusion.cc`), the MKLDNN provider's
`CopyTensor` (`mkldnn_execution_provider.cc`) and `Slice<float>::Compute`
(`slice.cc`) are translated directly from the source.  The `Graph` / `Node` /
`GraphViewer` container the pass mutates is not part of the sampled sources
(only its callers are), so its operations are modelled from the specification's
data-model and component-design sections; each such definition carries a
`Modelled from the spec:` comment.
-/

/-- Error codes of the `common::Status` taxonomy used by the sources
(`InvalidArgument`, `InvalidGraph`, `NotImplemented`, ...). -/
inductive ErrorCode where
  | INVALID_ARGUMENT
  | INVALID_GRAPH
  | NOT_IMPLEMENTED
  | FAIL
deriving DecidableEq, Repr

/-- Failure value carried by a non-OK `Status`: an error code plus message. -/
structure OrtError where
  code : ErrorCode
  msg : String
deriving DecidableEq, Repr

/-- Modelled from the spec: a Node has a process-unique index, operator type
name, domain, human-readable name, ordered input/output tensor-descriptor
references and a name-to-value attribute map.  Tensor descriptors (NodeArg) are
identified by a numeric id (their graph-unique name); attribute values are
opaque payloads, modelled as strings.  `sinceVersion` models the resolved
operator schema version `node.Op()->SinceVersion()` used by
`IsSupportedOptypeVersionAndDomain`. -/
structure Node where
  index : Nat
  name : String
  opType : String
  domain : String
  sinceVersion : Nat
  description : String
  inputDefs : List Nat
  outputDefs : List Nat
  attributes : List (String × String)
deriving DecidableEq, Repr

/-- Modelled from the spec: an edge is identified by (source node index,
destination node index, source output slot, destination input slot). -/
structure Edge where
  src : Nat
  dst : Nat
  srcSlot : Nat
  dstSlot : Nat
deriving DecidableEq, Repr

/-- Modelled from the spec: a Graph owns the node table, the (cached) edge
set, the list of descriptors declared as graph outputs, and the fresh-index
counter backing `AddNode`. -/
structure Graph where
  nodes : List Node
  edges : List Edge
  graphOutputs : List Nat
  nextIndex : Nat
deriving DecidableEq, Repr

/-- Modelled from the spec: node lookup by index (`Graph::GetNode`). -/
def Graph.getNode (g : Graph) (i : Nat) : Option Node :=
  g.nodes.find? (fun n => n.index == i)

/-- Modelled from the spec: the outgoing-edge set of the node with index `i`
(backing `Node::OutputEdgesBegin/End` and `Node::GetOutputEdgesCount`). -/
def Graph.outputEdges (g : Graph) (i : Nat) : List Edge :=
  g.edges.filter (fun e => e.src == i)

/-- Modelled from the spec: `Node::GetOutputEdgesCount` of the node with
index `i`. -/
def Graph.outputEdgesCount (g : Graph) (i : Nat) : Nat :=
  (g.outputEdges i).length

/-- Translation of `utils::IsSupportedOptypeVersionAndDomain`: exact operator
type, resolved schema version, and domain match (default domain is `""`). -/
def isSupportedOptypeVersionAndDomain (n : Node) (op : String) (ver : Nat)
    (domain : String) : Bool :=
  n.opType == op && n.sinceVersion == ver && n.domain == domain

/-- Translation of `IsFusableActivation` from `conv_activation_fusion.cc`. -/
def isFusableActivation (n : Node) : Bool :=
  isSupportedOptypeVersionAndDomain n "LeakyRelu" 6 "" ||
  isSupportedOptypeVersionAndDomain n "Relu" 6 "" ||
  isSupportedOptypeVersionAndDomain n "Sigmoid" 6 "" ||
  isSupportedOptypeVersionAndDomain n "Tanh" 6 ""

/-- Modelled from the spec: `Graph::IsNodeOutputsInGraphOutputs` is true when
any output descriptor of the node is declared a graph output. -/
def Graph.isNodeOutputsInGraphOutputs (g : Graph) (n : Node) : Bool :=
  n.outputDefs.any (fun d => g.graphOutputs.contains d)

/-- Pointwise node-table update used to model in-place mutation of a node
held by reference (`Node&`). -/
def Graph.updateNode (g : Graph) (i : Nat) (f : Node → Node) : Graph :=
  { g with nodes := g.nodes.map (fun n => if n.index == i then f n else n) }

/-- Set-insertion into the cached edge list (`Node::EdgeSet` is a set, so a
duplicate insert is a no-op). -/
def insertEdge (e : Edge) (es : List Edge) : List Edge :=
  if e ∈ es then es else es ++ [e]

/-- Modelled from the spec: `Graph::AddEdge` fails with `InvalidArgument` on
out-of-range slots or non-existent nodes (modelled as returning the graph
unchanged — the pass discards the status) and otherwise records the edge and
mutates the destination node's input-descriptor binding so that later lookups
stay consistent. -/
def Graph.addEdge (g : Graph) (src dst srcSlot dstSlot : Nat) : Graph :=
  match g.getNode src, g.getNode dst with
  | some sn, some dn =>
      match sn.outputDefs[srcSlot]? with
      | some d =>
          if dstSlot < dn.inputDefs.length then
            let g' := g.updateNode dst
              (fun n => { n with inputDefs := n.inputDefs.set dstSlot d })
            { g' with edges := insertEdge ⟨src, dst, srcSlot, dstSlot⟩ g'.edges }
          else g
      | none => g
  | _, _ => g

/-- Modelled from the spec: `Graph::RemoveEdge` erases the identified edge
from the cached edge set (`InvalidArgument` on a non-existent edge is modelled
as a no-op; the pass discards the status). -/
def Graph.removeEdge (g : Graph) (src dst srcSlot dstSlot : Nat) : Graph :=
  { g with edges := g.edges.filter (fun e => e ≠ ⟨src, dst, srcSlot, dstSlot⟩) }

/-- Modelled from the spec: `Graph::RemoveNode` logically deletes a node —
its index is invalidated and its incident edges are removed (spec data-model
section). -/
def Graph.removeNode (g : Graph) (i : Nat) : Graph :=
  { g with nodes := g.nodes.filter (fun n => n.index ≠ i),
           edges := g.edges.filter (fun e => e.src ≠ i && e.dst ≠ i) }

/-- Modelled from the spec: `Graph::GenerateNodeName` returns a collision-free
name derived from the base name; pure, no mutation. -/
def Graph.generateNodeName (g : Graph) (base : String) : String :=
  if g.nodes.all (fun n => n.name ≠ base) then base
  else base ++ "_" ++ toString g.nextIndex

/-- Modelled from the spec: `Graph::AddNode` allocates a fresh node index and
appends the node.  The resolved schema version of the new node is modelled as
1 (the `FusedConv` schema's version in the `com.microsoft` domain); nothing
below depends on it beyond its being fixed. -/
def Graph.addNode (g : Graph) (name opType descr : String)
    (inputDefs outputDefs : List Nat) (attributes : List (String × String))
    (domain : String) : Graph :=
  { g with
    nodes := g.nodes ++
      [{ index := g.nextIndex, name := name, opType := opType, domain := domain,
         sinceVersion := 1, description := descr, inputDefs := inputDefs,
         outputDefs := outputDefs, attributes := attributes }],
    nextIndex := g.nextIndex + 1 }

/-- Insertion into a `NodeAttributes` map: `Node::AddAttribute` replaces the
value when the key is present and adds the entry otherwise. -/
def addAttr (attrs : List (String × String)) (k v : String) :
    List (String × String) :=
  if attrs.any (fun p => p.1 == k) then
    attrs.map (fun p => if p.1 == k then (k, v) else p)
  else attrs ++ [(k, v)]

/-- In-graph `Node::AddAttribute` on the node with index `i`. -/
def Graph.addAttribute (g : Graph) (i : Nat) (k v : String) : Graph :=
  g.updateNode i (fun n => { n with attributes := addAttr n.attributes k v })

/-- A node is ready to be scheduled when no edge from a still-unscheduled
node reaches it. -/
def topoReady (edges : List Edge) (remaining : List Nat) (i : Nat) : Bool :=
  edges.all (fun e => !(e.dst == i && remaining.contains e.src))

/-- Pick the smallest-index ready node (the spec ties independent nodes by
ascending node index for determinism). -/
def topoPick (edges : List Edge) (remaining : List Nat) : Option Nat :=
  (remaining.filter (topoReady edges remaining)).foldl
    (fun acc i =>
      match acc with
      | none => some i
      | some j => some (min i j)) none

/-- Kahn scheduling loop; `fuel` bounds the number of picks. -/
def topoGo (edges : List Edge) : Nat → List Nat → List Nat → List Nat
  | 0, _, acc => acc
  | fuel + 1, remaining, acc =>
      match topoPick edges remaining with
      | none => acc
      | some i => topoGo edges fuel (remaining.erase i) (acc ++ [i])

/-- Modelled from the spec: `GraphViewer::GetNodesInTopologicalOrder` — a
fixed ordering in which every producer precedes its consumers, ties among
independent nodes broken by ascending node index.  On a cyclic graph the
stuck nodes are simply absent from the order. -/
def Graph.getNodesInTopologicalOrder (g : Graph) : List Nat :=
  topoGo g.edges g.nodes.length (g.nodes.map (fun n => n.index)) []

/-- Modelled from the spec: the edge set is derived truth — it must agree
with the defs referenced by connected nodes.  `derivedEdges` enumerates, for
every consumer slot, the edges from every producer slot carrying the same
descriptor. -/
def derivedEdges (nodes : List Node) : List Edge :=
  nodes.flatMap (fun c =>
    (List.range c.inputDefs.length).flatMap (fun j =>
      nodes.flatMap (fun p =>
        (List.range p.outputDefs.length).filterMap (fun i =>
          if p.outputDefs[i]? = c.inputDefs[j]? then
            some ⟨p.index, c.index, i, j⟩
          else none))))

/-- Modelled from the spec: `Graph::Resolve` recomputes the per-node edge
sets from the referenced descriptors and revalidates that the node set admits
a topological order, failing with `InvalidGraph` on a cycle. -/
def Graph.resolve (g : Graph) : Except OrtError Graph :=
  let g' := { g with edges := derivedEdges g.nodes }
  if g'.getNodesInTopologicalOrder.length = g'.nodes.length then .ok g'
  else .error ⟨.INVALID_GRAPH, "graph is not a DAG"⟩

/-- Translation of `HandleActivationNodeEdges` from
`conv_activation_fusion.cc`: snapshot the activation node's output edges,
then for each one remove it and connect the fused node to the downstream
node at source slot 0, preserving the destination slot. -/
def handleActivationNodeEdges (g : Graph) (act : Node) (fusedIdx : Nat) :
    Graph :=
  let output_edges := g.outputEdges act.index
  output_edges.foldl
    (fun h e =>
      let h' := h.removeEdge act.index e.dst e.srcSlot e.dstSlot
      h'.addEdge fusedIdx e.dst 0 e.dstSlot)
    g

/-- Translation of the loop in `ConvActivationFusion::Apply` that replaces
the input defs of the nodes following the activation node: every input def of
a downstream node equal to the activation's output def `OutputDefs()[0]` is
swapped to the fused node's output def; a downstream node that cannot be
fetched yields `INVALID_ARGUMENT`.  The source reads both defs through
`[0]` unconditionally; the model guards the (unreachable) empty case. -/
def replaceDefsStep (ad fd : Option Nat) (h : Graph) (e : Edge) :
    Except OrtError Graph :=
  match h.getNode e.dst with
  | none => .error ⟨.INVALID_ARGUMENT, ""⟩
  | some output_node =>
      .ok (h.updateNode output_node.index (fun n =>
        { n with inputDefs := n.inputDefs.map (fun d =>
            match ad, fd with
            | some a, some f => if d == a then f else d
            | _, _ => d) }))

/-- The fold of `replaceDefsStep` over the activation's output edges, with
the two descriptors read once up front as in the source. -/
def replaceDownstreamInputDefs (g : Graph) (act : Node) (fusedIdx : Nat) :
    Except OrtError Graph :=
  let act_output_def := act.outputDefs[0]?
  let fused_conv_output_def := (g.getNode fusedIdx).bind
    (fun n => n.outputDefs[0]?)
  (g.outputEdges act.index).foldlM
    (replaceDefsStep act_output_def fused_conv_output_def) g

/-- Node materialization of one fusion: `AddNode` with the Conv node's
inputs, the Conv node's outputs and the Conv node's attributes, followed by
`AddAttribute(\"activation\", act.OpType())` and, for `LeakyRelu`, a copy of
every attribute of the activation onto the fused node. -/
def makeFusedNode (g : Graph) (conv_node act_node : Node) : Graph :=
  let fusedIdx := g.nextIndex
  let g1 := g.addNode (g.generateNodeName ("fused " ++ conv_node.name))
    "FusedConv"
    ("fused Conv " ++ conv_node.name ++ "with activation " ++ act_node.opType)
    conv_node.inputDefs conv_node.outputDefs conv_node.attributes
    "com.microsoft"
  let g2 := g1.addAttribute fusedIdx "activation" act_node.opType
  if act_node.opType == "LeakyRelu" then
    act_node.attributes.foldl (fun h p => h.addAttribute fusedIdx p.1 p.2) g2
  else g2

/-- One complete fusion of a matched (Conv, activation) pair: materialize
the fused node, rewire the activation's outgoing edges, then replace the
downstream input defs. -/
def fuseStep (g : Graph) (conv_node act_node : Node) : Except OrtError Graph :=
  let fusedIdx := g.nextIndex
  let g3 := makeFusedNode g conv_node act_node
  let g4 := handleActivationNodeEdges g3 act_node fusedIdx
  replaceDownstreamInputDefs g4 act_node fusedIdx

/-- One iteration of the scan loop of `ConvActivationFusion::Apply` for node
index `index`: test the Conv predicate and single-consumer condition, test
the consumer with `IsFusableActivation` and the graph-output guard, and on a
match materialize the `FusedConv` node, copy the attributes, rewire the
activation's outgoing edges and downstream input defs, and queue both nodes
for removal (`push_front` order: activation first). -/
def applyStep (g : Graph) (removed : List Nat) (index : Nat) :
    Except OrtError (Graph × List Nat) :=
  match g.getNode index with
  | none => .ok (g, removed)
  | some node =>
    if !(isSupportedOptypeVersionAndDomain node "Conv" 1 "" &&
         g.outputEdgesCount node.index == 1) then
      .ok (g, removed)
    else
      match (g.outputEdges node.index).head? with
      | none => .ok (g, removed)
      | some e0 =>
        match g.getNode e0.dst with
        | none => .ok (g, removed)
        | some next_node =>
          if !isFusableActivation next_node ||
             g.isNodeOutputsInGraphOutputs next_node then
            .ok (g, removed)
          else
            (fuseStep g node next_node).map
              (fun g5 => (g5, next_node.index :: node.index :: removed))

/-- The scan phase of `ConvActivationFusion::Apply`: fold `applyStep` over
the topological order obtained from a fresh viewer. -/
def applyScan (g : Graph) (order : List Nat) :
    Except OrtError (Graph × List Nat) :=
  order.foldlM (fun s idx => applyStep s.1 s.2 idx) (g, ([] : List Nat))

/-- Translation of `ConvActivationFusion::Apply`: scan in topological order,
remove the queued nodes after the scan, and if any fusion occurred set
`modified` and call `Resolve`, propagating its failure.  The in/out
`modified` parameter is taken as an argument and returned. -/
def ConvActivationFusion.apply (graph : Graph) (modified : Bool) :
    Except OrtError (Graph × Bool) := do
  let order := graph.getNodesInTopologicalOrder
  let (g1, removed_nodes) ← applyScan graph order
  let g2 := removed_nodes.foldl (fun h i => h.removeNode i) g1
  if removed_nodes.isEmpty then
    .ok (g2, modified)
  else
    match g2.resolve with
    | .ok g3 => .ok (g3, true)
    | .error e => .error e

/-- Memory-space identifier macro `CPU` of the allocator framework. -/
def CPU : String := "Cpu"

/-- Memory-space identifier macro `MKLDNN`. -/
def MKLDNN : String := "MklDnn"

/-- Memory-space identifier macro `MKLDNN_CPU`. -/
def MKLDNN_CPU : String := "MklDnnCpu"

/-- Tensor as `CopyTensor` observes it: a memory-space (location) name, the
element size `DataType()->Size()`, the shape, and the raw byte buffer. -/
structure Tensor where
  locationName : String
  elementSize : Nat
  dims : List Nat
  data : List Nat
deriving DecidableEq, Repr

/-- Element count `Shape().Size()`: the product of the dimensions. -/
def Tensor.shapeSize (t : Tensor) : Nat := t.dims.prod

/-- Translation of `MKLDNNExecutionProvider::CopyTensor`: any (source,
destination) location pair other than MKLDNN→CPU, CPU→MKLDNN and
MKLDNN→MKLDNN_CPU fails with `NOT_IMPLEMENTED` naming both identifiers;
otherwise `memcpy` moves `src.DataType()->Size() * src.Shape().Size()` bytes
from the source buffer into the destination buffer and the call returns OK.
The function returns the status together with the destination tensor after
the call. -/
def MKLDNNExecutionProvider.copyTensor (src dst : Tensor) :
    Except OrtError Unit × Tensor :=
  if !((src.locationName == MKLDNN && dst.locationName == CPU) ||
       (src.locationName == CPU && dst.locationName == MKLDNN) ||
       (src.locationName == MKLDNN && dst.locationName == MKLDNN_CPU)) then
    (.error ⟨.NOT_IMPLEMENTED,
      src.locationName ++ " copy to " ++ dst.locationName ++
        " is not implemented"⟩, dst)
  else
    let bytes := src.elementSize * src.shapeSize
    (.ok (), { dst with data := src.data.take bytes ++ dst.data.drop bytes })

/-- Translation of the local `clamp` helper of `slice.cc`. -/
def clamp (v lo hi : Int) : Int :=
  if v < lo then lo else if v > hi then hi else v

/-- Attribute state of a constructed `Slice<float>` kernel: the `starts`,
`ends` and optional `axes` attributes. -/
structure SliceKernel where
  starts_ : List Int
  ends_ : List Int
  axes_ : List Int
  has_axes_ : Bool
deriving DecidableEq, Repr

/-- The `std::copy` of the `int64_t` axes attribute into a `vector<size_t>`:
a negative axis wraps around to a huge unsigned value (and is then rejected
by the in-range check). -/
def int64ToSizeT (x : Int) : Nat := (x % (2 : Int) ^ 64).toNat

/-- The axes the slice applies to: the converted `axes` attribute when
present, else `[0, ..., ndim-1]`. -/
def sliceAxes (input_dimensions : List Int) (k : SliceKernel) : List Nat :=
  if k.has_axes_ then k.axes_.map int64ToSizeT
  else List.range input_dimensions.length

/-- The body of the axis-override loop of `Slice<float>::Compute` for one
`axesIndex`: reject an out-of-range axis, adjust a negative start by the
axis dimension, clamp it to `[0, dim]` and store it, do the same for the
end, store the difference as the output dimension, and reject a negative
difference. -/
def sliceAxisStep (input_dimensions : List Int) (k : SliceKernel)
    (axes : List Nat) (s : List Int × List Int) (axesIndex : Nat) :
    Except OrtError (List Int × List Int) :=
  let dimension_count := input_dimensions.length
  let axis := axes.getD axesIndex 0
  if axis ≥ dimension_count then
    .error ⟨.INVALID_ARGUMENT,
      "'axes' has an axis outside of the tensor dimension count"⟩
  else
    let start0 := k.starts_.getD axesIndex 0
    let start := if start0 < 0 then
        start0 + input_dimensions.getD axis 0
      else start0
    let starts := s.1.set axis (clamp start 0 (input_dimensions.getD axis 0))
    let end0 := k.ends_.getD axesIndex 0
    let endv := if end0 < 0 then
        end0 + input_dimensions.getD axis 0
      else end0
    let output_dims := s.2.set axis
      (clamp endv 0 (input_dimensions.getD axis 0) - starts.getD axis 0)
    if output_dims.getD axis 0 < 0 then
      .error ⟨.INVALID_ARGUMENT,
        "'starts' and 'ends' values resulted in a negative dimension"⟩
    else
      .ok (starts, output_dims)

/-- Translation of `Slice<float>::Compute` up to the output-copy loop.  On
success it returns the final `starts` vector, the final `output_dims`
vector, and the number of elements the output loop writes, which is
`output_shape.Size()` — the product of the output dimensions (the loop runs
`output` up to `output_end = output + output_shape.Size()`). -/
def Slice.compute (input_dimensions : List Int) (k : SliceKernel) :
    Except OrtError (List Int × List Int × Nat) :=
  let dimension_count := input_dimensions.length
  let starts0 : List Int := List.replicate dimension_count 0
  let output_dims0 : List Int := input_dimensions
  let axes : List Nat := sliceAxes input_dimensions k
  if axes.length > k.starts_.length then
    .error ⟨.INVALID_ARGUMENT,
      "'axes' has more entries than the 'starts' attribute holds"⟩
  else if axes.length > k.ends_.length then
    .error ⟨.INVALID_ARGUMENT,
      "'axes' has more entries than the 'ends' attribute holds"⟩
  else do
    let (starts, output_dims) ← (List.range axes.length).foldlM
      (sliceAxisStep input_dimensions k axes) (starts0, output_dims0)
    pure (starts, output_dims, output_dims.prod.toNat)

/-- A constructed logging manager: the delivery list of its owned sink and
the constructor arguments it retains. -/
structure LoggingManager where
  sinkMessages : List String
  minSeverity : Nat
  filterUserData : Bool
  defaultLoggerId : String
deriving DecidableEq, Repr

/-- Modelled from the spec: the `LoggingManager` implementation is absent
from the sampled sources (only its test is present).  The spec's design notes
state that construction enforces "only one logging manager per process" via
an explicit guard, and the logging boundary requires an injected sink; the
test asserts both violations throw `std::logic_error`.  The model takes
whether another manager is live and the optional sink (as its list of
delivered records), and returns the constructed manager or the failure,
together with the sink's delivery list after the call — construction itself
never delivers a record. -/
def loggingManagerCtor (otherManagerLive : Bool) (sink : Option (List String))
    (minSeverity : Nat) (filterUserData : Bool) (defaultLoggerId : String) :
    Except String LoggingManager × Option (List String) :=
  if sink.isNone then
    (.error "logic_error: a sink must be provided", sink)
  else if otherManagerLive then
    (.error "logic_error: only one LoggingManager instance may be live", sink)
  else
    (.ok ⟨sink.getD [], minSeverity, filterUserData, defaultLoggerId⟩, sink)

/-- Lookup in a `NodeAttributes` map. -/
def attrLookup (attrs : List (String × String)) (k : String) : Option String :=
  (attrs.find? (fun p => p.1 == k)).map (fun p => p.2)

/-- Conv node `A` of the end-to-end scenario graph: inputs X=1, W=2, B=3,
output descriptor 10, one attribute. -/
def nodeA : Node := ⟨0, "A", "Conv", "", 1, "", [1, 2, 3], [10], [("group", "1")]⟩

/-- Activation node `B` of the scenario graph: consumes 10, produces 20. -/
def nodeB : Node := ⟨1, "B", "Relu", "", 6, "", [10], [20], []⟩

/-- Downstream consumer `C` of the scenario graph: consumes 20, produces 30. -/
def nodeC : Node := ⟨2, "C", "Identity", "", 1, "", [20], [30], []⟩

/-- Scenario graph `A:Conv -> B:Relu -> C`, with only C's output declared a
graph output. -/
def gScenario : Graph :=
  ⟨[nodeA, nodeB, nodeC], [⟨0, 1, 0, 0⟩, ⟨1, 2, 0, 0⟩], [30], 3⟩

/-- Scenario graph variant in which B's output 20 is declared a graph
output. -/
def gScenarioOut : Graph :=
  ⟨[nodeA, nodeB, nodeC], [⟨0, 1, 0, 0⟩, ⟨1, 2, 0, 0⟩], [20], 3⟩

/-- The supported (source, destination) location pairs of
`MKLDNNExecutionProvider::CopyTensor`. -/
def supportedCopyPair (src dst : Tensor) : Prop :=
  (src.locationName = MKLDNN ∧ dst.locationName = CPU) ∨
  (src.locationName = CPU ∧ dst.locationName = MKLDNN) ∨
  (src.locationName = MKLDNN ∧ dst.locationName = MKLDNN_CPU)

/-- Boolean guard of `CopyTensor` agrees with `supportedCopyPair`. -/
theorem copyTensor_guard (src dst : Tensor) :
    ((src.locationName == MKLDNN && dst.locationName == CPU) ||
     (src.locationName == CPU && dst.locationName == MKLDNN) ||
     (src.locationName == MKLDNN && dst.locationName == MKLDNN_CPU)) = true ↔
    supportedCopyPair src dst := by
  simp [supportedCopyPair, or_assoc]

/-- Claim C7.  For every location pair other than MKLDNN→CPU, CPU→MKLDNN and
MKLDNN→MKLDNN_CPU, `MKLDNNExecutionProvider::CopyTensor` fails with
`NOT_IMPLEMENTED`, the failure message names both memory-space identifiers,
and the destination tensor is untouched. -/
theorem copyTensor_unsupported_pair_not_implemented (src dst : Tensor)
    (h : ¬ supportedCopyPair src dst) :
    (MKLDNNExecutionProvider.copyTensor src dst).1 =
      .error ⟨.NOT_IMPLEMENTED,
        src.locationName ++ " copy to " ++ dst.locationName ++
          " is not implemented"⟩ ∧
    (MKLDNNExecutionProvider.copyTensor src dst).2 = dst := by
  have hb : ((src.locationName == MKLDNN && dst.locationName == CPU) ||
      (src.locationName == CPU && dst.locationName == MKLDNN) ||
      (src.locationName == MKLDNN && dst.locationName == MKLDNN_CPU)) = false := by
    rcases hcond : ((src.locationName == MKLDNN && dst.locationName == CPU) ||
      (src.locationName == CPU && dst.locationName == MKLDNN) ||
      (src.locationName == MKLDNN && dst.locationName == MKLDNN_CPU)) with _ | _
    · rfl
    · exact absurd ((copyTensor_guard src dst).mp hcond) h
  constructor <;> simp [MKLDNNExecutionProvider.copyTensor, hb]

/-- Witness for C7 at a concrete unsupported pair (CPU→CPU). -/
theorem copyTensor_unsupported_pair_not_implemented_witness :
    (MKLDNNExecutionProvider.copyTensor ⟨"Cpu", 4, [1], [9, 9, 9, 9]⟩
        ⟨"Cpu", 4, [1], [0, 0, 0, 0]⟩).1 =
      .error ⟨.NOT_IMPLEMENTED, "Cpu copy to Cpu is not implemented"⟩ ∧
    (MKLDNNExecutionProvider.copyTensor ⟨"Cpu", 4, [1], [9, 9, 9, 9]⟩
        ⟨"Cpu", 4, [1], [0, 0, 0, 0]⟩).2 = ⟨"Cpu", 4, [1], [0, 0, 0, 0]⟩ := by
  have h := copyTensor_unsupported_pair_not_implemented
    ⟨"Cpu", 4, [1], [9, 9, 9, 9]⟩ ⟨"Cpu", 4, [1], [0, 0, 0, 0]⟩
    (by simp [supportedCopyPair, CPU, MKLDNN, MKLDNN_CPU])
  simpa [CPU] using h

/-- Counterexample to claim C6 as stated: on the supported MKLDNN→CPU pair
with disagreeing element counts (2 vs 1), `CopyTensor` returns OK — it never
fails with `InvalidArgument`. -/
theorem copyTensor_mismatch_counterexample :
    (MKLDNNExecutionProvider.copyTensor
        ⟨"MklDnn", 4, [2], [1, 2, 3, 4, 5, 6, 7, 8]⟩
        ⟨"Cpu", 4, [1], [0, 0, 0, 0]⟩).1 = .ok () ∧
    Tensor.shapeSize ⟨"MklDnn", 4, [2], [1, 2, 3, 4, 5, 6, 7, 8]⟩ ≠
      Tensor.shapeSize ⟨"Cpu", 4, [1], [0, 0, 0, 0]⟩ := by
  constructor
  · rfl
  · decide

/-- Claim C6, amended.  `MKLDNNExecutionProvider::CopyTensor` performs no
element-count or element-type validation: on every supported location pair it
returns OK and copies `src.DataType()->Size() * src.Shape().Size()` bytes
computed from the source alone, whether or not the two tensors' element
counts or types agree. -/
theorem copyTensor_supported_pair_no_validation (src dst : Tensor)
    (h : supportedCopyPair src dst) :
    (MKLDNNExecutionProvider.copyTensor src dst).1 = .ok () ∧
    (MKLDNNExecutionProvider.copyTensor src dst).2 =
      { dst with data := src.data.take (src.elementSize * src.shapeSize) ++
          dst.data.drop (src.elementSize * src.shapeSize) } := by
  have hb := (copyTensor_guard src dst).mpr h
  constructor <;> simp [MKLDNNExecutionProvider.copyTensor, hb]

/-- Witness for the amended C6 at a concrete supported pair whose element
counts disagree. -/
theorem copyTensor_supported_pair_no_validation_witness :
    (MKLDNNExecutionProvider.copyTensor
        ⟨"MklDnn", 4, [2], [1, 2, 3, 4, 5, 6, 7, 8]⟩
        ⟨"Cpu", 4, [1], [0, 0, 0, 0]⟩).1 = .ok () ∧
    (MKLDNNExecutionProvider.copyTensor
        ⟨"MklDnn", 4, [2], [1, 2, 3, 4, 5, 6, 7, 8]⟩
        ⟨"Cpu", 4, [1], [0, 0, 0, 0]⟩).2 =
      ⟨"Cpu", 4, [1], [1, 2, 3, 4, 5, 6, 7, 8]⟩ := by
  have h := copyTensor_supported_pair_no_validation
    ⟨"MklDnn", 4, [2], [1, 2, 3, 4, 5, 6, 7, 8]⟩ ⟨"Cpu", 4, [1], [0, 0, 0, 0]⟩
    (by simp [supportedCopyPair, CPU, MKLDNN, MKLDNN_CPU])
  refine ⟨h.1, ?_⟩
  rw [h.2]
  rfl

/-- Claim C10.  Constructing a `LoggingManager` while another is live, or
with a null sink, throws `std::logic_error`, and the failed construction
delivers nothing to any sink (the sink's delivery list is unchanged). -/
theorem loggingManager_ctor_guard (live : Bool) (sink : Option (List String))
    (sev : Nat) (fud : Bool) (logid : String)
    (h : live = true ∨ sink = none) :
    (∃ rest, (loggingManagerCtor live sink sev fud logid).1 =
      .error ("logic_error: " ++ rest)) ∧
    (loggingManagerCtor live sink sev fud logid).2 = sink := by
  rcases h with h | h
  · subst h
    cases sink with
    | none => exact ⟨⟨"a sink must be provided", rfl⟩, rfl⟩
    | some s =>
        exact ⟨⟨"only one LoggingManager instance may be live", rfl⟩, rfl⟩
  · subst h
    exact ⟨⟨"a sink must be provided", rfl⟩, rfl⟩

/-- Witness for C10: a second manager constructed while one is live. -/
theorem loggingManager_ctor_guard_witness :
    (∃ rest, (loggingManagerCtor true (some []) 2 false "default").1 =
      .error ("logic_error: " ++ rest)) ∧
    (loggingManagerCtor true (some []) 2 false "default").2 = some [] :=
  loggingManager_ctor_guard true (some []) 2 false "default" (Or.inl rfl)

/-- The "Conv-like" predicate of the pass: `Conv`, schema version 1, default
domain. -/
def convMatch (n : Node) : Bool := isSupportedOptypeVersionAndDomain n "Conv" 1 ""

/-- The full structural predicate under which one scan iteration of
`ConvActivationFusion::Apply` fuses the node: Conv-like, exactly one output
edge, consumer a fusable activation whose outputs are not graph outputs. -/
def isFusionCandidate (g : Graph) (n : Node) : Bool :=
  convMatch n && g.outputEdgesCount n.index == 1 &&
  (match (g.outputEdges n.index).head? with
   | none => false
   | some e0 =>
     match g.getNode e0.dst with
     | none => false
     | some next =>
         isFusableActivation next && !(g.isNodeOutputsInGraphOutputs next))

/-- A scan iteration on an index that resolves to no node leaves the state
unchanged. -/
theorem applyStep_getNode_none (g : Graph) (removed : List Nat) (idx : Nat)
    (hget : g.getNode idx = none) :
    applyStep g removed idx = .ok (g, removed) := by
  simp [applyStep, hget]

/-- A scan iteration on a node that is not a fusion candidate leaves the
state unchanged. -/
theorem applyStep_no_candidate (g : Graph) (removed : List Nat) (idx : Nat)
    (n : Node) (hget : g.getNode idx = some n)
    (hcand : isFusionCandidate g n = false) :
    applyStep g removed idx = .ok (g, removed) := by
  unfold applyStep
  rw [hget]
  dsimp only
  by_cases h1 : (isSupportedOptypeVersionAndDomain n "Conv" 1 "" &&
      g.outputEdgesCount n.index == 1) = true
  · rw [h1]
    simp only [Bool.not_true, Bool.false_eq_true, if_false]
    unfold isFusionCandidate convMatch at hcand
    rw [h1] at hcand
    simp only [Bool.true_and] at hcand
    cases hhead : (g.outputEdges n.index).head? with
    | none => rfl
    | some e0 =>
        rw [hhead] at hcand
        dsimp only at hcand ⊢
        cases hdst : g.getNode e0.dst with
        | none => rfl
        | some next =>
            rw [hdst] at hcand
            dsimp only at hcand ⊢
            have hbad : (!isFusableActivation next ||
                g.isNodeOutputsInGraphOutputs next) = true := by
              rcases hf : isFusableActivation next with _ | _
              · rfl
              · rcases hgo : g.isNodeOutputsInGraphOutputs next with _ | _
                · rw [hf, hgo] at hcand
                  simp at hcand
                · simp [hgo]
            rw [hbad]
            rfl
  · have h1' : (isSupportedOptypeVersionAndDomain n "Conv" 1 "" &&
        g.outputEdgesCount n.index == 1) = false := by
      rcases h : (isSupportedOptypeVersionAndDomain n "Conv" 1 "" &&
        g.outputEdgesCount n.index == 1) with _ | _
      · rfl
      · exact absurd h h1
    rw [h1']
    rfl

/-- On a graph with no fusion candidate the scan phase is the identity and
queues no removals, whatever order it is given. -/
theorem applyScan_no_candidate (g : Graph)
    (hno : ∀ n ∈ g.nodes, isFusionCandidate g n = false) :
    ∀ order : List Nat, applyScan g order = .ok (g, []) := by
  intro order
  induction order with
  | nil => rfl
  | cons i is ih =>
      have hstep : applyStep g [] i = .ok (g, []) := by
        cases hget : g.getNode i with
        | none => exact applyStep_getNode_none g [] i hget
        | some n =>
            exact applyStep_no_candidate g [] i n hget
              (hno n (List.mem_of_find?_eq_some hget))
      unfold applyScan at ih ⊢
      rw [List.foldlM_cons, hstep]
      simpa using ih

/-- On a graph with no fusion candidate `ConvActivationFusion::Apply` is the
identity: it returns OK, the graph unchanged, and leaves `modified` as it
was. -/
theorem apply_no_candidate (g : Graph) (m : Bool)
    (hno : ∀ n ∈ g.nodes, isFusionCandidate g n = false) :
    ConvActivationFusion.apply g m = .ok (g, m) := by
  unfold ConvActivationFusion.apply
  dsimp only
  rw [applyScan_no_candidate g hno g.getNodesInTopologicalOrder]
  rfl

/-- Fan-out test graph: Conv `A` feeds two Relu consumers, so its output has
two live consumers. -/
def gFanOut : Graph :=
  ⟨[⟨0, "A", "Conv", "", 1, "", [1], [10], []⟩,
    ⟨1, "R1", "Relu", "", 6, "", [10], [20], []⟩,
    ⟨2, "R2", "Relu", "", 6, "", [10], [21], []⟩],
   [⟨0, 1, 0, 0⟩, ⟨0, 2, 0, 0⟩], [20, 21], 3⟩

/-- Claim C2.  Fan-out guard: on a graph in which every Conv-like node's
output-edge count differs from 1 (in particular when some output has more
than one live consumer), `ConvActivationFusion::Apply` rewrites nothing: it
returns the graph unchanged with `modified` untouched, so the node count is
unchanged. -/
theorem convActivationFusion_fan_out_guard (g : Graph) (m : Bool)
    (h : ∀ n ∈ g.nodes, convMatch n = true → g.outputEdgesCount n.index ≠ 1) :
    ConvActivationFusion.apply g m = .ok (g, m) ∧
    ∀ g' m', ConvActivationFusion.apply g m = .ok (g', m') →
      g'.nodes.length = g.nodes.length := by
  have hno : ∀ n ∈ g.nodes, isFusionCandidate g n = false := by
    intro n hn
    unfold isFusionCandidate
    rcases hcm : convMatch n with _ | _
    · rfl
    · have hc := h n hn hcm
      have : (g.outputEdgesCount n.index == 1) = false := by
        simpa using hc
      rw [this]
      rfl
  have happ := apply_no_candidate g m hno
  refine ⟨happ, ?_⟩
  intro g' m' h'
  rw [happ] at h'
  cases h'
  rfl

/-- Witness for C2 on a concrete fan-out graph. -/
theorem convActivationFusion_fan_out_guard_witness :
    ConvActivationFusion.apply gFanOut false = .ok (gFanOut, false) :=
  (convActivationFusion_fan_out_guard gFanOut false (by decide)).1

/-- Claim C3.  Observable-output guard: on a graph in which a Conv node's
sole consumer is a fusable activation whose output is declared a graph
output (and no fusion candidate exists elsewhere), the pass does not fuse
the pair: `Apply` returns the graph unchanged, `modified` stays as passed
in, and the node set and the graph-output set are identical before and
after. -/
theorem convActivationFusion_graph_output_guard (g : Graph) (m : Bool)
    (conv act : Node) (e0 : Edge)
    (hconv : conv ∈ g.nodes)
    (hcm : convMatch conv = true)
    (hcount : g.outputEdgesCount conv.index = 1)
    (hhead : (g.outputEdges conv.index).head? = some e0)
    (hact : g.getNode e0.dst = some act)
    (hfus : isFusableActivation act = true)
    (hgo : g.isNodeOutputsInGraphOutputs act = true)
    (hno : ∀ n ∈ g.nodes, isFusionCandidate g n = false) :
    ConvActivationFusion.apply g m = .ok (g, m) ∧
    ∀ g' m', ConvActivationFusion.apply g m = .ok (g', m') →
      g'.nodes = g.nodes ∧ g'.graphOutputs = g.graphOutputs := by
  have happ := apply_no_candidate g m hno
  refine ⟨happ, ?_⟩
  intro g' m' h'
  rw [happ] at h'
  cases h'
  exact ⟨rfl, rfl⟩

/-- Witness for C3 on the scenario graph whose activation output is a graph
output. -/
theorem convActivationFusion_graph_output_guard_witness :
    ConvActivationFusion.apply gScenarioOut false = .ok (gScenarioOut, false) :=
  (convActivationFusion_graph_output_guard gScenarioOut false nodeA nodeB
    ⟨0, 1, 0, 0⟩ (by decide) (by decide) (by decide) (by decide) (by decide)
    (by decide) (by decide) (by decide)).1

/-- Identity-level fields of a node that every scan-phase mutation preserves
(only input defs and attributes can change mid-scan). -/
def Node.skel (a b : Node) : Prop :=
  a.index = b.index ∧ a.name = b.name ∧ a.opType = b.opType ∧
  a.domain = b.domain ∧ a.sinceVersion = b.sinceVersion ∧
  a.outputDefs = b.outputDefs ∧ a.inputDefs.length = b.inputDefs.length

/-- Skeleton equality is reflexive. -/
theorem Node.skel_refl (a : Node) : Node.skel a a :=
  ⟨rfl, rfl, rfl, rfl, rfl, rfl, rfl⟩

/-- Skeleton equality is transitive. -/
theorem Node.skel_trans {a b c : Node} (h1 : Node.skel a b)
    (h2 : Node.skel b c) : Node.skel a c := by
  obtain ⟨x1, x2, x3, x4, x5, x6, x7⟩ := h1
  obtain ⟨y1, y2, y3, y4, y5, y6, y7⟩ := h2
  exact ⟨x1.trans y1, x2.trans y2, x3.trans y3, x4.trans y4, x5.trans y5,
    x6.trans y6, x7.trans y7⟩

/-- Every node of `g` has a skeleton-equal counterpart in `g'`. -/
def skelPreserved (g g' : Graph) : Prop :=
  ∀ n ∈ g.nodes, ∃ n', n' ∈ g'.nodes ∧ Node.skel n' n

/-- Skeleton preservation is reflexive. -/
theorem skelPreserved_refl (g : Graph) : skelPreserved g g :=
  fun n hn => ⟨n, hn, Node.skel_refl n⟩

/-- Skeleton preservation is transitive. -/
theorem skelPreserved_trans {g1 g2 g3 : Graph} (h1 : skelPreserved g1 g2)
    (h2 : skelPreserved g2 g3) : skelPreserved g1 g3 := by
  intro n hn
  obtain ⟨n', hn', hs'⟩ := h1 n hn
  obtain ⟨n'', hn'', hs''⟩ := h2 n' hn'
  exact ⟨n'', hn'', Node.skel_trans hs'' hs'⟩

/-- An `updateNode` with a skeleton-preserving node function preserves
skeletons. -/
theorem skelPreserved_updateNode (g : Graph) (i : Nat) (f : Node → Node)
    (hf : ∀ n, Node.skel (f n) n) :
    skelPreserved g (g.updateNode i f) := by
  intro n hn
  by_cases hi : n.index = i
  · refine ⟨f n, ?_, hf n⟩
    unfold Graph.updateNode
    simp only [List.mem_map]
    exact ⟨n, hn, by simp [hi]⟩
  · refine ⟨n, ?_, Node.skel_refl n⟩
    unfold Graph.updateNode
    simp only [List.mem_map]
    exact ⟨n, hn, by simp [hi]⟩

/-- Replacing only the edge list preserves skeletons. -/
theorem skelPreserved_edges (g : Graph) (es : List Edge) :
    skelPreserved g { g with edges := es } :=
  fun n hn => ⟨n, hn, Node.skel_refl n⟩

/-- The `removeEdge` operation preserves skeletons. -/
theorem skelPreserved_removeEdge (g : Graph) (a b c d : Nat) :
    skelPreserved g (g.removeEdge a b c d) :=
  fun n hn => ⟨n, hn, Node.skel_refl n⟩

/-- The `addEdge` operation preserves skeletons (it only rebinds one input
slot of the destination node, which keeps the input-def count). -/
theorem skelPreserved_addEdge (g : Graph) (a b c d : Nat) :
    skelPreserved g (g.addEdge a b c d) := by
  unfold Graph.addEdge
  split
  · rename_i sn dn
    split
    · rename_i dd hdd
      split
      · refine skelPreserved_trans
          (skelPreserved_updateNode g b
            (fun n => { n with inputDefs := n.inputDefs.set d dd })
            (fun n => ⟨rfl, rfl, rfl, rfl, rfl, rfl, by simp⟩)) ?_
        exact skelPreserved_edges _ _
      · exact skelPreserved_refl g
    · exact skelPreserved_refl g
  · exact skelPreserved_refl g

/-- The `addNode` operation preserves skeletons (old nodes untouched). -/
theorem skelPreserved_addNode (g : Graph) (a b c : String) (i o : List Nat)
    (attrs : List (String × String)) (dom : String) :
    skelPreserved g (g.addNode a b c i o attrs dom) := by
  intro n hn
  exact ⟨n, by simp [Graph.addNode, hn], Node.skel_refl n⟩

/-- The `addAttribute` operation preserves skeletons. -/
theorem skelPreserved_addAttribute (g : Graph) (i : Nat) (k v : String) :
    skelPreserved g (g.addAttribute i k v) :=
  skelPreserved_updateNode g i _ (fun n => ⟨rfl, rfl, rfl, rfl, rfl, rfl, rfl⟩)

/-- A left fold of skeleton-preserving steps preserves skeletons. -/
theorem skelPreserved_foldl {α : Type} (step : Graph → α → Graph)
    (hstep : ∀ h a, skelPreserved h (step h a)) :
    ∀ (l : List α) (g : Graph), skelPreserved g (l.foldl step g) := by
  intro l
  induction l with
  | nil => exact fun g => skelPreserved_refl g
  | cons a as ih =>
      intro g
      exact skelPreserved_trans (hstep g a) (ih (step g a))

/-- A monadic left fold of skeleton-preserving steps preserves skeletons
when it succeeds. -/
theorem skelPreserved_foldlM {α : Type}
    (step : Graph → α → Except OrtError Graph)
    (hstep : ∀ h a r, step h a = .ok r → skelPreserved h r) :
    ∀ (l : List α) (g g' : Graph), l.foldlM step g = .ok g' →
      skelPreserved g g' := by
  intro l
  induction l with
  | nil =>
      intro g g' h
      simp only [List.foldlM_nil] at h
      cases h
      exact skelPreserved_refl _
  | cons a as ih =>
      intro g g' h
      rw [List.foldlM_cons] at h
      cases hs : step g a with
      | error e =>
          rw [hs] at h
          exact Except.noConfusion h
      | ok g1 =>
          rw [hs] at h
          exact skelPreserved_trans (hstep g a g1 hs) (ih g1 g' h)

/-- `HandleActivationNodeEdges` preserves skeletons. -/
theorem skelPreserved_handleActivationNodeEdges (g : Graph) (act : Node)
    (fusedIdx : Nat) :
    skelPreserved g (handleActivationNodeEdges g act fusedIdx) := by
  unfold handleActivationNodeEdges
  exact skelPreserved_foldl _
    (fun h e => skelPreserved_trans (skelPreserved_removeEdge h _ _ _ _)
      (skelPreserved_addEdge _ _ _ _ _)) _ g

/-- One `replaceDefsStep` preserves skeletons when it succeeds. -/
theorem skelPreserved_replaceDefsStep (ad fd : Option Nat) (h : Graph)
    (e : Edge) (r : Graph) (hs : replaceDefsStep ad fd h e = .ok r) :
    skelPreserved h r := by
  unfold replaceDefsStep at hs
  cases hget : h.getNode e.dst with
  | none => rw [hget] at hs; simp at hs
  | some onode =>
      rw [hget] at hs
      simp only [Except.ok.injEq] at hs
      subst hs
      exact skelPreserved_updateNode h onode.index _
        (fun n => ⟨rfl, rfl, rfl, rfl, rfl, rfl, by simp⟩)

/-- The downstream input-def replacement loop preserves skeletons when it
succeeds. -/
theorem skelPreserved_replaceDownstreamInputDefs (g : Graph) (act : Node)
    (fusedIdx : Nat) (g' : Graph)
    (h : replaceDownstreamInputDefs g act fusedIdx = .ok g') :
    skelPreserved g g' := by
  unfold replaceDownstreamInputDefs at h
  exact skelPreserved_foldlM _ (skelPreserved_replaceDefsStep _ _) _ g g' h

/-- `makeFusedNode` preserves skeletons. -/
theorem skelPreserved_makeFusedNode (g : Graph) (c a : Node) :
    skelPreserved g (makeFusedNode g c a) := by
  unfold makeFusedNode
  split
  · exact skelPreserved_trans
      (skelPreserved_trans (skelPreserved_addNode g _ _ _ _ _ _ _)
        (skelPreserved_addAttribute _ _ _ _))
      (skelPreserved_foldl _
        (fun (h : Graph) (p : String × String) =>
          skelPreserved_addAttribute h g.nextIndex p.1 p.2) _ _)
  · exact skelPreserved_trans (skelPreserved_addNode g _ _ _ _ _ _ _)
      (skelPreserved_addAttribute _ _ _ _)

/-- A whole fusion preserves skeletons when it succeeds. -/
theorem skelPreserved_fuseStep (g : Graph) (c a : Node) (g' : Graph)
    (h : fuseStep g c a = .ok g') : skelPreserved g g' := by
  unfold fuseStep at h
  exact skelPreserved_trans
    (skelPreserved_trans (skelPreserved_makeFusedNode g c a)
      (skelPreserved_handleActivationNodeEdges _ a g.nextIndex))
    (skelPreserved_replaceDownstreamInputDefs _ a g.nextIndex g' h)

/-- One scan iteration preserves skeletons: the pass performs no node
removal during the scan (removals are queued and deferred). -/
theorem skelPreserved_applyStep (g : Graph) (removed : List Nat) (idx : Nat)
    (g' : Graph) (removed' : List Nat)
    (h : applyStep g removed idx = .ok (g', removed')) :
    skelPreserved g g' := by
  unfold applyStep at h
  cases hget : g.getNode idx with
  | none =>
      rw [hget] at h
      cases h
      exact skelPreserved_refl g
  | some n =>
      rw [hget] at h
      dsimp only at h
      split at h
      · cases h
        exact skelPreserved_refl g
      · split at h
        · cases h
          exact skelPreserved_refl g
        · split at h
          · cases h
            exact skelPreserved_refl g
          · split at h
            · cases h
              exact skelPreserved_refl g
            · rename_i next heqnext hguard
              cases hf : fuseStep g n next with
              | error e =>
                  rw [hf] at h
                  exact Except.noConfusion h
              | ok g5 =>
                  rw [hf] at h
                  have h2 : (Except.ok
                      (g5, next.index :: n.index :: removed) :
                        Except OrtError (Graph × List Nat)) =
                      .ok (g', removed') := h
                  injection h2 with h3
                  injection h3 with h4 h5
                  subst h4
                  exact skelPreserved_fuseStep g n next g5 hf

/-- The whole scan phase preserves skeletons. -/
theorem skelPreserved_applyScan (order : List Nat) :
    ∀ (s : Graph × List Nat) (g' : Graph) (removed' : List Nat),
    (order.foldlM (fun s idx => applyStep s.1 s.2 idx) s = .ok (g', removed')) →
    skelPreserved s.1 g' := by
  induction order with
  | nil =>
      intro s g' removed' h
      simp only [List.foldlM_nil] at h
      cases h
      exact skelPreserved_refl _
  | cons i is ih =>
      intro s g' removed' h
      rw [List.foldlM_cons] at h
      cases hstep : applyStep s.1 s.2 i with
      | error e =>
          rw [hstep] at h
          exact Except.noConfusion h
      | ok s1 =>
          rw [hstep] at h
          exact skelPreserved_trans
            (skelPreserved_applyStep s.1 s.2 i s1.1 s1.2 (by
              rw [hstep]))
            (ih s1 g' removed' h)

/-- Claim C8.  Control flow of `ConvActivationFusion::Apply`: the scan phase
removes no node (every node of the input graph is still present, identity
fields intact, when the scan finishes — all removals are deferred to after
the full scan); if the scan queued no removal, `Apply` returns the scanned
graph with `modified` untouched and never calls `Resolve`; if it queued at
least one, `Apply` performs the removals, sets `modified = true`, and
returns exactly what `Resolve` produces — in particular a `Resolve` failure
is returned to the caller, not swallowed. -/
theorem convActivationFusion_apply_control_flow (g : Graph) (m : Bool)
    (g1 : Graph) (removed : List Nat)
    (hscan : applyScan g g.getNodesInTopologicalOrder = .ok (g1, removed)) :
    (∀ n ∈ g.nodes, ∃ n', n' ∈ g1.nodes ∧ Node.skel n' n) ∧
    (removed = [] → ConvActivationFusion.apply g m = .ok (g1, m)) ∧
    (removed ≠ [] →
      ConvActivationFusion.apply g m =
        match (removed.foldl (fun h i => h.removeNode i) g1).resolve with
        | .ok g3 => .ok (g3, true)
        | .error e => .error e) := by
  refine ⟨skelPreserved_applyScan _ (g, []) g1 removed hscan, ?_, ?_⟩
  · intro hemp
    subst hemp
    unfold ConvActivationFusion.apply
    dsimp only
    rw [hscan]
    rfl
  · intro hne
    unfold ConvActivationFusion.apply
    dsimp only
    rw [hscan]
    cases removed with
    | nil => exact absurd rfl hne
    | cons a as => rfl

/-- The fused node the pass materializes on the scenario graph. -/
def fusedScenarioNode : Node :=
  ⟨3, "fused A", "FusedConv", "com.microsoft", 1,
   "fused Conv Awith activation Relu", [1, 2, 3], [10],
   [("group", "1"), ("activation", "Relu")]⟩

/-- The scenario graph at the end of the scan phase, before removals: both
original nodes still present, `C` rewired to descriptor 10. -/
def gScenarioScan : Graph :=
  ⟨[nodeA, nodeB, { nodeC with inputDefs := [10] }, fusedScenarioNode],
   [⟨0, 1, 0, 0⟩, ⟨3, 2, 0, 0⟩], [30], 4⟩

/-- The scenario graph after `Apply`: `A` and `B` replaced by the fused
node, `C` consuming its output. -/
def gScenarioFused : Graph :=
  ⟨[{ nodeC with inputDefs := [10] }, fusedScenarioNode],
   [⟨3, 2, 0, 0⟩], [30], 4⟩

/-- Witness for C8 on the scenario graph: one fusion occurred, so `Apply`
returns the `Resolve` result with `modified = true`. -/
theorem convActivationFusion_apply_control_flow_witness :
    ConvActivationFusion.apply gScenario false = .ok (gScenarioFused, true) := by
  have h := (convActivationFusion_apply_control_flow gScenario false
    gScenarioScan [1, 0] (by rfl)).2.2 (by simp)
  rw [h]
  rfl

/-- Reading a just-set slot returns the stored value. -/
theorem intGetD_set_self (l : List Int) (i : Nat) (x d : Int)
    (h : i < l.length) : (l.set i x).getD i d = x := by
  simp [List.getD_eq_getElem?_getD, List.getElem?_set_eq_of_lt x h]

/-- Reading another slot is unaffected by a set. -/
theorem intGetD_set_ne (l : List Int) (i j : Nat) (x d : Int) (h : i ≠ j) :
    (l.set i x).getD j d = l.getD j d := by
  simp [List.getD_eq_getElem?_getD, List.getElem?_set_ne h]

/-- The start value `Slice<float>::Compute` stores for the axis listed at
position `i`: the `starts` attribute entry, increased by the axis dimension
when negative, clamped to `[0, dim]`. -/
def sliceStartFor (dims : List Int) (k : SliceKernel) (axes : List Nat)
    (i : Nat) : Int :=
  let axis := axes.getD i 0
  let dim := dims.getD axis 0
  let s0 := k.starts_.getD i 0
  clamp (if s0 < 0 then s0 + dim else s0) 0 dim

/-- The output dimension `Slice<float>::Compute` stores for the axis listed
at position `i`: the clamped (and sign-adjusted) end minus the stored
start. -/
def sliceOutDimFor (dims : List Int) (k : SliceKernel) (axes : List Nat)
    (i : Nat) : Int :=
  let axis := axes.getD i 0
  let dim := dims.getD axis 0
  let e0 := k.ends_.getD i 0
  clamp (if e0 < 0 then e0 + dim else e0) 0 dim - sliceStartFor dims k axes i

/-- Inversion of one successful axis step: the axis was in range, the
resulting dimension non-negative, and the stored values are exactly the
per-axis formulas. -/
theorem sliceAxisStep_ok_inv (dims : List Int) (k : SliceKernel)
    (axes : List Nat) (st od st1 od1 : List Int) (i : Nat)
    (hst : st.length = dims.length) (hod : od.length = dims.length)
    (h : sliceAxisStep dims k axes (st, od) i = .ok (st1, od1)) :
    axes.getD i 0 < dims.length ∧
    0 ≤ sliceOutDimFor dims k axes i ∧
    st1 = st.set (axes.getD i 0) (sliceStartFor dims k axes i) ∧
    od1 = od.set (axes.getD i 0) (sliceOutDimFor dims k axes i) := by
  unfold sliceAxisStep at h
  by_cases hax : axes.getD i 0 ≥ dims.length
  · rw [if_pos hax] at h
    exact Except.noConfusion h
  · rw [if_neg hax] at h
    push_neg at hax
    dsimp only at h
    have haxst : axes.getD i 0 < st.length := by rw [hst]; exact hax
    have haxod : axes.getD i 0 < od.length := by rw [hod]; exact hax
    rw [intGetD_set_self st _ _ _ haxst] at h
    by_cases hneg : (od.set (axes.getD i 0)
        (clamp (if k.ends_.getD i 0 < 0 then
            k.ends_.getD i 0 + dims.getD (axes.getD i 0) 0
          else k.ends_.getD i 0) 0 (dims.getD (axes.getD i 0) 0) -
          clamp (if k.starts_.getD i 0 < 0 then
              k.starts_.getD i 0 + dims.getD (axes.getD i 0) 0
            else k.starts_.getD i 0) 0 (dims.getD (axes.getD i 0) 0))).getD
        (axes.getD i 0) 0 < 0
    · rw [if_pos hneg] at h
      exact Except.noConfusion h
    · rw [if_neg hneg] at h
      rw [intGetD_set_self od _ _ _ haxod] at hneg
      push_neg at hneg
      have h2 : ((st.set (axes.getD i 0) (clamp (if k.starts_.getD i 0 < 0 then
          k.starts_.getD i 0 + dims.getD (axes.getD i 0) 0
        else k.starts_.getD i 0) 0 (dims.getD (axes.getD i 0) 0)),
        od.set (axes.getD i 0) (clamp (if k.ends_.getD i 0 < 0 then
            k.ends_.getD i 0 + dims.getD (axes.getD i 0) 0
          else k.ends_.getD i 0) 0 (dims.getD (axes.getD i 0) 0) -
          clamp (if k.starts_.getD i 0 < 0 then
              k.starts_.getD i 0 + dims.getD (axes.getD i 0) 0
            else k.starts_.getD i 0) 0 (dims.getD (axes.getD i 0) 0))) :
          List Int × List Int) = (st1, od1) := by
        exact Except.ok.inj h
      injection h2 with h3 h4
      refine ⟨hax, ?_, h3.symm, h4.symm⟩
      unfold sliceOutDimFor sliceStartFor
      exact hneg

/-- One axis step fails with `InvalidArgument` on an out-of-range axis or a
negative resulting dimension. -/
theorem sliceAxisStep_err (dims : List Int) (k : SliceKernel)
    (axes : List Nat) (st od : List Int) (i : Nat)
    (hst : st.length = dims.length) (hod : od.length = dims.length)
    (h : dims.length ≤ axes.getD i 0 ∨
      (axes.getD i 0 < dims.length ∧ sliceOutDimFor dims k axes i < 0)) :
    ∃ e : OrtError, sliceAxisStep dims k axes (st, od) i = .error e ∧
      e.code = .INVALID_ARGUMENT := by
  unfold sliceAxisStep
  rcases h with h | ⟨hax, hneg⟩
  · rw [if_pos h]
    exact ⟨_, rfl, rfl⟩
  · rw [if_neg (not_le.mpr hax)]
    dsimp only
    have haxst : axes.getD i 0 < st.length := by rw [hst]; exact hax
    have haxod : axes.getD i 0 < od.length := by rw [hod]; exact hax
    rw [intGetD_set_self st _ _ _ haxst]
    rw [if_pos (by
      rw [intGetD_set_self od _ _ _ haxod]
      unfold sliceOutDimFor sliceStartFor at hneg
      exact hneg)]
    exact ⟨_, rfl, rfl⟩

/-- Characterization of a successful fold of axis steps over a list of
pairwise axis-distinct positions: every listed in-range axis slot holds the
per-axis formulas and every other slot is untouched. -/
theorem sliceFold_ok (dims : List Int) (k : SliceKernel) (axes : List Nat) :
    ∀ (L : List Nat) (st od stF odF : List Int),
    st.length = dims.length → od.length = dims.length →
    L.Nodup →
    (∀ i ∈ L, ∀ j ∈ L, i ≠ j → axes.getD i 0 ≠ axes.getD j 0) →
    L.foldlM (sliceAxisStep dims k axes) (st, od) = .ok (stF, odF) →
    stF.length = dims.length ∧ odF.length = dims.length ∧
    (∀ i ∈ L, axes.getD i 0 < dims.length ∧
      0 ≤ sliceOutDimFor dims k axes i ∧
      stF.getD (axes.getD i 0) 0 = sliceStartFor dims k axes i ∧
      odF.getD (axes.getD i 0) 0 = sliceOutDimFor dims k axes i) ∧
    (∀ a : Nat, (∀ i ∈ L, axes.getD i 0 ≠ a) →
      stF.getD a 0 = st.getD a 0 ∧ odF.getD a 0 = od.getD a 0) := by
  intro L
  induction L with
  | nil =>
      intro st od stF odF hst hod _ _ h
      simp only [List.foldlM_nil] at h
      injection h with h1
      injection h1 with h2 h3
      subst h2; subst h3
      exact ⟨hst, hod, by simp, fun a _ => ⟨rfl, rfl⟩⟩
  | cons i L ih =>
      intro st od stF odF hst hod hnodup hnd h
      rw [List.foldlM_cons] at h
      cases hs : sliceAxisStep dims k axes (st, od) i with
      | error e => rw [hs] at h; exact Except.noConfusion h
      | ok s1 =>
          rw [hs] at h
          obtain ⟨st1, od1⟩ := s1
          obtain ⟨hax, hpos, hst1, hod1⟩ :=
            sliceAxisStep_ok_inv dims k axes st od st1 od1 i hst hod hs
          have hst1len : st1.length = dims.length := by
            rw [hst1, List.length_set]; exact hst
          have hod1len : od1.length = dims.length := by
            rw [hod1, List.length_set]; exact hod
          have hndL : ∀ x ∈ L, ∀ y ∈ L, x ≠ y →
              axes.getD x 0 ≠ axes.getD y 0 :=
            fun x hx y hy => hnd x (List.mem_cons_of_mem i hx)
              y (List.mem_cons_of_mem i hy)
          obtain ⟨hiL, hLnodup⟩ := List.nodup_cons.mp hnodup
          obtain ⟨hstF, hodF, hfacts, huntouched⟩ :=
            ih st1 od1 stF odF hst1len hod1len hLnodup hndL h
          have hinotL : ∀ x ∈ L, axes.getD x 0 ≠ axes.getD i 0 := by
            intro x hx
            refine hnd x (List.mem_cons_of_mem i hx) i (List.mem_cons_self i L) ?_
            intro hxy
            subst hxy
            exact hiL hx
          refine ⟨hstF, hodF, ?_, ?_⟩
          · intro x hx
            rcases List.mem_cons.mp hx with hxi | hxL
            · subst hxi
              refine ⟨hax, hpos, ?_, ?_⟩
              · have := (huntouched (axes.getD x 0) (fun y hy => hinotL y hy)).1
                rw [this, hst1, intGetD_set_self st _ _ _ (by rw [hst]; exact hax)]
              · have := (huntouched (axes.getD x 0) (fun y hy => hinotL y hy)).2
                rw [this, hod1, intGetD_set_self od _ _ _ (by rw [hod]; exact hax)]
            · exact hfacts x hxL
          · intro a ha
            have haL : ∀ x ∈ L, axes.getD x 0 ≠ a :=
              fun x hx => ha x (List.mem_cons_of_mem i hx)
            have hai : axes.getD i 0 ≠ a := ha i (List.mem_cons_self i L)
            obtain ⟨h1, h2⟩ := huntouched a haL
            constructor
            · rw [h1, hst1, intGetD_set_ne st _ _ _ _ hai]
            · rw [h2, hod1, intGetD_set_ne od _ _ _ _ hai]

/-- Forward form of one successful axis step. -/
theorem sliceAxisStep_ok (dims : List Int) (k : SliceKernel) (axes : List Nat)
    (st od : List Int) (i : Nat)
    (hst : st.length = dims.length) (hod : od.length = dims.length)
    (hax : axes.getD i 0 < dims.length)
    (hpos : 0 ≤ sliceOutDimFor dims k axes i) :
    sliceAxisStep dims k axes (st, od) i =
      .ok (st.set (axes.getD i 0) (sliceStartFor dims k axes i),
           od.set (axes.getD i 0) (sliceOutDimFor dims k axes i)) := by
  unfold sliceAxisStep
  rw [if_neg (not_le.mpr hax)]
  dsimp only
  rw [intGetD_set_self st _ _ _ (by rw [hst]; exact hax)]
  rw [if_neg (by
    rw [intGetD_set_self od _ _ _ (by rw [hod]; exact hax)]
    unfold sliceOutDimFor sliceStartFor at hpos
    exact not_lt.mpr hpos)]
  unfold sliceOutDimFor sliceStartFor
  rfl

/-- A fold of axis steps over in-range axes fails with `InvalidArgument` as
soon as some listed axis yields a negative output dimension. -/
theorem sliceFold_err (dims : List Int) (k : SliceKernel) (axes : List Nat) :
    ∀ (L : List Nat) (st od : List Int),
    st.length = dims.length → od.length = dims.length →
    (∀ i ∈ L, axes.getD i 0 < dims.length) →
    (∃ i ∈ L, sliceOutDimFor dims k axes i < 0) →
    ∃ e : OrtError,
      L.foldlM (sliceAxisStep dims k axes) (st, od) = .error e ∧
      e.code = .INVALID_ARGUMENT := by
  intro L
  induction L with
  | nil =>
      intro st od _ _ _ hbad
      obtain ⟨i, hi, _⟩ := hbad
      exact absurd hi (List.not_mem_nil i)
  | cons i L ih =>
      intro st od hst hod hax hbad
      by_cases hneg : sliceOutDimFor dims k axes i < 0
      · obtain ⟨e, he, hc⟩ := sliceAxisStep_err dims k axes st od i hst hod
          (Or.inr ⟨hax i (List.mem_cons_self i L), hneg⟩)
        refine ⟨e, ?_, hc⟩
        rw [List.foldlM_cons, he]
        rfl
      · have hok := sliceAxisStep_ok dims k axes st od i hst hod
          (hax i (List.mem_cons_self i L)) (not_lt.mp hneg)
        have hbad' : ∃ x ∈ L, sliceOutDimFor dims k axes x < 0 := by
          obtain ⟨x, hx, hxneg⟩ := hbad
          rcases List.mem_cons.mp hx with hxi | hxL
          · subst hxi
            exact absurd hxneg hneg
          · exact ⟨x, hxL, hxneg⟩
        have := ih (st.set (axes.getD i 0) (sliceStartFor dims k axes i))
          (od.set (axes.getD i 0) (sliceOutDimFor dims k axes i))
          (by rw [List.length_set]; exact hst)
          (by rw [List.length_set]; exact hod)
          (fun x hx => hax x (List.mem_cons_of_mem i hx)) hbad'
        rw [List.foldlM_cons, hok]
        exact this

/-- Claim C9.  Index arithmetic of `Slice<float>::Compute` (with pairwise
distinct listed axes, as the ONNX `Slice` schema requires, and non-negative
input dimensions): on success, every listed axis is in range, its stored
start is the sign-adjusted clamped start, its stored output dimension is
the clamped end minus the clamped start and is non-negative, and the
number of elements written to the output is exactly the (non-negative)
product of the output dimensions; and whenever the listed axes are in range
but some difference is negative, `Compute` fails with `InvalidArgument`. -/
theorem slice_compute_index_arithmetic (dims : List Int) (k : SliceKernel)
    (hnd : ∀ x ∈ List.range (sliceAxes dims k).length,
      ∀ y ∈ List.range (sliceAxes dims k).length, x ≠ y →
        (sliceAxes dims k).getD x 0 ≠ (sliceAxes dims k).getD y 0)
    (hdims : ∀ d ∈ dims, (0 : Int) ≤ d) :
    (∀ st od n, Slice.compute dims k = .ok (st, od, n) →
      (∀ i < (sliceAxes dims k).length,
        (sliceAxes dims k).getD i 0 < dims.length ∧
        0 ≤ sliceOutDimFor dims k (sliceAxes dims k) i ∧
        st.getD ((sliceAxes dims k).getD i 0) 0 =
          sliceStartFor dims k (sliceAxes dims k) i ∧
        od.getD ((sliceAxes dims k).getD i 0) 0 =
          sliceOutDimFor dims k (sliceAxes dims k) i) ∧
      0 ≤ od.prod ∧ n = od.prod.toNat) ∧
    ((sliceAxes dims k).length ≤ k.starts_.length →
     (sliceAxes dims k).length ≤ k.ends_.length →
     (∀ i < (sliceAxes dims k).length,
       (sliceAxes dims k).getD i 0 < dims.length) →
     (∃ i, i < (sliceAxes dims k).length ∧
       sliceOutDimFor dims k (sliceAxes dims k) i < 0) →
     ∃ e, Slice.compute dims k = .error e ∧
       e.code = .INVALID_ARGUMENT) := by
  constructor
  · intro st od n h
    unfold Slice.compute at h
    by_cases h1 : (sliceAxes dims k).length > k.starts_.length
    · rw [if_pos h1] at h
      exact Except.noConfusion h
    · rw [if_neg h1] at h
      by_cases h2 : (sliceAxes dims k).length > k.ends_.length
      · rw [if_pos h2] at h
        exact Except.noConfusion h
      · rw [if_neg h2] at h
        dsimp only at h
        cases hfold : (List.range (sliceAxes dims k).length).foldlM
            (sliceAxisStep dims k (sliceAxes dims k))
            (List.replicate dims.length 0, dims) with
        | error e =>
            rw [hfold] at h
            exact Except.noConfusion h
        | ok s =>
            rw [hfold] at h
            obtain ⟨st', od'⟩ := s
            have h3 : (Except.ok (st', od', od'.prod.toNat) :
                Except OrtError (List Int × List Int × Nat)) =
                .ok (st, od, n) := h
            injection h3 with h4
            injection h4 with h5 h6
            injection h6 with h7 h8
            obtain ⟨hstlen, hodlen, hfacts, huntouched⟩ :=
              sliceFold_ok dims k (sliceAxes dims k)
                (List.range (sliceAxes dims k).length)
                (List.replicate dims.length 0) dims st' od'
                (List.length_replicate _ _) rfl (List.nodup_range _) hnd hfold
            subst h5
            subst h7
            subst h8
            refine ⟨?_, ?_, rfl⟩
            · intro i hi
              exact hfacts i (List.mem_range.mpr hi)
            · refine List.prod_nonneg ?_
              intro x hx
              obtain ⟨a, ha, hxa⟩ := List.getElem_of_mem hx
              have hxa' : od'.getD a 0 = x := by
                rw [List.getD_eq_getElem?_getD, List.getElem?_eq_getElem ha, hxa]
                rfl
              by_cases hsome : ∃ i ∈ List.range (sliceAxes dims k).length,
                  (sliceAxes dims k).getD i 0 = a
              · obtain ⟨i, hi, hia⟩ := hsome
                obtain ⟨_, hpos, _, hodval⟩ := hfacts i hi
                rw [hia] at hodval
                rw [← hxa', hodval]
                exact hpos
              · push_neg at hsome
                have huat := (huntouched a hsome).2
                rw [← hxa', huat]
                by_cases ha2 : a < dims.length
                · rw [List.getD_eq_getElem dims 0 ha2]
                  exact hdims _ (List.getElem_mem ha2)
                · rw [List.getD_eq_default _ _ (not_lt.mp ha2)]
  · intro h1 h2 hax hbad
    unfold Slice.compute
    rw [if_neg (not_lt.mpr h1), if_neg (not_lt.mpr h2)]
    dsimp only
    obtain ⟨i, hi, hneg⟩ := hbad
    obtain ⟨e, he, hc⟩ := sliceFold_err dims k (sliceAxes dims k)
      (List.range (sliceAxes dims k).length)
      (List.replicate dims.length 0) dims
      (List.length_replicate _ _) rfl
      (fun x hx => hax x (List.mem_range.mp hx))
      ⟨i, List.mem_range.mpr hi, hneg⟩
    refine ⟨e, ?_, hc⟩
    rw [he]
    rfl

/-- Witness for C9 on a concrete 2-D slice with a negative start and a
negative end. -/
theorem slice_compute_index_arithmetic_witness :
    Slice.compute [10, 20] ⟨[-5, 3], [100, -2], [], false⟩ =
      .ok ([5, 3], [5, 15], 75) ∧
    sliceStartFor [10, 20] ⟨[-5, 3], [100, -2], [], false⟩
      (sliceAxes [10, 20] ⟨[-5, 3], [100, -2], [], false⟩) 0 = 5 ∧
    sliceOutDimFor [10, 20] ⟨[-5, 3], [100, -2], [], false⟩
      (sliceAxes [10, 20] ⟨[-5, 3], [100, -2], [], false⟩) 1 = 15 := by
  have h := (slice_compute_index_arithmetic [10, 20]
    ⟨[-5, 3], [100, -2], [], false⟩ (by decide) (by decide)).1
    [5, 3] [5, 15] 75 (by rfl)
  refine ⟨by rfl, ?_, ?_⟩
  · have h0 := (h.1 0 (by decide)).2.2.1
    exact h0.symm.trans (by decide)
  · have h1 := (h.1 1 (by decide)).2.2.2
    exact h1.symm.trans (by decide)

/-- The minimum fold backing `topoPick` yields a member of the folded
list (or the seed). -/
theorem topoPick_fold_mem :
    ∀ (xs : List Nat) (acc : Option Nat) (m : Nat),
    xs.foldl (fun acc i =>
      match acc with
      | none => some i
      | some j => some (min i j)) acc = some m →
    acc = some m ∨ m ∈ xs := by
  intro xs
  induction xs with
  | nil =>
      intro acc m h
      exact Or.inl h
  | cons x xs ih =>
      intro acc m h
      rcases ih _ m h with hacc | hmem
      · cases acc with
        | none =>
            simp only at hacc
            injection hacc with hx
            exact Or.inr (by rw [← hx]; exact List.mem_cons_self x xs)
        | some j =>
            simp only at hacc
            injection hacc with hx
            rcases min_choice x j with hm | hm
            · rw [hm] at hx
              exact Or.inr (by rw [← hx]; exact List.mem_cons_self x xs)
            · rw [hm] at hx
              exact Or.inl (by rw [hx])
      · exact Or.inr (List.mem_cons_of_mem x hmem)

/-- A successful `topoPick` returns a ready member of `remaining`. -/
theorem topoPick_mem (edges : List Edge) (remaining : List Nat) (i : Nat)
    (h : topoPick edges remaining = some i) :
    i ∈ remaining ∧ topoReady edges remaining i = true := by
  unfold topoPick at h
  rcases topoPick_fold_mem _ none i h with hacc | hmem
  · exact Option.noConfusion hacc
  · have := List.mem_filter.mp hmem
    exact ⟨this.1, this.2⟩

/-- The accumulator of `topoGo` is a pure prefix. -/
theorem topoGo_acc (edges : List Edge) :
    ∀ (fuel : Nat) (rem acc : List Nat),
    topoGo edges fuel rem acc = acc ++ topoGo edges fuel rem [] := by
  intro fuel
  induction fuel with
  | zero => intro rem acc; simp [topoGo]
  | succ fuel ih =>
      intro rem acc
      unfold topoGo
      cases hp : topoPick edges rem with
      | none => simp
      | some i =>
          dsimp only
          rw [ih (rem.erase i) (acc ++ [i]), ih (rem.erase i) ([] ++ [i])]
          simp

/-- Everything scheduled by `topoGo` came from `remaining`. -/
theorem topoGo_subset (edges : List Edge) :
    ∀ (fuel : Nat) (rem : List Nat) (x : Nat),
    x ∈ topoGo edges fuel rem [] → x ∈ rem := by
  intro fuel
  induction fuel with
  | zero => intro rem x h; simp [topoGo] at h
  | succ fuel ih =>
      intro rem x h
      unfold topoGo at h
      cases hp : topoPick edges rem with
      | none => rw [hp] at h; simp at h
      | some i =>
          rw [hp] at h
          dsimp only at h
          rw [topoGo_acc edges fuel (rem.erase i) ([] ++ [i])] at h
          simp only [List.nil_append, List.cons_append, List.mem_cons] at h
          rcases h with h | h
          · rw [h]; exact (topoPick_mem edges rem i hp).1
          · have hx := ih (rem.erase i) x (by simpa using h)
            exact List.mem_of_mem_erase hx

/-- The schedule is duplicate-free when `remaining` is. -/
theorem topoGo_nodup (edges : List Edge) :
    ∀ (fuel : Nat) (rem : List Nat), rem.Nodup →
    (topoGo edges fuel rem []).Nodup := by
  intro fuel
  induction fuel with
  | zero => intro rem _; simp [topoGo]
  | succ fuel ih =>
      intro rem hrem
      unfold topoGo
      cases hp : topoPick edges rem with
      | none => simp
      | some i =>
          dsimp only
          rw [topoGo_acc edges fuel (rem.erase i) ([] ++ [i])]
          simp only [List.nil_append, List.cons_append, List.nodup_cons]
          constructor
          · intro hmem
            have hx := topoGo_subset edges fuel (rem.erase i) i (by simpa using hmem)
            exact List.Nodup.not_mem_erase hrem hx
          · simpa using ih (rem.erase i) (List.Nodup.erase i hrem)

/-- A scheduled node has no self-loop among the edges. -/
theorem topoGo_no_self_loop (edges : List Edge) :
    ∀ (fuel : Nat) (rem : List Nat) (i s t : Nat),
    i ∈ topoGo edges fuel rem [] →
    (⟨i, i, s, t⟩ : Edge) ∈ edges → False := by
  intro fuel
  induction fuel with
  | zero => intro rem i s t h _; simp [topoGo] at h
  | succ fuel ih =>
      intro rem i s t h hedge
      unfold topoGo at h
      cases hp : topoPick edges rem with
      | none => rw [hp] at h; simp at h
      | some i0 =>
          rw [hp] at h
          dsimp only at h
          rw [topoGo_acc edges fuel (rem.erase i0) ([] ++ [i0])] at h
          simp only [List.nil_append, List.cons_append, List.mem_cons] at h
          rcases h with h | h
          · subst h
            obtain ⟨hm, hready⟩ := topoPick_mem edges rem i hp
            unfold topoReady at hready
            have hfalse := List.all_eq_true.mp hready _ hedge
            simp only [beq_self_eq_true, Bool.true_and, Bool.not_eq_true'] at hfalse
            have hc : rem.contains i = true := by simpa using hm
            rw [hfalse] at hc
            exact Bool.noConfusion hc
          · exact ih (rem.erase i0) i s t (by simpa using h) hedge

/-- Membership in the topological order implies membership in the node
table. -/
theorem topoOrder_subset (g : Graph) (x : Nat)
    (h : x ∈ g.getNodesInTopologicalOrder) :
    x ∈ g.nodes.map Node.index :=
  topoGo_subset g.edges g.nodes.length (g.nodes.map Node.index) x h

/-- The topological order is duplicate-free for a duplicate-free node
table. -/
theorem topoOrder_nodup (g : Graph) (h : (g.nodes.map Node.index).Nodup) :
    g.getNodesInTopologicalOrder.Nodup :=
  topoGo_nodup g.edges g.nodes.length (g.nodes.map Node.index) h

/-- No node in the topological order carries a self-loop edge. -/
theorem topoOrder_no_self_loop (g : Graph) (i s t : Nat)
    (h : i ∈ g.getNodesInTopologicalOrder)
    (he : (⟨i, i, s, t⟩ : Edge) ∈ g.edges) : False :=
  topoGo_no_self_loop g.edges g.nodes.length (g.nodes.map Node.index) i s t h he

/-- Membership criterion for the derived edge set. -/
theorem mem_derivedEdges (nodes : List Node) (e : Edge) :
    e ∈ derivedEdges nodes ↔
    ∃ p, p ∈ nodes ∧ ∃ c, c ∈ nodes ∧ p.index = e.src ∧ c.index = e.dst ∧
      e.srcSlot < p.outputDefs.length ∧ e.dstSlot < c.inputDefs.length ∧
      p.outputDefs[e.srcSlot]? = c.inputDefs[e.dstSlot]? := by
  unfold derivedEdges
  simp only [List.mem_flatMap, List.mem_filterMap, List.mem_range]
  constructor
  · rintro ⟨c, hc, j, hj, p, hp, i, hi, hite⟩
    by_cases hcond : p.outputDefs[i]? = c.inputDefs[j]?
    · rw [if_pos hcond] at hite
      injection hite with he
      subst he
      exact ⟨p, hp, c, hc, rfl, rfl, hi, hj, hcond⟩
    · rw [if_neg hcond] at hite
      exact Option.noConfusion hite
  · rintro ⟨p, hp, c, hc, hsrc, hdst, hi, hj, hcond⟩
    refine ⟨c, hc, e.dstSlot, hj, p, hp, e.srcSlot, hi, ?_⟩
    rw [if_pos hcond, hsrc, hdst]

/-- A successful `getNode` returns a member with the requested index. -/
theorem getNode_mem (g : Graph) (i : Nat) (n : Node)
    (h : g.getNode i = some n) : n ∈ g.nodes ∧ n.index = i := by
  refine ⟨List.mem_of_find?_eq_some h, ?_⟩
  have := List.find?_some h
  simpa using this

/-- In a duplicate-free node table, two members with the same index are
equal. -/
theorem mem_index_inj :
    ∀ (l : List Node), (l.map Node.index).Nodup →
    ∀ x ∈ l, ∀ y ∈ l, x.index = y.index → x = y := by
  intro l
  induction l with
  | nil => intro _ x hx; simp at hx
  | cons m l ih =>
      intro hnd x hx y hy hxy
      simp only [List.map_cons, List.nodup_cons] at hnd
      rcases List.mem_cons.mp hx with hx1 | hx2
      · rcases List.mem_cons.mp hy with hy1 | hy2
        · rw [hx1, hy1]
        · rw [hx1]
          rw [hx1] at hxy
          exact absurd (by rw [hxy]; exact List.mem_map_of_mem Node.index hy2)
            hnd.1
      · rcases List.mem_cons.mp hy with hy1 | hy2
        · rw [hy1]
          rw [hy1] at hxy
          exact absurd (by rw [← hxy]; exact List.mem_map_of_mem Node.index hx2)
            hnd.1
        · exact ih hnd.2 x hx2 y hy2 hxy

/-- In a duplicate-free node table, `getNode` finds each member. -/
theorem getNode_of_mem (g : Graph) (n : Node)
    (hnd : (g.nodes.map Node.index).Nodup) (hn : n ∈ g.nodes) :
    g.getNode n.index = some n := by
  unfold Graph.getNode
  have main : ∀ (l : List Node), (l.map Node.index).Nodup → n ∈ l →
      l.find? (fun x => x.index == n.index) = some n := by
    intro l
    induction l with
    | nil => intro _ h; simp at h
    | cons m l ih =>
        intro hnd2 hmem
        simp only [List.map_cons, List.nodup_cons] at hnd2
        rcases List.mem_cons.mp hmem with hm | hm
        · subst hm
          simp [List.find?]
        · have hne : (m.index == n.index) = false := by
            rcases hx : (m.index == n.index) with _ | _
            · rfl
            · exact absurd (by
                rw [beq_iff_eq] at hx
                rw [hx]
                exact List.mem_map_of_mem Node.index hm) hnd2.1
          rw [List.find?]
          rw [hne]
          exact ih hnd2.2 hm
  exact main g.nodes hnd hn

/-- Two distinct members force length at least two. -/
theorem two_mem_two_le_length {α : Type} :
    ∀ (l : List α) (a b : α), a ∈ l → b ∈ l → a ≠ b → 2 ≤ l.length := by
  intro l
  induction l with
  | nil => intro a b ha; simp at ha
  | cons x xs ih =>
      intro a b ha hb hne
      rcases List.mem_cons.mp ha with ha1 | ha2 <;>
        rcases List.mem_cons.mp hb with hb1 | hb2
      · exact absurd (ha1.trans hb1.symm) hne
      · have := List.length_pos_of_mem hb2
        simp only [List.length_cons]
        omega
      · have := List.length_pos_of_mem ha2
        simp only [List.length_cons]
        omega
      · have := ih a b ha2 hb2 hne
        simp only [List.length_cons]
        omega

/-- Bridge between `getElem?` and `getD` on in-range indices. -/
theorem getElem?_eq_some_getD (l : List Nat) (i : Nat) (h : i < l.length) :
    l[i]? = some (l.getD i 0) := by
  rw [List.getElem?_eq_getElem h, List.getD_eq_getElem l 0 h]

/-- Validity of a graph handed to the fusion pass: a resolved,
schema-conforming graph.  The cached edge set agrees with the descriptor
bindings, node indices are unique and below the fresh counter, every
descriptor has a unique producing slot, activations have one input and one
output, Conv has one output, and the graph is acyclic (every node is
scheduled by the viewer). -/
structure ValidGraph (g : Graph) : Prop where
  nodes_nodup : (g.nodes.map Node.index).Nodup
  index_lt : ∀ n ∈ g.nodes, n.index < g.nextIndex
  edges_nodup : g.edges.Nodup
  edges_to_derived : ∀ e ∈ g.edges, e ∈ derivedEdges g.nodes
  derived_to_edges : ∀ e ∈ derivedEdges g.nodes, e ∈ g.edges
  single_producer : ∀ p ∈ g.nodes, ∀ q ∈ g.nodes,
    ∀ i < p.outputDefs.length, ∀ j < q.outputDefs.length,
    p.outputDefs.getD i 0 = q.outputDefs.getD j 0 → p = q ∧ i = j
  act_arity : ∀ n ∈ g.nodes, isFusableActivation n = true →
    n.inputDefs.length = 1 ∧ n.outputDefs.length = 1
  conv_arity : ∀ n ∈ g.nodes, convMatch n = true → n.outputDefs.length = 1
  topo_complete : ∀ n ∈ g.nodes, n.index ∈ g.getNodesInTopologicalOrder

/-- A (Conv, activation) pair the scan fuses: the Conv satisfies the full
fusion predicate and the activation is its sole consumer. -/
def candPair (g : Graph) (c a : Node) : Prop :=
  c ∈ g.nodes ∧ isFusionCandidate g c = true ∧
  ∃ e0, (g.outputEdges c.index).head? = some e0 ∧ g.getNode e0.dst = some a

/-- A Conv-like node is never a fusable activation (schema versions 1 vs 6
differ). -/
theorem convMatch_not_fusable (n : Node) (h : convMatch n = true) :
    isFusableActivation n = false := by
  unfold convMatch isSupportedOptypeVersionAndDomain at h
  simp only [Bool.and_eq_true, beq_iff_eq] at h
  unfold isFusableActivation isSupportedOptypeVersionAndDomain
  simp [h.1.2]

/-- Structural facts about a candidate pair in a valid graph. -/
theorem candPair_facts (g : Graph) (hv : ValidGraph g) (c a : Node)
    (h : candPair g c a) :
    a ∈ g.nodes ∧ a.index ≠ c.index ∧ convMatch c = true ∧
    isFusableActivation a = true ∧
    g.isNodeOutputsInGraphOutputs a = false ∧
    c.outputDefs.length = 1 ∧ a.inputDefs.length = 1 ∧
    a.outputDefs.length = 1 ∧
    ∃ e0, e0 ∈ g.edges ∧ e0.src = c.index ∧ e0.dst = a.index ∧
      e0.srcSlot = 0 ∧ e0.dstSlot = 0 ∧
      (∀ e ∈ g.edges, e.src = c.index → e = e0) ∧
      (g.outputEdges c.index).head? = some e0 ∧ g.getNode e0.dst = some a ∧
      a.inputDefs.getD 0 0 = c.outputDefs.getD 0 0 := by
  obtain ⟨hc, hcand, e0, hhead, hgeta⟩ := h
  obtain ⟨hamem, haidx⟩ := getNode_mem g e0.dst a hgeta
  unfold isFusionCandidate at hcand
  rw [hhead] at hcand
  dsimp only at hcand
  rw [hgeta] at hcand
  dsimp only at hcand
  simp only [Bool.and_eq_true, beq_iff_eq, Bool.not_eq_true'] at hcand
  obtain ⟨⟨hcm, hcount⟩, hfus, hgo⟩ := hcand
  have hcarity := hv.conv_arity c hc hcm
  have haarity := hv.act_arity a hamem hfus
  have he0mem : e0 ∈ g.outputEdges c.index := by
    have hne : g.outputEdges c.index ≠ [] := by
      intro hnil
      rw [hnil] at hhead
      exact Option.noConfusion hhead
    cases hx : g.outputEdges c.index with
    | nil => exact absurd hx hne
    | cons y ys =>
        rw [hx] at hhead
        simp only [List.head?] at hhead
        injection hhead with hy
        rw [← hy]
        exact List.mem_cons_self y ys
  have hsingle : g.outputEdges c.index = [e0] := by
    obtain ⟨x, hx⟩ := List.length_eq_one.mp hcount
    rw [hx] at he0mem
    simp only [List.mem_singleton] at he0mem
    rw [hx, he0mem]
  have he0edges : e0 ∈ g.edges ∧ e0.src = c.index := by
    have := List.mem_filter.mp (by rw [← Graph.outputEdges]; exact he0mem)
    exact ⟨this.1, by simpa using this.2⟩
  have huniq : ∀ e ∈ g.edges, e.src = c.index → e = e0 := by
    intro e he hesrc
    have : e ∈ g.outputEdges c.index := by
      unfold Graph.outputEdges
      exact List.mem_filter.mpr ⟨he, by simpa using hesrc⟩
    rw [hsingle] at this
    simpa using this
  obtain ⟨p, hp, cn, hcn, hpsrc, hcndst, hsslot, hdslot, hdefs⟩ :=
    (mem_derivedEdges g.nodes e0).mp (hv.edges_to_derived e0 he0edges.1)
  have hpc : p = c := by
    refine mem_index_inj g.nodes hv.nodes_nodup p hp c hc ?_
    rw [hpsrc, he0edges.2]
  have hcna : cn = a := by
    refine mem_index_inj g.nodes hv.nodes_nodup cn hcn a hamem ?_
    rw [hcndst, haidx]
  rw [hpc] at hsslot hdefs
  rw [hcna] at hdslot hdefs
  have hsslot0 : e0.srcSlot = 0 := by
    have hlen := hcarity
    omega
  have hdslot0 : e0.dstSlot = 0 := by
    have hlen := haarity.1
    omega
  have hdefeq : a.inputDefs.getD 0 0 = c.outputDefs.getD 0 0 := by
    rw [hsslot0] at hdefs
    rw [hdslot0] at hdefs
    rw [getElem?_eq_some_getD _ _ (by rw [hcarity]; omega),
      getElem?_eq_some_getD _ _ (by rw [haarity.1]; omega)] at hdefs
    injection hdefs with hd
    rw [hd]
  have hane : a.index ≠ c.index := by
    intro heq
    have hac : a = c := mem_index_inj g.nodes hv.nodes_nodup a hamem c hc heq
    rw [hac] at hfus
    rw [convMatch_not_fusable c hcm] at hfus
    exact Bool.noConfusion hfus
  exact ⟨hamem, hane, hcm, hfus, hgo, hcarity, haarity.1, haarity.2,
    e0, he0edges.1, he0edges.2, haidx.symm, hsslot0, hdslot0, huniq, hhead,
    hgeta, hdefeq⟩

/-- Nat-list version of reading a just-set slot. -/
theorem natGetD_set_self (l : List Nat) (i : Nat) (x d : Nat)
    (h : i < l.length) : (l.set i x).getD i d = x := by
  simp [List.getD_eq_getElem?_getD, List.getElem?_set_eq_of_lt x h]

/-- Nat-list version of reading another slot after a set. -/
theorem natGetD_set_ne (l : List Nat) (i j : Nat) (x d : Nat) (h : i ≠ j) :
    (l.set i x).getD j d = l.getD j d := by
  simp [List.getD_eq_getElem?_getD, List.getElem?_set_ne h]

/-- All fields of two nodes agree except possibly the input-def values (the
input-def count still agrees). -/
def eqExceptInputs (x y : Node) : Prop :=
  x.index = y.index ∧ x.name = y.name ∧ x.opType = y.opType ∧
  x.domain = y.domain ∧ x.sinceVersion = y.sinceVersion ∧
  x.description = y.description ∧ x.outputDefs = y.outputDefs ∧
  x.attributes = y.attributes ∧ x.inputDefs.length = y.inputDefs.length

/-- `eqExceptInputs` is reflexive. -/
theorem eqExceptInputs_refl (x : Node) : eqExceptInputs x x :=
  ⟨rfl, rfl, rfl, rfl, rfl, rfl, rfl, rfl, rfl⟩

/-- `eqExceptInputs` is transitive. -/
theorem eqExceptInputs_trans {x y z : Node} (h1 : eqExceptInputs x y)
    (h2 : eqExceptInputs y z) : eqExceptInputs x z := by
  obtain ⟨a1, a2, a3, a4, a5, a6, a7, a8, a9⟩ := h1
  obtain ⟨b1, b2, b3, b4, b5, b6, b7, b8, b9⟩ := h2
  exact ⟨a1.trans b1, a2.trans b2, a3.trans b3, a4.trans b4, a5.trans b5,
    a6.trans b6, a7.trans b7, a8.trans b8, a9.trans b9⟩

/-- Membership in the set-insertion of an edge. -/
theorem mem_insertEdge (e x : Edge) (es : List Edge) :
    x ∈ insertEdge e es ↔ x = e ∨ x ∈ es := by
  unfold insertEdge
  by_cases h : e ∈ es
  · rw [if_pos h]
    constructor
    · exact fun hx => Or.inr hx
    · rintro (rfl | hx)
      · exact h
      · exact hx
  · rw [if_neg h]
    simp [or_comm]

/-- Set-insertion preserves duplicate-freedom. -/
theorem nodup_insertEdge (e : Edge) (es : List Edge) (h : es.Nodup) :
    (insertEdge e es).Nodup := by
  unfold insertEdge
  by_cases hm : e ∈ es
  · rw [if_pos hm]; exact h
  · rw [if_neg hm]
    refine List.Nodup.append h (List.nodup_singleton e) ?_
    intro a haes hae
    simp only [List.mem_singleton] at hae
    subst hae
    exact hm haes

/-- The node table of an `updateNode`. -/
theorem updateNode_nodes (g : Graph) (i : Nat) (f : Node → Node) :
    (g.updateNode i f).nodes =
      g.nodes.map (fun z => if z.index == i then f z else z) := rfl

/-- `updateNode` with an index-preserving function preserves the index
list. -/
theorem updateNode_map_index (g : Graph) (i : Nat) (f : Node → Node)
    (hf : ∀ z, (f z).index = z.index) :
    (g.updateNode i f).nodes.map Node.index = g.nodes.map Node.index := by
  rw [updateNode_nodes, List.map_map]
  refine List.map_congr_left ?_
  intro z _
  by_cases h : (z.index == i) = true
  · simp [Function.comp, h, hf]
  · simp only [Function.comp]
    rw [if_neg (by simp_all)]

/-- `getNode` after an index-preserving `updateNode`. -/
theorem getNode_updateNode (g : Graph) (i j : Nat) (f : Node → Node)
    (hf : ∀ z, (f z).index = z.index) :
    (g.updateNode i f).getNode j =
      (g.getNode j).map (fun z => if z.index == i then f z else z) := by
  unfold Graph.getNode
  rw [updateNode_nodes, List.find?_map]
  have hpred : ((fun n : Node => n.index == j) ∘
      fun z => if (z.index == i) = true then f z else z) =
      (fun n : Node => n.index == j) := by
    funext z
    simp only [Function.comp]
    by_cases h : (z.index == i) = true
    · rw [if_pos h, hf z]
    · rw [if_neg h]
  rw [hpred]

/-- Success form of `addEdge`: the destination slot is rebound to the
source's output def and the edge is inserted. -/
theorem addEdge_spec (g : Graph) (src dst srcSlot dstSlot : Nat)
    (sn dn : Node) (dval : Nat)
    (hsn : g.getNode src = some sn) (hdn : g.getNode dst = some dn)
    (hval : sn.outputDefs[srcSlot]? = some dval)
    (hslot : dstSlot < dn.inputDefs.length) :
    g.addEdge src dst srcSlot dstSlot =
      { (g.updateNode dst (fun n =>
          { n with inputDefs := n.inputDefs.set dstSlot dval })) with
        edges := insertEdge ⟨src, dst, srcSlot, dstSlot⟩
          (g.updateNode dst (fun n =>
            { n with inputDefs := n.inputDefs.set dstSlot dval })).edges } := by
  unfold Graph.addEdge
  rw [hsn, hdn]
  dsimp only
  rw [hval]
  dsimp only
  rw [if_pos hslot]

/-- Outcome of the edge-rewiring fold of `HandleActivationNodeEdges`,
relative to the starting graph and the snapshot `L`. -/
structure HandleFoldOut (hstart hh : Graph) (L : List Edge) (FI fd : Nat) :
    Prop where
  node_fwd : ∀ z ∈ hstart.nodes, ∃ z', z' ∈ hh.nodes ∧ eqExceptInputs z' z ∧
    (∀ j, (∃ e ∈ L, e.dst = z.index ∧ e.dstSlot = j) →
      z'.inputDefs.getD j 0 = fd) ∧
    (∀ j, (¬∃ e ∈ L, e.dst = z.index ∧ e.dstSlot = j) →
      z'.inputDefs.getD j 0 = z.inputDefs.getD j 0)
  node_bwd : ∀ z' ∈ hh.nodes, ∃ z, z ∈ hstart.nodes ∧ eqExceptInputs z' z ∧
    (∀ j, (∃ e ∈ L, e.dst = z.index ∧ e.dstSlot = j) →
      z'.inputDefs.getD j 0 = fd) ∧
    (∀ j, (¬∃ e ∈ L, e.dst = z.index ∧ e.dstSlot = j) →
      z'.inputDefs.getD j 0 = z.inputDefs.getD j 0)
  edge_iff : ∀ x, x ∈ hh.edges ↔ (x ∈ hstart.edges ∧ x ∉ L) ∨
    (∃ e ∈ L, x = ⟨FI, e.dst, 0, e.dstSlot⟩)
  hh_edges_nodup : hh.edges.Nodup
  houts_eq : hh.graphOutputs = hstart.graphOutputs
  hnext_eq : hh.nextIndex = hstart.nextIndex
  hindex_nodup : (hh.nodes.map Node.index).Nodup

/-- The edge-rewiring fold: removes exactly the snapshot edges, adds the
fused-source copies, and rebinds exactly the snapshot slots to the fused
node's first output def. -/
theorem handleFold_spec (A FI fd : Nat) (hFA : FI ≠ A) :
    ∀ (L : List Edge) (h : Graph),
    (h.nodes.map Node.index).Nodup →
    h.edges.Nodup →
    (∃ F, h.getNode FI = some F ∧ F.outputDefs[0]? = some fd) →
    (∀ e ∈ L, e.src = A ∧ e.dst ≠ FI ∧
      ∃ d, d ∈ h.nodes ∧ d.index = e.dst ∧ e.dstSlot < d.inputDefs.length) →
    HandleFoldOut h
      (L.foldl (fun h2 e =>
        (h2.removeEdge A e.dst e.srcSlot e.dstSlot).addEdge FI e.dst 0
          e.dstSlot) h) L FI fd := by
  intro L
  induction L with
  | nil =>
      intro h hnd hend _ _
      refine ⟨?_, ?_, ?_, hend, rfl, rfl, hnd⟩
      · intro z hz
        exact ⟨z, hz, eqExceptInputs_refl z, by simp, fun j _ => rfl⟩
      · intro z hz
        exact ⟨z, hz, eqExceptInputs_refl z, by simp, fun j _ => rfl⟩
      · intro x
        simp
  | cons e L ih =>
      intro h hnd hend hF hL
      obtain ⟨F, hgetF, hFval⟩ := hF
      obtain ⟨hesrc, hedst, d, hd, hdidx, hdslot⟩ := hL e (List.mem_cons_self e L)
      have hFidx : F.index = FI := (getNode_mem h FI F hgetF).2
      have hgetd : h.getNode e.dst = some d := by
        rw [← hdidx]
        exact getNode_of_mem h d hnd hd
      have hee : e = ⟨A, e.dst, e.srcSlot, e.dstSlot⟩ := by
        cases e
        simp_all
      set zf := fun z : Node =>
        if z.index == e.dst then
          { z with inputDefs := z.inputDefs.set e.dstSlot fd } else z with hzf
      have hzfidx : ∀ z : Node, (zf z).index = z.index := by
        intro z
        rw [hzf]
        dsimp only
        by_cases hcase : (z.index == e.dst) = true
        · rw [if_pos hcase]
        · rw [if_neg hcase]
      have hzflen : ∀ z : Node, (zf z).inputDefs.length = z.inputDefs.length := by
        intro z
        rw [hzf]
        dsimp only
        by_cases hcase : (z.index == e.dst) = true
        · rw [if_pos hcase]
          exact List.length_set _ _ _
        · rw [if_neg hcase]
      have hzfeq : ∀ z : Node, eqExceptInputs (zf z) z := by
        intro z
        rw [hzf]
        dsimp only
        by_cases hcase : (z.index == e.dst) = true
        · rw [if_pos hcase]
          exact ⟨rfl, rfl, rfl, rfl, rfl, rfl, rfl, rfl, List.length_set _ _ _⟩
        · rw [if_neg hcase]
          exact eqExceptInputs_refl z
      have hzfne : ∀ z : Node, z.index ≠ e.dst → zf z = z := by
        intro z hz
        rw [hzf]
        dsimp only
        rw [if_neg (by simpa using hz)]
      have hzfyes : ∀ z : Node, z.index = e.dst →
          zf z = { z with inputDefs := z.inputDefs.set e.dstSlot fd } := by
        intro z hz
        rw [hzf]
        dsimp only
        rw [if_pos (by simpa using hz)]
      set hrem := h.removeEdge A e.dst e.srcSlot e.dstSlot with hhrem
      have hremedges : hrem.edges = h.edges.filter (fun x => x ≠ e) := by
        rw [hhrem]
        unfold Graph.removeEdge
        rw [← hee]
      have hremget : ∀ i, hrem.getNode i = h.getNode i := fun i => rfl
      have hstep : (h.removeEdge A e.dst e.srcSlot e.dstSlot).addEdge FI e.dst
          0 e.dstSlot =
          { (hrem.updateNode e.dst (fun n =>
              { n with inputDefs := n.inputDefs.set e.dstSlot fd })) with
            edges := insertEdge ⟨FI, e.dst, 0, e.dstSlot⟩
              (hrem.updateNode e.dst (fun n =>
                { n with inputDefs := n.inputDefs.set e.dstSlot fd })).edges } := by
        refine addEdge_spec hrem FI e.dst 0 e.dstSlot F d fd ?_ ?_ hFval hdslot
        · rw [hremget]; exact hgetF
        · rw [hremget]; exact hgetd
      set h1 := { (hrem.updateNode e.dst (fun n =>
          { n with inputDefs := n.inputDefs.set e.dstSlot fd })) with
        edges := insertEdge ⟨FI, e.dst, 0, e.dstSlot⟩
          (hrem.updateNode e.dst (fun n =>
            { n with inputDefs := n.inputDefs.set e.dstSlot fd })).edges }
        with hh1
      have h1nodes : h1.nodes = h.nodes.map zf := rfl
      have h1edges : h1.edges = insertEdge ⟨FI, e.dst, 0, e.dstSlot⟩
          (h.edges.filter (fun x => x ≠ e)) := by
        rw [hh1]
        show insertEdge _ hrem.edges = _
        rw [hremedges]
      have h1outs : h1.graphOutputs = h.graphOutputs := rfl
      have h1next : h1.nextIndex = h.nextIndex := rfl
      have h1nodup : (h1.nodes.map Node.index).Nodup := by
        rw [h1nodes, List.map_map]
        have : (Node.index ∘ zf) = Node.index := by
          funext z
          exact hzfidx z
        rw [this]
        exact hnd
      have h1endup : h1.edges.Nodup := by
        rw [h1edges]
        exact nodup_insertEdge _ _ (List.Nodup.filter _ hend)
      have hFne : (F.index == e.dst) = false := by
        rw [hFidx]
        simp only [beq_eq_false_iff_ne, ne_eq]
        exact fun hcon => hedst hcon.symm
      have h1getF : ∃ F', h1.getNode FI = some F' ∧
          F'.outputDefs[0]? = some fd := by
        refine ⟨F, ?_, hFval⟩
        have hmain := getNode_updateNode hrem e.dst FI (fun n =>
          { n with inputDefs := n.inputDefs.set e.dstSlot fd }) (fun z => rfl)
        have hcast : h1.getNode FI = (hrem.updateNode e.dst (fun n =>
            { n with inputDefs := n.inputDefs.set e.dstSlot fd })).getNode FI := rfl
        rw [hcast, hmain, hremget, hgetF]
        dsimp only [Option.map]
        rw [if_neg (by rw [hFne]; exact Bool.false_ne_true)]
      have h1L : ∀ e' ∈ L, e'.src = A ∧ e'.dst ≠ FI ∧
          ∃ d', d' ∈ h1.nodes ∧ d'.index = e'.dst ∧
            e'.dstSlot < d'.inputDefs.length := by
        intro e' he'
        obtain ⟨ha', hb', d', hd', hd'idx, hd'slot⟩ := hL e'
          (List.mem_cons_of_mem e he')
        refine ⟨ha', hb', zf d', ?_, ?_, ?_⟩
        · rw [h1nodes]
          exact List.mem_map.mpr ⟨d', hd', rfl⟩
        · rw [hzfidx d']
          exact hd'idx
        · rw [hzflen d']
          exact hd'slot
      have hout := ih h1 h1nodup h1endup h1getF h1L
      rw [List.foldl_cons, hstep]
      have hebound : ∀ z : Node, z ∈ h.nodes → z.index = e.dst →
          e.dstSlot < z.inputDefs.length := by
        intro z hz hdz
        have hdzeq : d = z :=
          mem_index_inj h.nodes hnd d hd z hz (by rw [hdidx, hdz])
        rw [← hdzeq]
        exact hdslot
      have hcompose : ∀ (z z' : Node), z ∈ h.nodes →
          eqExceptInputs z' (zf z) →
          (∀ j, (∃ e2 ∈ L, e2.dst = (zf z).index ∧ e2.dstSlot = j) →
            z'.inputDefs.getD j 0 = fd) →
          (∀ j, (¬∃ e2 ∈ L, e2.dst = (zf z).index ∧ e2.dstSlot = j) →
            z'.inputDefs.getD j 0 = (zf z).inputDefs.getD j 0) →
          eqExceptInputs z' z ∧
          (∀ j, (∃ e2 ∈ e :: L, e2.dst = z.index ∧ e2.dstSlot = j) →
            z'.inputDefs.getD j 0 = fd) ∧
          (∀ j, (¬∃ e2 ∈ e :: L, e2.dst = z.index ∧ e2.dstSlot = j) →
            z'.inputDefs.getD j 0 = z.inputDefs.getD j 0) := by
        intro z z' hz heq hswap hkeep
        refine ⟨eqExceptInputs_trans heq (hzfeq z), ?_, ?_⟩
        · intro j hj
          obtain ⟨e2, he2, he2dst, he2slot⟩ := hj
          by_cases hcaseL : ∃ e3 ∈ L, e3.dst = z.index ∧ e3.dstSlot = j
          · refine hswap j ?_
            rw [hzfidx z]
            exact hcaseL
          · have he2e : e2 = e := by
              rcases List.mem_cons.mp he2 with h2 | h2
              · exact h2
              · exact absurd ⟨e2, h2, he2dst, he2slot⟩ hcaseL
            rw [he2e] at he2dst he2slot
            have hkeepj := hkeep j (by
              rw [hzfidx z]
              exact hcaseL)
            rw [hkeepj]
            rw [hzfyes z he2dst.symm]
            show List.getD (z.inputDefs.set e.dstSlot fd) j 0 = fd
            rw [← he2slot]
            exact natGetD_set_self _ _ _ _ (hebound z hz he2dst.symm)
        · intro j hj
          have hnoL : ¬∃ e3 ∈ L, e3.dst = (zf z).index ∧ e3.dstSlot = j := by
            rw [hzfidx z]
            intro hcon
            obtain ⟨e3, he3, h3d, h3s⟩ := hcon
            exact hj ⟨e3, List.mem_cons_of_mem e he3, h3d, h3s⟩
          have hkeepj := hkeep j hnoL
          rw [hkeepj]
          by_cases hcase : z.index = e.dst
          · rw [hzfyes z hcase]
            show List.getD (z.inputDefs.set e.dstSlot fd) j 0 =
              z.inputDefs.getD j 0
            refine natGetD_set_ne _ _ _ _ _ ?_
            intro hcon
            exact hj ⟨e, List.mem_cons_self e L, hcase.symm, hcon⟩
          · rw [hzfne z hcase]
      constructor
      · intro z hz
        have hz1 : zf z ∈ h1.nodes := by
          rw [h1nodes]
          exact List.mem_map.mpr ⟨z, hz, rfl⟩
        obtain ⟨z', hz', heq, hswap, hkeep⟩ := hout.node_fwd _ hz1
        obtain ⟨heq', hswap', hkeep'⟩ := hcompose z z' hz heq hswap hkeep
        exact ⟨z', hz', heq', hswap', hkeep'⟩
      · intro z' hz'
        obtain ⟨z1, hz1, heq, hswap, hkeep⟩ := hout.node_bwd z' hz'
        rw [h1nodes] at hz1
        obtain ⟨z, hz, hz1eq⟩ := List.mem_map.mp hz1
        rw [← hz1eq] at heq hswap hkeep
        obtain ⟨heq', hswap', hkeep'⟩ := hcompose z z' hz heq hswap hkeep
        exact ⟨z, hz, heq', hswap', hkeep'⟩
      · intro x
        rw [hout.edge_iff x]
        constructor
        · rintro (⟨hx1, hxL⟩ | ⟨e2, he2, hx2⟩)
          · rw [h1edges] at hx1
            rcases (mem_insertEdge _ _ _).mp hx1 with hxe | hxe
            · exact Or.inr ⟨e, List.mem_cons_self e L, hxe⟩
            · have hxf := List.mem_filter.mp hxe
              refine Or.inl ⟨hxf.1, ?_⟩
              intro hcon
              rcases List.mem_cons.mp hcon with h2 | h2
              · have : x ≠ e := by simpa using hxf.2
                exact this h2
              · exact hxL h2
          · exact Or.inr ⟨e2, List.mem_cons_of_mem e he2, hx2⟩
        · rintro (⟨hx1, hxL⟩ | ⟨e2, he2, hx2⟩)
          · refine Or.inl ⟨?_, fun hc => hxL (List.mem_cons_of_mem e hc)⟩
            rw [h1edges]
            refine (mem_insertEdge _ _ _).mpr (Or.inr ?_)
            refine List.mem_filter.mpr ⟨hx1, ?_⟩
            simp only [ne_eq, decide_eq_true_eq]
            intro hcon
            exact hxL (by rw [hcon]; exact List.mem_cons_self e L)
          · rcases List.mem_cons.mp he2 with h2 | h2
            · rw [h2] at hx2
              refine Or.inl ⟨?_, ?_⟩
              · rw [h1edges]
                exact (mem_insertEdge _ _ _).mpr (Or.inl hx2)
              · intro hcon
                have hsrcA := (hL _ (List.mem_cons_of_mem e hcon)).1
                rw [hx2] at hsrcA
                exact hFA hsrcA
            · exact Or.inr ⟨e2, h2, hx2⟩
      · exact hout.hh_edges_nodup
      · rw [hout.houts_eq]
        exact h1outs
      · rw [hout.hnext_eq]
        exact h1next
      · exact hout.hindex_nodup

/-- `getNode` on a node table ending in `n` finds `n` at `n.index` when no
earlier node shares the index. -/
theorem getNode_append_last (g : Graph) (base : List Node) (n : Node)
    (hg : g.nodes = base ++ [n]) (hb : ∀ z ∈ base, z.index ≠ n.index) :
    g.getNode n.index = some n := by
  unfold Graph.getNode
  rw [hg]
  clear hg
  induction base with
  | nil => simp [List.find?]
  | cons z zs ih =>
      rw [List.cons_append, List.find?]
      have hz : (z.index == n.index) = false := by
        simpa using hb z (List.mem_cons_self z zs)
      rw [hz]
      exact ih (fun w hw => hb w (List.mem_cons_of_mem z hw))

/-- `AddAttribute` at the index of the last node touches only that node. -/
theorem addAttribute_append_last (g : Graph) (base : List Node) (n : Node)
    (i : Nat) (k v : String) (hg : g.nodes = base ++ [n]) (hi : n.index = i)
    (hb : ∀ z ∈ base, z.index ≠ i) :
    (g.addAttribute i k v).nodes =
      base ++ [{ n with attributes := addAttr n.attributes k v }] ∧
    (g.addAttribute i k v).edges = g.edges ∧
    (g.addAttribute i k v).graphOutputs = g.graphOutputs ∧
    (g.addAttribute i k v).nextIndex = g.nextIndex := by
  refine ⟨?_, rfl, rfl, rfl⟩
  unfold Graph.addAttribute
  rw [updateNode_nodes, hg, List.map_append]
  have h1 : List.map (fun z : Node => if (z.index == i) = true then
      { z with attributes := addAttr z.attributes k v } else z) base =
      List.map id base := by
    refine List.map_congr_left ?_
    intro z hz
    rw [if_neg (by simpa using hb z hz)]
    rfl
  rw [h1, List.map_id]
  have h2 : (n.index == i) = true := by simpa using hi
  simp only [List.map_cons, List.map_nil, h2, if_pos]

/-- A left fold of `AddAttribute` calls at the last node's index rewrites
only that node's attribute list, by the mirrored `addAttr` fold. -/
theorem addAttribute_fold_last (ps : List (String × String)) :
    ∀ (g : Graph) (base : List Node) (n : Node) (i : Nat),
    g.nodes = base ++ [n] → n.index = i → (∀ z ∈ base, z.index ≠ i) →
    ((ps.foldl (fun h p => h.addAttribute i p.1 p.2) g).nodes =
      base ++ [{ n with
        attributes := ps.foldl (fun l p => addAttr l p.1 p.2) n.attributes }]) ∧
    (ps.foldl (fun h p => h.addAttribute i p.1 p.2) g).edges = g.edges ∧
    (ps.foldl (fun h p => h.addAttribute i p.1 p.2) g).graphOutputs =
      g.graphOutputs ∧
    (ps.foldl (fun h p => h.addAttribute i p.1 p.2) g).nextIndex =
      g.nextIndex := by
  induction ps with
  | nil =>
      intro g base n i hg hi hb
      exact ⟨hg, rfl, rfl, rfl⟩
  | cons p ps ih =>
      intro g base n i hg hi hb
      have hstep := addAttribute_append_last g base n i p.1 p.2 hg hi hb
      have hih := ih (g.addAttribute i p.1 p.2) base
        { n with attributes := addAttr n.attributes p.1 p.2 } i hstep.1 hi hb
      rw [List.foldl_cons]
      refine ⟨hih.1, ?_, ?_, ?_⟩
      · rw [hih.2.1, hstep.2.1]
      · rw [hih.2.2.1, hstep.2.2.1]
      · rw [hih.2.2.2, hstep.2.2.2]

/-- Attribute list of the fused node as the source computes it:
`AddAttribute("activation", act.OpType())` on the Conv node's attributes,
then for LeakyRelu a copy of every activation attribute. -/
def fusedAttrs (c a : Node) : List (String × String) :=
  if a.opType == "LeakyRelu" then
    a.attributes.foldl (fun l p => addAttr l p.1 p.2)
      (addAttr c.attributes "activation" a.opType)
  else addAttr c.attributes "activation" a.opType

/-- The node `makeFusedNode` appends: the Conv node's inputs, the Conv
node's outputs, operator `FusedConv` in the `com.microsoft` domain, and
`fusedAttrs`. -/
def fusedNodeFor (g : Graph) (c a : Node) : Node :=
  { index := g.nextIndex,
    name := g.generateNodeName ("fused " ++ c.name),
    opType := "FusedConv", domain := "com.microsoft", sinceVersion := 1,
    description := "fused Conv " ++ c.name ++ "with activation " ++ a.opType,
    inputDefs := c.inputDefs, outputDefs := c.outputDefs,
    attributes := fusedAttrs c a }

/-- Full characterization of `makeFusedNode`: it appends exactly
`fusedNodeFor`, leaves every pre-existing node, the edge cache and the graph
outputs untouched, and bumps the fresh-index counter. -/
theorem makeFusedNode_out (g : Graph) (c a : Node)
    (hlt : ∀ n ∈ g.nodes, n.index < g.nextIndex) :
    (makeFusedNode g c a).nodes = g.nodes ++ [fusedNodeFor g c a] ∧
    (makeFusedNode g c a).edges = g.edges ∧
    (makeFusedNode g c a).graphOutputs = g.graphOutputs ∧
    (makeFusedNode g c a).nextIndex = g.nextIndex + 1 := by
  have hb : ∀ z ∈ g.nodes, z.index ≠ g.nextIndex :=
    fun z hz => Nat.ne_of_lt (hlt z hz)
  unfold makeFusedNode
  dsimp only
  have hg1 : (g.addNode (g.generateNodeName ("fused " ++ c.name)) "FusedConv"
      ("fused Conv " ++ c.name ++ "with activation " ++ a.opType)
      c.inputDefs c.outputDefs c.attributes "com.microsoft").nodes =
      g.nodes ++ [(⟨g.nextIndex, g.generateNodeName ("fused " ++ c.name),
        "FusedConv", "com.microsoft", 1,
        "fused Conv " ++ c.name ++ "with activation " ++ a.opType,
        c.inputDefs, c.outputDefs, c.attributes⟩ : Node)] := rfl
  have hstep := addAttribute_append_last _ g.nodes _ g.nextIndex
    "activation" a.opType hg1 rfl hb
  by_cases hop : (a.opType == "LeakyRelu") = true
  · rw [if_pos hop]
    have hfold := addAttribute_fold_last a.attributes _ g.nodes _ g.nextIndex
      hstep.1 rfl hb
    refine ⟨?_, ?_, ?_, ?_⟩
    · rw [hfold.1]
      unfold fusedNodeFor fusedAttrs
      rw [if_pos hop]
    · rw [hfold.2.1, hstep.2.1]
      rfl
    · rw [hfold.2.2.1, hstep.2.2.1]
      rfl
    · rw [hfold.2.2.2, hstep.2.2.2]
      rfl
  · rw [if_neg hop]
    refine ⟨?_, ?_, ?_, ?_⟩
    · rw [hstep.1]
      unfold fusedNodeFor fusedAttrs
      rw [if_neg hop]
    · rw [hstep.2.1]
      rfl
    · rw [hstep.2.2.1]
      rfl
    · rw [hstep.2.2.2]
      rfl

/-- `Node::AddAttribute` makes the added key resolve to the added value. -/
theorem attrLookup_addAttr_self (l : List (String × String)) (k v : String) :
    attrLookup (addAttr l k v) k = some v := by
  induction l with
  | nil => simp [addAttr, attrLookup, List.find?]
  | cons p l ih =>
      unfold addAttr at ih ⊢
      by_cases hpk : (p.1 == k) = true
      · rw [if_pos (by simp [List.any_cons, hpk])]
        simp only [List.map_cons, if_pos hpk]
        unfold attrLookup
        rw [List.find?]
        simp
      · have hpk' : (p.1 == k) = false := by
          rw [← Bool.not_eq_true]
          exact hpk
        by_cases hany : (l.any (fun q => q.1 == k)) = true
        · rw [if_pos (by simp [List.any_cons, hpk', hany])]
          rw [if_pos hany] at ih
          simp only [List.map_cons, if_neg hpk]
          unfold attrLookup at ih ⊢
          rw [List.find?, hpk']
          exact ih
        · have hany' : (l.any (fun q => q.1 == k)) = false := by
            rw [← Bool.not_eq_true]
            exact hany
          rw [if_neg (by simp [List.any_cons, hpk', hany'])]
          rw [if_neg hany] at ih
          unfold attrLookup at ih ⊢
          rw [List.cons_append, List.find?, hpk']
          exact ih

/-- `Node::AddAttribute` leaves the resolution of every other key alone. -/
theorem attrLookup_addAttr_ne (l : List (String × String)) (k k2 v : String)
    (h : k ≠ k2) : attrLookup (addAttr l k v) k2 = attrLookup l k2 := by
  have hkk : (k == k2) = false := by simpa using h
  induction l with
  | nil => simp [addAttr, attrLookup, List.find?, hkk]
  | cons p l ih =>
      unfold addAttr at ih ⊢
      by_cases hpk : (p.1 == k) = true
      · rw [if_pos (by simp [List.any_cons, hpk])]
        simp only [List.map_cons, if_pos hpk]
        unfold attrLookup
        rw [List.find?, List.find?, hkk]
        have hp2 : (p.1 == k2) = false := by
          rw [beq_iff_eq] at hpk
          rw [hpk]
          exact hkk
        rw [hp2]
        by_cases hany : (l.any (fun q => q.1 == k)) = true
        · rw [if_pos hany] at ih
          unfold attrLookup at ih
          exact ih
        · rw [if_neg hany] at ih
          unfold attrLookup at ih
          have hmapid : List.map (fun q : String × String =>
              if (q.1 == k) = true then (k, v) else q) l = l := by
            refine (List.map_congr_left ?_).trans (List.map_id l)
            intro q hq
            have hq' : (q.1 == k) = false := by
              rw [← Bool.not_eq_true]
              intro hcon
              exact hany (List.any_eq_true.mpr ⟨q, hq, hcon⟩)
            rw [hq']
            rfl
          rw [hmapid]
      · have hpk' : (p.1 == k) = false := by
          rw [← Bool.not_eq_true]
          exact hpk
        by_cases hany : (l.any (fun q => q.1 == k)) = true
        · rw [if_pos (by simp [List.any_cons, hpk', hany])]
          rw [if_pos hany] at ih
          simp only [List.map_cons, if_neg hpk]
          unfold attrLookup at ih ⊢
          rw [List.find?, List.find?]
          cases hp2 : (p.1 == k2) with
          | true => rfl
          | false => exact ih
        · have hany' : (l.any (fun q => q.1 == k)) = false := by
            rw [← Bool.not_eq_true]
            exact hany
          rw [if_neg (by simp [List.any_cons, hpk', hany'])]
          rw [if_neg hany] at ih
          unfold attrLookup at ih ⊢
          rw [List.cons_append, List.find?, List.find?]
          cases hp2 : (p.1 == k2) with
          | true => rfl
          | false => exact ih

/-- A fold of `AddAttribute` calls over keys other than `k` leaves `k`'s
resolution alone. -/
theorem attrLookup_attrFold_notmem (ps : List (String × String)) :
    ∀ (l : List (String × String)) (k : String), (∀ p ∈ ps, p.1 ≠ k) →
    attrLookup (ps.foldl (fun l2 p => addAttr l2 p.1 p.2) l) k =
      attrLookup l k := by
  induction ps with
  | nil => intro l k _; rfl
  | cons p ps ih =>
      intro l k hk
      rw [List.foldl_cons]
      rw [ih (addAttr l p.1 p.2) k (fun q hq => hk q (List.mem_cons_of_mem p hq))]
      exact attrLookup_addAttr_ne l p.1 k p.2 (hk p (List.mem_cons_self p ps))

/-- A fold of `AddAttribute` calls over a duplicate-free attribute map makes
every entry of the map resolve to its value. -/
theorem attrLookup_attrFold_mem (ps : List (String × String)) :
    ∀ (l : List (String × String)) (k v : String),
    (ps.map Prod.fst).Nodup → (k, v) ∈ ps →
    attrLookup (ps.foldl (fun l2 p => addAttr l2 p.1 p.2) l) k = some v := by
  induction ps with
  | nil => intro l k v _ hm; simp at hm
  | cons p ps ih =>
      intro l k v hnd hm
      simp only [List.map_cons, List.nodup_cons] at hnd
      rw [List.foldl_cons]
      rcases List.mem_cons.mp hm with hm1 | hm2
      · have hpk : p.1 = k := by rw [← hm1]
        have hknotin : ∀ q ∈ ps, q.1 ≠ k := by
          intro q hq hcon
          refine hnd.1 ?_
          rw [hpk, ← hcon]
          exact List.mem_map_of_mem Prod.fst hq
        rw [attrLookup_attrFold_notmem ps (addAttr l p.1 p.2) k hknotin]
        rw [← hm1]
        exact attrLookup_addAttr_self l k v
      · exact ih (addAttr l p.1 p.2) k v hnd.2 hm2

/-- Counterexample to claim C4 as stated: on the end-to-end scenario graph
the replacement node materialized by `ConvActivationFusion::Apply` carries
the Conv node's output definitions, not the activation node's — the source
passes `conv_node->MutableOutputDefs()` to `AddNode`, so the fused node
produces descriptor 10 (Conv's output), not descriptor 20 (Relu's
output). -/
theorem fusedConv_outputs_counterexample :
    ConvActivationFusion.apply gScenario false = .ok (gScenarioFused, true) ∧
    gScenarioFused.getNode 3 = some fusedScenarioNode ∧
    fusedScenarioNode.inputDefs = nodeA.inputDefs ∧
    fusedScenarioNode.outputDefs = nodeA.outputDefs ∧
    nodeA.outputDefs ≠ nodeB.outputDefs :=
  ⟨by rfl, by rfl, by rfl, by rfl, by decide⟩

/-- Claim C4, amended.  The replacement node materialized for a fused
(Conv, activation) pair carries the Conv node's inputs, the Conv node's own
outputs (not the activation's), operator `FusedConv` in domain
`com.microsoft`, the Conv node's attributes extended with an `activation`
attribute recording the subsumed operator, and, when the activation is
`LeakyRelu`, a copy of every attribute of the activation. -/
theorem fusedConv_node_contents (g : Graph) (c a : Node)
    (hlt : ∀ n ∈ g.nodes, n.index < g.nextIndex)
    (hknd : (a.attributes.map Prod.fst).Nodup)
    (hak : ∀ p ∈ a.attributes, p.1 ≠ "activation") :
    (makeFusedNode g c a).nodes = g.nodes ++ [fusedNodeFor g c a] ∧
    (fusedNodeFor g c a).inputDefs = c.inputDefs ∧
    (fusedNodeFor g c a).outputDefs = c.outputDefs ∧
    (fusedNodeFor g c a).opType = "FusedConv" ∧
    (fusedNodeFor g c a).domain = "com.microsoft" ∧
    attrLookup (fusedNodeFor g c a).attributes "activation" = some a.opType ∧
    (a.opType = "LeakyRelu" → ∀ k v, (k, v) ∈ a.attributes →
      attrLookup (fusedNodeFor g c a).attributes k = some v) := by
  refine ⟨(makeFusedNode_out g c a hlt).1, rfl, rfl, rfl, rfl, ?_, ?_⟩
  · show attrLookup (fusedAttrs c a) "activation" = some a.opType
    unfold fusedAttrs
    by_cases hop : (a.opType == "LeakyRelu") = true
    · rw [if_pos hop]
      rw [attrLookup_attrFold_notmem a.attributes _ "activation" hak]
      exact attrLookup_addAttr_self c.attributes "activation" a.opType
    · rw [if_neg hop]
      exact attrLookup_addAttr_self c.attributes "activation" a.opType
  · intro hop k v hm
    show attrLookup (fusedAttrs c a) k = some v
    unfold fusedAttrs
    rw [if_pos (by simpa using hop)]
    exact attrLookup_attrFold_mem a.attributes _ k v hknd hm

/-- Witness for the amended C4 on the scenario graph's (Conv, Relu) pair. -/
theorem fusedConv_node_contents_witness :
    (makeFusedNode gScenario nodeA nodeB).nodes =
      gScenario.nodes ++ [fusedNodeFor gScenario nodeA nodeB] ∧
    (fusedNodeFor gScenario nodeA nodeB).inputDefs = nodeA.inputDefs ∧
    (fusedNodeFor gScenario nodeA nodeB).outputDefs = nodeA.outputDefs ∧
    (fusedNodeFor gScenario nodeA nodeB).opType = "FusedConv" ∧
    (fusedNodeFor gScenario nodeA nodeB).domain = "com.microsoft" ∧
    attrLookup (fusedNodeFor gScenario nodeA nodeB).attributes "activation" =
      some nodeB.opType ∧
    (nodeB.opType = "LeakyRelu" → ∀ k v, (k, v) ∈ nodeB.attributes →
      attrLookup (fusedNodeFor gScenario nodeA nodeB).attributes k = some v) :=
  fusedConv_node_contents gScenario nodeA nodeB (by decide) (by decide)
    (by decide)

/-- One fusion on a well-shaped snapshot: `fuseStep` succeeds, and its
result is exactly the `HandleFoldOut` rewiring of the graph extended with
the fused node.  The downstream input-def replacement loop of the source is
vacuous because rewiring has already removed every outgoing edge of the
activation. -/
theorem fuseStep_spec (st : Graph) (n2 a2 : Node)
    (hnodup : (st.nodes.map Node.index).Nodup)
    (hednup : st.edges.Nodup)
    (hlt : ∀ z ∈ st.nodes, z.index < st.nextIndex)
    (ha2m : a2 ∈ st.nodes)
    (houts : 0 < n2.outputDefs.length)
    (hLdst : ∀ e ∈ st.outputEdges a2.index, ∃ d, d ∈ st.nodes ∧
      d.index = e.dst ∧ e.dstSlot < d.inputDefs.length) :
    ∃ g5, fuseStep st n2 a2 = .ok g5 ∧
      HandleFoldOut (makeFusedNode st n2 a2) g5 (st.outputEdges a2.index)
        st.nextIndex (n2.outputDefs.getD 0 0) := by
  have hmk := makeFusedNode_out st n2 a2 hlt
  have hfidx : (fusedNodeFor st n2 a2).index = st.nextIndex := rfl
  have h3nodup : ((makeFusedNode st n2 a2).nodes.map Node.index).Nodup := by
    rw [hmk.1, List.map_append]
    refine List.Nodup.append hnodup ?_ ?_
    · simp
    · intro x hx hx2
      simp only [List.map_cons, List.map_nil, List.mem_singleton, hfidx] at hx2
      obtain ⟨z, hz, hzx⟩ := List.mem_map.mp hx
      rw [hx2] at hzx
      exact absurd hzx (Nat.ne_of_lt (hlt z hz))
  have h3ednup : (makeFusedNode st n2 a2).edges.Nodup := by
    rw [hmk.2.1]
    exact hednup
  have hgetF : (makeFusedNode st n2 a2).getNode st.nextIndex =
      some (fusedNodeFor st n2 a2) := by
    rw [← hfidx]
    refine getNode_append_last _ st.nodes _ hmk.1 ?_
    intro z hz
    rw [hfidx]
    exact Nat.ne_of_lt (hlt z hz)
  have hFval : (fusedNodeFor st n2 a2).outputDefs[0]? =
      some (n2.outputDefs.getD 0 0) := by
    show n2.outputDefs[0]? = some (n2.outputDefs.getD 0 0)
    exact getElem?_eq_some_getD n2.outputDefs 0 houts
  have hLprops : ∀ e ∈ st.outputEdges a2.index, e.src = a2.index ∧
      e.dst ≠ st.nextIndex ∧ ∃ d, d ∈ (makeFusedNode st n2 a2).nodes ∧
        d.index = e.dst ∧ e.dstSlot < d.inputDefs.length := by
    intro e he
    obtain ⟨d, hd, hdidx, hdslot⟩ := hLdst e he
    have hsrc : e.src = a2.index := by
      have := List.mem_filter.mp he
      simpa using this.2
    refine ⟨hsrc, ?_, d, ?_, hdidx, hdslot⟩
    · rw [← hdidx]
      exact Nat.ne_of_lt (hlt d hd)
    · rw [hmk.1]
      exact List.mem_append_left _ hd
  have hFA : st.nextIndex ≠ a2.index :=
    (Nat.ne_of_lt (hlt a2 ha2m)).symm
  have hout := handleFold_spec a2.index st.nextIndex (n2.outputDefs.getD 0 0)
    hFA (st.outputEdges a2.index) (makeFusedNode st n2 a2) h3nodup h3ednup
    ⟨fusedNodeFor st n2 a2, hgetF, hFval⟩ hLprops
  have hL3 : (makeFusedNode st n2 a2).outputEdges a2.index =
      st.outputEdges a2.index := by
    unfold Graph.outputEdges
    rw [hmk.2.1]
  have hhand : handleActivationNodeEdges (makeFusedNode st n2 a2) a2
      st.nextIndex =
      (st.outputEdges a2.index).foldl (fun h2 e =>
        (h2.removeEdge a2.index e.dst e.srcSlot e.dstSlot).addEdge
          st.nextIndex e.dst 0 e.dstSlot) (makeFusedNode st n2 a2) := by
    unfold handleActivationNodeEdges
    rw [hL3]
  rw [← hhand] at hout
  refine ⟨handleActivationNodeEdges (makeFusedNode st n2 a2) a2 st.nextIndex,
    ?_, hout⟩
  have hnil : (handleActivationNodeEdges (makeFusedNode st n2 a2) a2
      st.nextIndex).outputEdges a2.index = [] := by
    unfold Graph.outputEdges
    rw [List.filter_eq_nil_iff]
    intro x hx
    rcases (hout.edge_iff x).mp hx with ⟨hx1, hx2⟩ | ⟨e2, he2, hx2⟩
    · intro hcon
      refine hx2 ?_
      refine List.mem_filter.mpr ⟨?_, hcon⟩
      rw [← hmk.2.1]
      exact hx1
    · intro hcon
      simp only [beq_iff_eq] at hcon
      rw [hx2] at hcon
      exact hFA hcon
  show (makeFusedNode st n2 a2 |> fun g3 =>
    handleActivationNodeEdges g3 a2 st.nextIndex |> fun g4 =>
    replaceDownstreamInputDefs g4 a2 st.nextIndex) = _
  dsimp only
  unfold replaceDownstreamInputDefs
  rw [hnil]
  rfl

/-- On a valid graph, the activation's outgoing edges of a candidate pair
point exactly at the in-range input slots holding the activation's output
descriptor. -/
theorem candL_slot (g : Graph) (hv : ValidGraph g) (c a : Node)
    (hca : candPair g c a) (z : Node) (hz : z ∈ g.nodes) (j : Nat) :
    (∃ e ∈ g.outputEdges a.index, e.dst = z.index ∧ e.dstSlot = j) ↔
    (j < z.inputDefs.length ∧
     z.inputDefs.getD j 0 = a.outputDefs.getD 0 0) := by
  obtain ⟨hamem, hane, hcm, hfus, hgo, hclen, halen, haolen, e0, hrest⟩ :=
    candPair_facts g hv c a hca
  constructor
  · rintro ⟨e, he, hedst, heslot⟩
    have hef := List.mem_filter.mp he
    have hesrc : e.src = a.index := by simpa using hef.2
    obtain ⟨p, hp, cn, hcn, hpsrc, hcndst, hss, hds, hdefs⟩ :=
      (mem_derivedEdges g.nodes e).mp (hv.edges_to_derived e hef.1)
    have hpa : p = a := by
      refine mem_index_inj g.nodes hv.nodes_nodup p hp a hamem ?_
      rw [hpsrc, hesrc]
    have hcnz : cn = z := by
      refine mem_index_inj g.nodes hv.nodes_nodup cn hcn z hz ?_
      rw [hcndst, hedst]
    rw [hpa] at hss hdefs
    rw [hcnz] at hds hdefs
    have hss0 : e.srcSlot = 0 := by
      rw [haolen] at hss
      omega
    rw [hss0] at hdefs
    rw [heslot] at hds hdefs
    refine ⟨hds, ?_⟩
    rw [getElem?_eq_some_getD _ _ (by rw [haolen]; omega),
      getElem?_eq_some_getD _ _ hds] at hdefs
    injection hdefs with hd
    rw [hd]
  · rintro ⟨hj, hdj⟩
    refine ⟨⟨a.index, z.index, 0, j⟩, ?_, rfl, rfl⟩
    have hmem : (⟨a.index, z.index, 0, j⟩ : Edge) ∈ derivedEdges g.nodes := by
      refine (mem_derivedEdges g.nodes _).mpr
        ⟨a, hamem, z, hz, rfl, rfl,
         by show 0 < a.outputDefs.length; rw [haolen]; omega,
         by show j < z.inputDefs.length; exact hj, ?_⟩
      show a.outputDefs[0]? = z.inputDefs[j]?
      rw [getElem?_eq_some_getD _ _ (by rw [haolen]; omega),
        getElem?_eq_some_getD _ _ hj, hdj]
    refine List.mem_filter.mpr ⟨hv.derived_to_edges _ hmem, by simp⟩

/-- Claim C5.  Rewiring postcondition of one fusion: `fuseStep` succeeds,
every outgoing edge the activation had is replaced by an edge from the
replacement node with source slot 0 and the destination slot preserved (the
original edge is gone), and every pre-existing node survives with every
in-range input slot that held the activation's output descriptor rebound to
the replacement node's output descriptor, all other slots untouched. -/
theorem convActivationFusion_rewiring (g : Graph) (c a : Node)
    (hv : ValidGraph g) (hca : candPair g c a) :
    ∃ g5, fuseStep g c a = .ok g5 ∧
      (∀ e ∈ g.outputEdges a.index,
        (⟨g.nextIndex, e.dst, 0, e.dstSlot⟩ : Edge) ∈ g5.edges ∧
        e ∉ g5.edges) ∧
      (∀ z ∈ g.nodes, ∃ z2, z2 ∈ g5.nodes ∧ eqExceptInputs z2 z ∧
        (∀ j, j < z.inputDefs.length →
          z2.inputDefs.getD j 0 =
            if z.inputDefs.getD j 0 = a.outputDefs.getD 0 0 then
              c.outputDefs.getD 0 0
            else z.inputDefs.getD j 0)) := by
  obtain ⟨hamem, hane, hcm, hfus, hgo, hclen, halen, haolen, e0, hrest⟩ :=
    candPair_facts g hv c a hca
  have hmk := makeFusedNode_out g c a hv.index_lt
  have hLdst : ∀ e ∈ g.outputEdges a.index, ∃ d, d ∈ g.nodes ∧
      d.index = e.dst ∧ e.dstSlot < d.inputDefs.length := by
    intro e he
    have hef := List.mem_filter.mp he
    obtain ⟨p, hp, cn, hcn, hpsrc, hcndst, hss, hds, hdefs⟩ :=
      (mem_derivedEdges g.nodes e).mp (hv.edges_to_derived e hef.1)
    exact ⟨cn, hcn, hcndst, hds⟩
  obtain ⟨g5, hfu, hout⟩ := fuseStep_spec g c a hv.nodes_nodup hv.edges_nodup
    hv.index_lt hamem (by rw [hclen]; omega) hLdst
  refine ⟨g5, hfu, ?_, ?_⟩
  · intro e he
    have hef := List.mem_filter.mp he
    have hesrc : e.src = a.index := by simpa using hef.2
    constructor
    · exact (hout.edge_iff _).mpr (Or.inr ⟨e, he, rfl⟩)
    · intro hcon
      rcases (hout.edge_iff e).mp hcon with ⟨hx1, hx2⟩ | ⟨e2, he2, hx2⟩
      · exact hx2 he
      · have : e.src = g.nextIndex := by rw [hx2]
        rw [hesrc] at this
        exact Nat.ne_of_lt (hv.index_lt a hamem) this
  · intro z hz
    have hz3 : z ∈ (makeFusedNode g c a).nodes := by
      rw [hmk.1]
      exact List.mem_append_left _ hz
    obtain ⟨z2, hz2, heq, hswap, hkeep⟩ := hout.node_fwd z hz3
    refine ⟨z2, hz2, heq, ?_⟩
    intro j hj
    by_cases hdj : z.inputDefs.getD j 0 = a.outputDefs.getD 0 0
    · rw [if_pos hdj]
      have hcl := (candL_slot g hv c a hca z hz j).mpr ⟨hj, hdj⟩
      obtain ⟨e, he, hedst, heslot⟩ := hcl
      exact hswap j ⟨e, he, hedst, heslot⟩
    · rw [if_neg hdj]
      refine hkeep j ?_
      intro hcon
      obtain ⟨e, he, hedst, heslot⟩ := hcon
      exact hdj ((candL_slot g hv c a hca z hz j).mp ⟨e, he, hedst, heslot⟩).2

/-- Witness for C5 on the scenario graph's (Conv `A`, Relu `B`) pair:
consumer `C`'s input slot ends referencing the fused node's output
descriptor and `B`'s outgoing edge now originates from the fused node. -/
theorem convActivationFusion_rewiring_witness :
    ∃ g5, fuseStep gScenario nodeA nodeB = .ok g5 ∧
      (∀ e ∈ gScenario.outputEdges nodeB.index,
        (⟨gScenario.nextIndex, e.dst, 0, e.dstSlot⟩ : Edge) ∈ g5.edges ∧
        e ∉ g5.edges) ∧
      (∀ z ∈ gScenario.nodes, ∃ z2, z2 ∈ g5.nodes ∧ eqExceptInputs z2 z ∧
        (∀ j, j < z.inputDefs.length →
          z2.inputDefs.getD j 0 =
            if z.inputDefs.getD j 0 = nodeB.outputDefs.getD 0 0 then
              nodeA.outputDefs.getD 0 0
            else z.inputDefs.getD j 0)) :=
  convActivationFusion_rewiring gScenario nodeA nodeB
    ⟨by decide, by decide, by decide, by decide, by decide, by decide,
     by decide, by decide, by decide⟩
    ⟨by decide, by decide, ⟨0, 1, 0, 0⟩, by decide, by decide⟩

/-- `i` is the conv index of some fusion candidate pair of `g`. -/
def isCandConv (g : Graph) (i : Nat) : Prop :=
  ∃ c a, candPair g c a ∧ c.index = i

/-- `s` is the activation index of a candidate pair whose conv index was
already processed by the scan. -/
def isCandAct (g : Graph) (P : List Nat) (s : Nat) : Prop :=
  ∃ c a, candPair g c a ∧ c.index ∈ P ∧ a.index = s

/-- `v` is the output descriptor of some candidate activation. -/
def adSet (g : Graph) (v : Nat) : Prop :=
  ∃ c a, candPair g c a ∧ v = a.outputDefs.getD 0 0

/-- `v` is the output descriptor of some candidate conv. -/
def fdSet (g : Graph) (v : Nat) : Prop :=
  ∃ c a, candPair g c a ∧ v = c.outputDefs.getD 0 0

/-- Input-slot relation maintained by the scan: a slot either keeps its
original descriptor or went from a candidate activation's descriptor to a
candidate conv's. -/
def inputsRel (g : Graph) (n2 n : Node) : Prop :=
  ∀ j, n2.inputDefs.getD j 0 = n.inputDefs.getD j 0 ∨
    (adSet g (n.inputDefs.getD j 0) ∧ fdSet g (n2.inputDefs.getD j 0))

/-- A conv has at most one candidate activation. -/
theorem candPair_act_unique (g : Graph)
    (hnd : (g.nodes.map Node.index).Nodup) (c a a2 : Node)
    (h1 : candPair g c a) (h2 : candPair g c a2) : a = a2 := by
  obtain ⟨_, _, e1, hh1, hg1⟩ := h1
  obtain ⟨_, _, e2, hh2, hg2⟩ := h2
  rw [hh1] at hh2
  injection hh2 with he
  rw [← he] at hg2
  rw [hg1] at hg2
  injection hg2

/-- Candidate convs with equal indices are equal. -/
theorem candPair_conv_inj (g : Graph)
    (hnd : (g.nodes.map Node.index).Nodup) (c c2 a a2 : Node)
    (h1 : candPair g c a) (h2 : candPair g c2 a2)
    (hidx : c.index = c2.index) : c = c2 :=
  mem_index_inj g.nodes hnd c h1.1 c2 h2.1 hidx

/-- An activation determines its candidate conv (single-producer
validity). -/
theorem candPair_conv_unique (g : Graph) (hv : ValidGraph g) (c c2 a : Node)
    (h1 : candPair g c a) (h2 : candPair g c2 a) : c = c2 := by
  obtain ⟨_, _, _, _, _, hclen1, _, _, e1, hr1⟩ := candPair_facts g hv c a h1
  obtain ⟨_, _, _, _, _, hclen2, _, _, e2, hr2⟩ := candPair_facts g hv c2 a h2
  have hd1 := hr1.2.2.2.2.2.2.2.2
  have hd2 := hr2.2.2.2.2.2.2.2.2
  refine (hv.single_producer c h1.1 c2 h2.1 0 (by omega) 0 (by omega) ?_).1
  rw [← hd1, ← hd2]

/-- Appending a processed index extends the processed-activation set by the
pairs whose conv has exactly that index. -/
theorem isCandAct_append (g : Graph) (P : List Nat) (idx s : Nat) :
    isCandAct g (P ++ [idx]) s ↔
    isCandAct g P s ∨ ∃ c a, candPair g c a ∧ c.index = idx ∧ a.index = s := by
  unfold isCandAct
  constructor
  · rintro ⟨c, a, hca, hm, hs⟩
    rcases List.mem_append.mp hm with hm1 | hm2
    · exact Or.inl ⟨c, a, hca, hm1, hs⟩
    · exact Or.inr ⟨c, a, hca, by simpa using hm2, hs⟩
  · rintro (⟨c, a, hca, hm, hs⟩ | ⟨c, a, hca, hc, hs⟩)
    · exact ⟨c, a, hca, List.mem_append_left _ hm, hs⟩
    · exact ⟨c, a, hca, List.mem_append_right _ (by simp [hc]), hs⟩

/-- The Conv-like predicate only reads skeleton fields. -/
theorem convMatch_skel (x y : Node) (h : Node.skel x y) :
    convMatch x = convMatch y := by
  obtain ⟨h1, h2, h3, h4, h5, h6, h7⟩ := h
  unfold convMatch isSupportedOptypeVersionAndDomain
  rw [h3, h4, h5]

/-- The fusable-activation predicate only reads skeleton fields. -/
theorem isFusableActivation_skel (x y : Node) (h : Node.skel x y) :
    isFusableActivation x = isFusableActivation y := by
  obtain ⟨h1, h2, h3, h4, h5, h6, h7⟩ := h
  unfold isFusableActivation isSupportedOptypeVersionAndDomain
  rw [h3, h4, h5]

/-- A `FusedConv` node never matches the Conv-like predicate. -/
theorem convMatch_fusedConv (n : Node) (h : n.opType = "FusedConv") :
    convMatch n = false := by
  unfold convMatch isSupportedOptypeVersionAndDomain
  rw [h]
  rfl

/-- The fusion predicate fails when the output-edge count is not one. -/
theorem isFusionCandidate_count_ne (g : Graph) (n : Node)
    (h : g.outputEdgesCount n.index ≠ 1) : isFusionCandidate g n = false := by
  unfold isFusionCandidate
  have hb : (g.outputEdgesCount n.index == 1) = false := by simpa using h
  rw [hb]
  simp

/-- The fusion predicate fails when the node is not Conv-like. -/
theorem isFusionCandidate_not_conv (g : Graph) (n : Node)
    (h : convMatch n = false) : isFusionCandidate g n = false := by
  unfold isFusionCandidate
  rw [h]
  simp

/-- Component form of the fusion predicate when the head consumer
resolves. -/
theorem isFusionCandidate_build (g : Graph) (n : Node) (e0 : Edge) (a : Node)
    (hhead : (g.outputEdges n.index).head? = some e0)
    (hget : g.getNode e0.dst = some a) :
    isFusionCandidate g n = (convMatch n &&
      g.outputEdgesCount n.index == 1 &&
      (isFusableActivation a && !(g.isNodeOutputsInGraphOutputs a))) := by
  unfold isFusionCandidate
  rw [hhead]
  dsimp only
  rw [hget]

/-- Inversion of a true fusion predicate into its components. -/
theorem isFusionCandidate_inv (g : Graph) (n : Node)
    (h : isFusionCandidate g n = true) :
    convMatch n = true ∧ g.outputEdgesCount n.index = 1 ∧
    ∃ e0 a, (g.outputEdges n.index).head? = some e0 ∧
      g.getNode e0.dst = some a ∧ isFusableActivation a = true ∧
      g.isNodeOutputsInGraphOutputs a = false := by
  unfold isFusionCandidate at h
  cases hhead : (g.outputEdges n.index).head? with
  | none =>
      rw [hhead] at h
      simp at h
  | some e0 =>
      rw [hhead] at h
      dsimp only at h
      cases hget : g.getNode e0.dst with
      | none =>
          rw [hget] at h
          simp at h
      | some a =>
          rw [hget] at h
          dsimp only at h
          simp only [Bool.and_eq_true, beq_iff_eq, Bool.not_eq_true'] at h
          exact ⟨h.1.1, h.1.2, e0, a, rfl, hget, h.2.1, h.2.2⟩

/-- The graph-output guard only reads the output defs and the graph-output
list. -/
theorem graphOutputs_transfer (g1 g2 : Graph) (x y : Node)
    (houts : g1.graphOutputs = g2.graphOutputs)
    (hod : x.outputDefs = y.outputDefs) :
    g1.isNodeOutputsInGraphOutputs x = g2.isNodeOutputsInGraphOutputs y := by
  unfold Graph.isNodeOutputsInGraphOutputs
  rw [houts, hod]

/-- Scan-phase invariant of `ConvActivationFusion::Apply`, relating the
current state `st` and removal queue `removed` to the original graph `g0`
and the set `P` of already-processed node indices: every original node is
still present up to input-slot rebinding, every extra node is a fused node
of a processed candidate pair, the cached edges are the original ones minus
the processed activations' outgoing edges plus fused-source edges, and the
removal queue holds exactly the processed candidate pairs. -/
structure ScanInv (g0 : Graph) (P : List Nat) (st : Graph)
    (removed : List Nat) : Prop where
  orig_fwd : ∀ n ∈ g0.nodes, ∃ n2, n2 ∈ st.nodes ∧ Node.skel n2 n ∧
    inputsRel g0 n2 n
  new_bwd : ∀ n2 ∈ st.nodes,
    (∃ n, n ∈ g0.nodes ∧ Node.skel n2 n ∧ inputsRel g0 n2 n) ∨
    (g0.nextIndex ≤ n2.index ∧ n2.opType = "FusedConv" ∧
     n2.domain = "com.microsoft" ∧
     ∃ c a, candPair g0 c a ∧ c.index ∈ P ∧ n2.outputDefs = c.outputDefs ∧
       n2.inputDefs.length = c.inputDefs.length ∧ inputsRel g0 n2 c)
  fused_fwd : ∀ c a, candPair g0 c a → c.index ∈ P →
    ∃ f, f ∈ st.nodes ∧ g0.nextIndex ≤ f.index ∧ f.opType = "FusedConv" ∧
      f.outputDefs = c.outputDefs ∧
      f.inputDefs.length = c.inputDefs.length ∧ inputsRel g0 f c
  nodes_nodup : (st.nodes.map Node.index).Nodup
  st_lt : ∀ z ∈ st.nodes, z.index < st.nextIndex
  next_ge : g0.nextIndex ≤ st.nextIndex
  outs_eq : st.graphOutputs = g0.graphOutputs
  edges_nodup : st.edges.Nodup
  edges_old_iff : ∀ x ∈ g0.edges, (x ∈ st.edges ↔ ¬ isCandAct g0 P x.src)
  edges_memsplit : ∀ x ∈ st.edges, x ∈ g0.edges ∨ g0.nextIndex ≤ x.src
  removed_iff : ∀ i, i ∈ removed ↔
    (isCandConv g0 i ∧ i ∈ P) ∨ isCandAct g0 P i

/-- The scan invariant holds initially. -/
theorem scanInv_init (g0 : Graph) (hv : ValidGraph g0) :
    ScanInv g0 [] g0 [] := by
  refine ⟨?_, ?_, ?_, hv.nodes_nodup, hv.index_lt, Nat.le_refl _, rfl,
    hv.edges_nodup, ?_, ?_, ?_⟩
  · intro n hn
    exact ⟨n, hn, Node.skel_refl n, fun j => Or.inl rfl⟩
  · intro n hn
    exact Or.inl ⟨n, hn, Node.skel_refl n, fun j => Or.inl rfl⟩
  · intro c a hca hc
    simp at hc
  · intro x hx
    constructor
    · rintro _ ⟨c, a, hca, hm, hs⟩
      simp at hm
    · intro _
      exact hx
  · intro x hx
    exact Or.inl hx
  · intro i
    constructor
    · intro hm
      simp at hm
    · rintro (⟨_, hm⟩ | ⟨c, a, hca, hm, _⟩) <;> simp at hm

/-- Under the invariant, every original node is found by `GetNode` at its
index, skeleton-preserved. -/
theorem scanInv_getNode (g0 : Graph) (P : List Nat) (st : Graph)
    (removed : List Nat) (inv : ScanInv g0 P st removed)
    (n : Node) (hn : n ∈ g0.nodes) :
    ∃ n2, st.getNode n.index = some n2 ∧ Node.skel n2 n ∧
      inputsRel g0 n2 n := by
  obtain ⟨n2, hmem, hskel, hrel⟩ := inv.orig_fwd n hn
  have hget := getNode_of_mem st n2 inv.nodes_nodup hmem
  rw [hskel.1] at hget
  exact ⟨n2, hget, hskel, hrel⟩

/-- Under the invariant, a `GetNode` hit at an original index is the
skeleton-preserved image of an original node. -/
theorem scanInv_getNode_old (g0 : Graph) (P : List Nat) (st : Graph)
    (removed : List Nat) (inv : ScanInv g0 P st removed)
    (i : Nat) (n2 : Node) (hget : st.getNode i = some n2)
    (hi : i < g0.nextIndex) :
    ∃ n, n ∈ g0.nodes ∧ n.index = i ∧ Node.skel n2 n ∧
      inputsRel g0 n2 n := by
  have hm := getNode_mem st i n2 hget
  rcases inv.new_bwd n2 hm.1 with ⟨n, hn, hskel, hrel⟩ | ⟨hge, _⟩
  · refine ⟨n, hn, ?_, hskel, hrel⟩
    rw [← hskel.1, hm.2]
  · rw [hm.2] at hge
    omega

/-- Under the invariant, the outgoing-edge set of an original node whose
index is not a processed activation is membership-equal to the original
one. -/
theorem scanInv_outputEdges (g0 : Graph) (P : List Nat) (st : Graph)
    (removed : List Nat) (inv : ScanInv g0 P st removed)
    (i : Nat) (hi : i < g0.nextIndex) (hnact : ¬ isCandAct g0 P i) :
    ∀ x, x ∈ st.outputEdges i ↔ x ∈ g0.outputEdges i := by
  intro x
  constructor
  · intro hx
    have hf := List.mem_filter.mp hx
    have hsrc : x.src = i := by simpa using hf.2
    rcases inv.edges_memsplit x hf.1 with hold | hnew
    · exact List.mem_filter.mpr ⟨hold, hf.2⟩
    · rw [hsrc] at hnew
      omega
  · intro hx
    have hf := List.mem_filter.mp hx
    have hsrc : x.src = i := by simpa using hf.2
    refine List.mem_filter.mpr ⟨?_, hf.2⟩
    refine (inv.edges_old_iff x hf.1).mpr ?_
    rw [hsrc]
    exact hnact

/-- Corollary: `GetOutputEdgesCount` agrees with the original graph. -/
theorem scanInv_outputEdgesCount (g0 : Graph) (hv : ValidGraph g0)
    (P : List Nat) (st : Graph) (removed : List Nat)
    (inv : ScanInv g0 P st removed)
    (i : Nat) (hi : i < g0.nextIndex) (hnact : ¬ isCandAct g0 P i) :
    st.outputEdgesCount i = g0.outputEdgesCount i := by
  have h1 : (st.outputEdges i).Nodup := List.Nodup.filter _ inv.edges_nodup
  have h2 : (g0.outputEdges i).Nodup := List.Nodup.filter _ hv.edges_nodup
  exact ((List.perm_ext_iff_of_nodup h1 h2).mpr
    (scanInv_outputEdges g0 P st removed inv i hi hnact)).length_eq

/-- Corollary: with a single outgoing edge, the head edge agrees with the
original graph. -/
theorem scanInv_outputEdges_head (g0 : Graph) (hv : ValidGraph g0)
    (P : List Nat) (st : Graph) (removed : List Nat)
    (inv : ScanInv g0 P st removed)
    (i : Nat) (hi : i < g0.nextIndex) (hnact : ¬ isCandAct g0 P i)
    (hc : g0.outputEdgesCount i = 1) :
    (st.outputEdges i).head? = (g0.outputEdges i).head? := by
  obtain ⟨e, he⟩ := List.length_eq_one.mp hc
  have hc2 : st.outputEdgesCount i = 1 :=
    (scanInv_outputEdgesCount g0 hv P st removed inv i hi hnact).trans hc
  obtain ⟨e2, he2⟩ := List.length_eq_one.mp hc2
  have hmem : e2 ∈ g0.outputEdges i := by
    refine (scanInv_outputEdges g0 P st removed inv i hi hnact e2).mp ?_
    rw [he2]
    exact List.mem_singleton.mpr rfl
  rw [he] at hmem
  rw [he, he2, List.mem_singleton.mp hmem]

/-- A Conv-like node's index is never a processed activation index. -/
theorem conv_not_candAct (g0 : Graph) (hv : ValidGraph g0) (P : List Nat)
    (c0 : Node) (hc0 : c0 ∈ g0.nodes) (hcm : convMatch c0 = true) :
    ¬ isCandAct g0 P c0.index := by
  rintro ⟨c, a, hca, hcP, haidx⟩
  have facts := candPair_facts g0 hv c a hca
  have hamem := facts.1
  have hfusa := facts.2.2.2.1
  have hac0 : a = c0 :=
    mem_index_inj g0.nodes hv.nodes_nodup a hamem c0 hc0 haidx
  rw [hac0] at hfusa
  rw [convMatch_not_fusable c0 hcm] at hfusa
  exact Bool.noConfusion hfusa

/-- Candidate transfer: under the invariant, the fusion predicate evaluated
on a node's current image agrees with its value on the original graph. -/
theorem scanInv_cand_transfer (g0 : Graph) (hv : ValidGraph g0) (P : List Nat)
    (st : Graph) (removed : List Nat) (inv : ScanInv g0 P st removed)
    (c0 : Node) (hc0 : c0 ∈ g0.nodes) (n2 : Node)
    (hskel : Node.skel n2 c0) :
    isFusionCandidate st n2 = isFusionCandidate g0 c0 := by
  have hcm2 := convMatch_skel n2 c0 hskel
  by_cases hcm : convMatch c0 = true
  · have hnact := conv_not_candAct g0 hv P c0 hc0 hcm
    have hilt := hv.index_lt c0 hc0
    have hidx2 : n2.index = c0.index := hskel.1
    have hcount : st.outputEdgesCount n2.index =
        g0.outputEdgesCount c0.index := by
      rw [hidx2]
      exact scanInv_outputEdgesCount g0 hv P st removed inv c0.index hilt hnact
    by_cases hc1 : g0.outputEdgesCount c0.index = 1
    · have hhead := scanInv_outputEdges_head g0 hv P st removed inv c0.index
        hilt hnact hc1
      obtain ⟨e0, he0⟩ := List.length_eq_one.mp hc1
      have hh0 : (g0.outputEdges c0.index).head? = some e0 := by
        rw [he0]
        rfl
      have hh2 : (st.outputEdges n2.index).head? = some e0 := by
        rw [hidx2, hhead, hh0]
      have he0mem : e0 ∈ g0.edges := by
        have hm : e0 ∈ g0.outputEdges c0.index := by
          rw [he0]
          exact List.mem_singleton.mpr rfl
        exact (List.mem_filter.mp hm).1
      obtain ⟨p, hp, cn, hcn, hpsrc, hcndst, hss, hds, hdefs⟩ :=
        (mem_derivedEdges g0.nodes e0).mp (hv.edges_to_derived e0 he0mem)
      have hga0 : g0.getNode e0.dst = some cn := by
        have hg := getNode_of_mem g0 cn hv.nodes_nodup hcn
        rw [hcndst] at hg
        exact hg
      obtain ⟨a2, hga2, hskela, hrela⟩ :=
        scanInv_getNode g0 P st removed inv cn hcn
      rw [hcndst] at hga2
      rw [isFusionCandidate_build st n2 e0 a2 hh2 hga2,
        isFusionCandidate_build g0 c0 e0 cn hh0 hga0]
      rw [hcm2, hcount, isFusableActivation_skel a2 cn hskela,
        graphOutputs_transfer st g0 a2 cn inv.outs_eq hskela.2.2.2.2.2.1]
    · rw [isFusionCandidate_count_ne st n2 (by rw [hcount]; exact hc1),
        isFusionCandidate_count_ne g0 c0 hc1]
  · have hcm' : convMatch c0 = false := by
      rw [← Bool.not_eq_true]
      exact hcm
    rw [isFusionCandidate_not_conv st n2 (by rw [hcm2]; exact hcm'),
      isFusionCandidate_not_conv g0 c0 hcm']

/-- The fusing branch of one scan iteration. -/
theorem applyStep_fuse (st : Graph) (removed : List Nat) (idx : Nat)
    (n2 : Node) (e0 : Edge) (a2 : Node) (g5 : Graph)
    (hget : st.getNode idx = some n2)
    (hcm : convMatch n2 = true)
    (hcount : st.outputEdgesCount n2.index = 1)
    (hhead : (st.outputEdges n2.index).head? = some e0)
    (hgeta : st.getNode e0.dst = some a2)
    (hfus : isFusableActivation a2 = true)
    (hgo : st.isNodeOutputsInGraphOutputs a2 = false)
    (hfuse : fuseStep st n2 a2 = .ok g5) :
    applyStep st removed idx = .ok (g5, a2.index :: n2.index :: removed) := by
  unfold applyStep
  rw [hget]
  dsimp only
  have h1 : (isSupportedOptypeVersionAndDomain n2 "Conv" 1 "" &&
      st.outputEdgesCount n2.index == 1) = true := by
    unfold convMatch at hcm
    rw [hcm, hcount]
    rfl
  rw [h1]
  simp only [Bool.not_true, Bool.false_eq_true, if_false]
  rw [hhead]
  dsimp only
  rw [hgeta]
  dsimp only
  have h2 : (!isFusableActivation a2 ||
      st.isNodeOutputsInGraphOutputs a2) = false := by
    rw [hfus, hgo]
    rfl
  rw [h2]
  simp only [Bool.false_eq_true, if_false]
  rw [hfuse]
  rfl

/-- Rewiring-level node equality composes with skeleton equality. -/
theorem skel_of_eqExceptInputs {x y z : Node} (h1 : eqExceptInputs x y)
    (h2 : Node.skel y z) : Node.skel x z := by
  obtain ⟨a1, a2, a3, a4, a5, a6, a7, a8, a9⟩ := h1
  obtain ⟨b1, b2, b3, b4, b5, b6, b7⟩ := h2
  exact ⟨a1.trans b1, a2.trans b2, a3.trans b3, a4.trans b4, a5.trans b5,
    a7.trans b6, a9.trans b7⟩

/-- Every cached edge of a valid graph originates below the fresh index. -/
theorem valid_edge_src_lt (g : Graph) (hv : ValidGraph g) :
    ∀ x ∈ g.edges, x.src < g.nextIndex := by
  intro x hx
  obtain ⟨p, hp, cn, hcn, hpsrc, _⟩ :=
    (mem_derivedEdges g.nodes x).mp (hv.edges_to_derived x hx)
  rw [← hpsrc]
  exact hv.index_lt p hp

/-- Every cached edge of a valid graph lands below the fresh index. -/
theorem valid_edge_dst_lt (g : Graph) (hv : ValidGraph g) :
    ∀ x ∈ g.edges, x.dst < g.nextIndex := by
  intro x hx
  obtain ⟨p, hp, cn, hcn, hpsrc, hcndst, _⟩ :=
    (mem_derivedEdges g.nodes x).mp (hv.edges_to_derived x hx)
  rw [← hcndst]
  exact hv.index_lt cn hcn

/-- Extending the processed set with an index that is no candidate conv's
leaves the invariant untouched. -/
theorem scanInv_extend_nopair (g0 : Graph) (P : List Nat) (st : Graph)
    (removed : List Nat) (inv : ScanInv g0 P st removed) (idx : Nat)
    (hnp : ∀ c a, candPair g0 c a → c.index ≠ idx) :
    ScanInv g0 (P ++ [idx]) st removed := by
  have hact : ∀ s, isCandAct g0 (P ++ [idx]) s ↔ isCandAct g0 P s := by
    intro s
    rw [isCandAct_append]
    constructor
    · rintro (h | ⟨c, a, hca, hc, _⟩)
      · exact h
      · exact absurd hc (hnp c a hca)
    · exact Or.inl
  refine ⟨inv.orig_fwd, ?_, ?_, inv.nodes_nodup, inv.st_lt, inv.next_ge,
    inv.outs_eq, inv.edges_nodup, ?_, inv.edges_memsplit, ?_⟩
  · intro z hz
    rcases inv.new_bwd z hz with h | ⟨h1, h2, h3, c, a, hca, hcP, h4, h5, h6⟩
    · exact Or.inl h
    · exact Or.inr ⟨h1, h2, h3, c, a, hca, List.mem_append_left _ hcP,
        h4, h5, h6⟩
  · intro c a hca hc
    rcases List.mem_append.mp hc with hc1 | hc2
    · exact inv.fused_fwd c a hca hc1
    · exact absurd (by simpa using hc2) (hnp c a hca)
  · intro x hx
    rw [hact x.src]
    exact inv.edges_old_iff x hx
  · intro i
    rw [inv.removed_iff i]
    constructor
    · rintro (⟨h1, h2⟩ | h)
      · exact Or.inl ⟨h1, List.mem_append_left _ h2⟩
      · exact Or.inr ((hact i).mpr h)
    · rintro (⟨h1, h2⟩ | h)
      · rcases List.mem_append.mp h2 with h3 | h3
        · exact Or.inl ⟨h1, h3⟩
        · obtain ⟨c, a, hca, hci⟩ := h1
          rw [← hci] at h3
          exact absurd (by simpa using h3) (hnp c a hca)
      · exact Or.inr ((hact i).mp h)

/-- One fusing scan iteration preserves the invariant: the scan step
succeeds, queues the pair, and the invariant carries to the rewired graph
with the pair marked processed. -/
theorem scanInv_fuse (g0 : Graph) (hv : ValidGraph g0) (P : List Nat)
    (st : Graph) (removed : List Nat) (inv : ScanInv g0 P st removed)
    (idx : Nat) (hidx : idx ∉ P) (n2 : Node) (hget : st.getNode idx = some n2)
    (n : Node) (hn : n ∈ g0.nodes) (hskel : Node.skel n2 n)
    (hrel : inputsRel g0 n2 n) (hcand : isFusionCandidate g0 n = true) :
    ∃ st2 removed2, applyStep st removed idx = .ok (st2, removed2) ∧
      ScanInv g0 (P ++ [idx]) st2 removed2 := by
  have hm2 := getNode_mem st idx n2 hget
  have hnidx : n.index = idx := by rw [← hskel.1, hm2.2]
  obtain ⟨hcm, hc1, e0, a0, hh0, hga0, hfus0, hgo0⟩ :=
    isFusionCandidate_inv g0 n hcand
  have hca : candPair g0 n a0 := ⟨hn, hcand, e0, hh0, hga0⟩
  obtain ⟨hamem, hane, hcmf, hfusf, hgof, hclen, halen, haolen, e0f, hfacts⟩ :=
    candPair_facts g0 hv n a0 hca
  have hnact := conv_not_candAct g0 hv P n hn hcm
  have hilt := hv.index_lt n hn
  have hailt := hv.index_lt a0 hamem
  have hh2 : (st.outputEdges n2.index).head? = some e0 := by
    rw [hskel.1,
      scanInv_outputEdges_head g0 hv P st removed inv n.index hilt hnact hc1,
      hh0]
  have hcount2 : st.outputEdgesCount n2.index = 1 := by
    rw [hskel.1,
      scanInv_outputEdgesCount g0 hv P st removed inv n.index hilt hnact]
    exact hc1
  have ha0m := getNode_mem g0 e0.dst a0 hga0
  obtain ⟨a2, hga2, hskela, hrela⟩ :=
    scanInv_getNode g0 P st removed inv a0 ha0m.1
  rw [ha0m.2] at hga2
  have ha2mem := (getNode_mem st e0.dst a2 hga2).1
  have ha2idx : a2.index = a0.index := hskela.1
  have hn2outs : n2.outputDefs = n.outputDefs := hskel.2.2.2.2.2.1
  have houts2 : 0 < n2.outputDefs.length := by
    rw [hn2outs, hclen]
    omega
  have hnacta : ¬ isCandAct g0 P a0.index := by
    rintro ⟨c', a', hca', hc'P, ha'⟩
    have ha'a0 : a' = a0 :=
      mem_index_inj g0.nodes hv.nodes_nodup a'
        (candPair_facts g0 hv c' a' hca').1 a0 hamem ha'
    rw [ha'a0] at hca'
    have hc'n : c' = n := candPair_conv_unique g0 hv c' n a0 hca' hca
    rw [hc'n, hnidx] at hc'P
    exact hidx hc'P
  have hLfact : ∀ e ∈ st.outputEdges a2.index, e ∈ g0.edges ∧
      e.src = a0.index ∧ ∃ cn, cn ∈ g0.nodes ∧ cn.index = e.dst ∧
        e.dstSlot < cn.inputDefs.length ∧
        cn.inputDefs.getD e.dstSlot 0 = a0.outputDefs.getD 0 0 := by
    intro e he
    rw [ha2idx] at he
    have heg0 := (scanInv_outputEdges g0 P st removed inv a0.index hailt
      hnacta e).mp he
    have hef := List.mem_filter.mp heg0
    have hesrc : e.src = a0.index := by simpa using hef.2
    obtain ⟨p, hp, cn, hcn, hpsrc, hcndst, hss, hds, hdefs⟩ :=
      (mem_derivedEdges g0.nodes e).mp (hv.edges_to_derived e hef.1)
    have hpa : p = a0 :=
      mem_index_inj g0.nodes hv.nodes_nodup p hp a0 hamem
        (by rw [hpsrc, hesrc])
    rw [hpa] at hss hdefs
    have hss0 : e.srcSlot = 0 := by
      rw [haolen] at hss
      omega
    rw [hss0] at hdefs
    rw [getElem?_eq_some_getD _ _ (by rw [haolen]; omega),
      getElem?_eq_some_getD _ _ hds] at hdefs
    injection hdefs with hd
    exact ⟨hef.1, hesrc, cn, hcn, hcndst, hds, hd.symm⟩
  have hLdst : ∀ e ∈ st.outputEdges a2.index, ∃ d, d ∈ st.nodes ∧
      d.index = e.dst ∧ e.dstSlot < d.inputDefs.length := by
    intro e he
    obtain ⟨_, _, cn, hcn, hcndst, hds, _⟩ := hLfact e he
    obtain ⟨d2, hd2, hskeld, _⟩ := inv.orig_fwd cn hcn
    refine ⟨d2, hd2, ?_, ?_⟩
    · rw [hskeld.1, hcndst]
    · rw [hskeld.2.2.2.2.2.2]
      exact hds
  obtain ⟨g5, hfu, hout⟩ := fuseStep_spec st n2 a2 inv.nodes_nodup
    inv.edges_nodup inv.st_lt ha2mem houts2 hLdst
  have happ := applyStep_fuse st removed idx n2 e0 a2 g5 hget
    (by rw [convMatch_skel n2 n hskel]; exact hcm) hcount2 hh2 hga2
    (by rw [isFusableActivation_skel a2 a0 hskela]; exact hfus0)
    (by rw [graphOutputs_transfer st g0 a2 a0 inv.outs_eq
      hskela.2.2.2.2.2.1]; exact hgo0) hfu
  refine ⟨g5, a2.index :: n2.index :: removed, happ, ?_⟩
  have hmk := makeFusedNode_out st n2 a2 inv.st_lt
  have hfd : n2.outputDefs.getD 0 0 = n.outputDefs.getD 0 0 := by
    rw [hn2outs]
  have hfdSet : fdSet g0 (n2.outputDefs.getD 0 0) := ⟨n, a0, hca, hfd⟩
  have hnoFusedEdge : ∀ (z : Node), g0.nextIndex ≤ z.index → ∀ j,
      ¬∃ e ∈ st.outputEdges a2.index, e.dst = z.index ∧ e.dstSlot = j := by
    intro z hz j hcon
    obtain ⟨e, he, hedst, _⟩ := hcon
    obtain ⟨_, _, cn, hcn, hcndst, _, _⟩ := hLfact e he
    have hlt := hv.index_lt cn hcn
    rw [hcndst, hedst] at hlt
    omega
  have hcompose : ∀ (z1 z2 : Node), eqExceptInputs z2 z1 →
      (∀ j, (∃ e ∈ st.outputEdges a2.index, e.dst = z1.index ∧
        e.dstSlot = j) → z2.inputDefs.getD j 0 = n2.outputDefs.getD 0 0) →
      (∀ j, (¬∃ e ∈ st.outputEdges a2.index, e.dst = z1.index ∧
        e.dstSlot = j) → z2.inputDefs.getD j 0 = z1.inputDefs.getD j 0) →
      ∀ (w : Node), inputsRel g0 z1 w →
      (∀ j, (∃ e ∈ st.outputEdges a2.index, e.dst = z1.index ∧
        e.dstSlot = j) → adSet g0 (w.inputDefs.getD j 0)) →
      inputsRel g0 z2 w := by
    intro z1 z2 heq hswap hkeep w hrelw hadj j
    by_cases hj : ∃ e ∈ st.outputEdges a2.index, e.dst = z1.index ∧
        e.dstSlot = j
    · refine Or.inr ⟨hadj j hj, ?_⟩
      rw [hswap j hj]
      exact hfdSet
    · rw [hkeep j hj]
      exact hrelw j
  have hadj_orig : ∀ (z1 w : Node), w ∈ g0.nodes → z1.index = w.index →
      ∀ j, (∃ e ∈ st.outputEdges a2.index, e.dst = z1.index ∧
        e.dstSlot = j) → adSet g0 (w.inputDefs.getD j 0) := by
    intro z1 w hw hidxw j hj
    obtain ⟨e, he, hedst, heslot⟩ := hj
    obtain ⟨_, _, cn, hcn, hcndst, hds, hdval⟩ := hLfact e he
    have hcnw : cn = w := by
      refine mem_index_inj g0.nodes hv.nodes_nodup cn hcn w hw ?_
      rw [hcndst, hedst, hidxw]
    rw [hcnw] at hdval
    rw [← heslot]
    exact ⟨n, a0, hca, hdval⟩
  have hfnew : fusedNodeFor st n2 a2 ∈ (makeFusedNode st n2 a2).nodes := by
    rw [hmk.1]
    exact List.mem_append_right _ (List.mem_singleton.mpr rfl)
  have hfrel : inputsRel g0 (fusedNodeFor st n2 a2) n := fun j => hrel j
  refine ⟨?_, ?_, ?_, hout.hindex_nodup, ?_, ?_, ?_, hout.hh_edges_nodup,
    ?_, ?_, ?_⟩
  · intro m hm
    obtain ⟨z1, hz1, hskel1, hrel1⟩ := inv.orig_fwd m hm
    have hz13 : z1 ∈ (makeFusedNode st n2 a2).nodes := by
      rw [hmk.1]
      exact List.mem_append_left _ hz1
    obtain ⟨z2, hz2, heq, hswap, hkeep⟩ := hout.node_fwd z1 hz13
    exact ⟨z2, hz2, skel_of_eqExceptInputs heq hskel1,
      hcompose z1 z2 heq hswap hkeep m hrel1 (hadj_orig z1 m hm hskel1.1)⟩
  · intro z2 hz2
    obtain ⟨z1, hz1, heq, hswap, hkeep⟩ := hout.node_bwd z2 hz2
    rw [hmk.1] at hz1
    rcases List.mem_append.mp hz1 with hz1s | hz1f
    · rcases inv.new_bwd z1 hz1s with ⟨m, hm, hskel1, hrel1⟩ |
        ⟨hge, hopt, hdom, c, a, hcaP, hcP, houtc, hlenc, hrelc⟩
      · exact Or.inl ⟨m, hm, skel_of_eqExceptInputs heq hskel1,
          hcompose z1 z2 heq hswap hkeep m hrel1
            (hadj_orig z1 m hm hskel1.1)⟩
      · refine Or.inr ⟨?_, ?_, ?_, c, a, hcaP, List.mem_append_left _ hcP,
          ?_, ?_, ?_⟩
        · rw [heq.1]
          exact hge
        · rw [heq.2.2.1]
          exact hopt
        · rw [heq.2.2.2.1]
          exact hdom
        · rw [heq.2.2.2.2.2.2.1]
          exact houtc
        · rw [heq.2.2.2.2.2.2.2.2]
          exact hlenc
        · exact hcompose z1 z2 heq hswap hkeep c hrelc
            (fun j hj => absurd hj (hnoFusedEdge z1 hge j))
    · have hz1e : z1 = fusedNodeFor st n2 a2 := List.mem_singleton.mp hz1f
      subst hz1e
      refine Or.inr ⟨?_, ?_, ?_, n, a0, hca, ?_, ?_, ?_, ?_⟩
      · rw [heq.1]
        exact inv.next_ge
      · rw [heq.2.2.1]
        rfl
      · rw [heq.2.2.2.1]
        rfl
      · refine List.mem_append_right _ ?_
        simp [hnidx]
      · rw [heq.2.2.2.2.2.2.1]
        exact hn2outs
      · rw [heq.2.2.2.2.2.2.2.2]
        exact hskel.2.2.2.2.2.2
      · exact hcompose _ z2 heq hswap hkeep n hfrel
          (fun j hj => absurd hj (hnoFusedEdge _
            (show g0.nextIndex ≤ (fusedNodeFor st n2 a2).index from
              inv.next_ge) j))
  · intro c a hcaP hcP
    rcases List.mem_append.mp hcP with hcP1 | hcP2
    · obtain ⟨f, hf, hge, hopt, houtc, hlenc, hrelc⟩ :=
        inv.fused_fwd c a hcaP hcP1
      have hf3 : f ∈ (makeFusedNode st n2 a2).nodes := by
        rw [hmk.1]
        exact List.mem_append_left _ hf
      obtain ⟨f2, hf2, heq, hswap, hkeep⟩ := hout.node_fwd f hf3
      refine ⟨f2, hf2, ?_, ?_, ?_, ?_, ?_⟩
      · rw [heq.1]
        exact hge
      · rw [heq.2.2.1]
        exact hopt
      · rw [heq.2.2.2.2.2.2.1]
        exact houtc
      · rw [heq.2.2.2.2.2.2.2.2]
        exact hlenc
      · exact hcompose f f2 heq hswap hkeep c hrelc
          (fun j hj => absurd hj (hnoFusedEdge f hge j))
    · have hcidx : c.index = idx := by simpa using hcP2
      have hcn : c = n := mem_index_inj g0.nodes hv.nodes_nodup c hcaP.1 n hn
        (by rw [hcidx, hnidx])
      obtain ⟨f2, hf2, heq, hswap, hkeep⟩ := hout.node_fwd _ hfnew
      refine ⟨f2, hf2, ?_, ?_, ?_, ?_, ?_⟩
      · rw [heq.1]
        exact inv.next_ge
      · rw [heq.2.2.1]
        rfl
      · rw [heq.2.2.2.2.2.2.1, hcn]
        exact hn2outs
      · rw [heq.2.2.2.2.2.2.2.2, hcn]
        exact hskel.2.2.2.2.2.2
      · rw [hcn]
        exact hcompose _ f2 heq hswap hkeep n hfrel
          (fun j hj => absurd hj (hnoFusedEdge _
            (show g0.nextIndex ≤ (fusedNodeFor st n2 a2).index from
              inv.next_ge) j))
  · intro z2 hz2
    obtain ⟨z1, hz1, heq, _, _⟩ := hout.node_bwd z2 hz2
    rw [hmk.1] at hz1
    have hnext5 : g5.nextIndex = st.nextIndex + 1 := by
      rw [hout.hnext_eq, hmk.2.2.2]
    rw [heq.1, hnext5]
    rcases List.mem_append.mp hz1 with h | h
    · have := inv.st_lt z1 h
      omega
    · rw [List.mem_singleton.mp h]
      show st.nextIndex < st.nextIndex + 1
      omega
  · rw [hout.hnext_eq, hmk.2.2.2]
    have := inv.next_ge
    omega
  · rw [hout.houts_eq, hmk.2.2.1, inv.outs_eq]
  · intro x hx
    have hxslt := valid_edge_src_lt g0 hv x hx
    have hnew_imposs : ¬∃ e ∈ st.outputEdges a2.index,
        x = ⟨st.nextIndex, e.dst, 0, e.dstSlot⟩ := by
      rintro ⟨e, he, hxe⟩
      have hxsrc : x.src = st.nextIndex := by rw [hxe]
      have hge := inv.next_ge
      omega
    have hmem5 : x ∈ g5.edges ↔ (x ∈ st.edges ∧
        x ∉ st.outputEdges a2.index) := by
      rw [hout.edge_iff x]
      constructor
      · rintro (⟨h1, h2⟩ | h)
        · rw [hmk.2.1] at h1
          exact ⟨h1, h2⟩
        · exact absurd h hnew_imposs
      · rintro ⟨h1, h2⟩
        refine Or.inl ⟨?_, h2⟩
        rw [hmk.2.1]
        exact h1
    rw [hmem5, isCandAct_append]
    constructor
    · rintro ⟨h1, h2⟩ (hacts | ⟨c', a', hca', hc'i, ha'x⟩)
      · exact ((inv.edges_old_iff x hx).mp h1) hacts
      · have hc'n : c' = n := mem_index_inj g0.nodes hv.nodes_nodup c'
          hca'.1 n hn (by rw [hc'i, hnidx])
        rw [hc'n] at hca'
        have ha'a0 : a' = a0 :=
          candPair_act_unique g0 hv.nodes_nodup n a' a0 hca' hca
        refine h2 ?_
        refine List.mem_filter.mpr ⟨h1, ?_⟩
        simp only [beq_iff_eq]
        rw [ha2idx, ← ha'x, ha'a0]
    · intro hno
      have hno1 : ¬ isCandAct g0 P x.src := fun h => hno (Or.inl h)
      refine ⟨(inv.edges_old_iff x hx).mpr hno1, ?_⟩
      intro hxL
      obtain ⟨hxg0, hxsrc, _⟩ := hLfact x hxL
      exact hno (Or.inr ⟨n, a0, hca, hnidx, hxsrc.symm⟩)
  · intro x hx
    rcases (hout.edge_iff x).mp hx with ⟨h1, _⟩ | ⟨e, he, hxe⟩
    · rw [hmk.2.1] at h1
      exact inv.edges_memsplit x h1
    · refine Or.inr ?_
      have hxsrc : x.src = st.nextIndex := by rw [hxe]
      rw [hxsrc]
      exact inv.next_ge
  · intro i
    constructor
    · intro hi
      rcases List.mem_cons.mp hi with h | h
      · refine Or.inr ?_
        rw [isCandAct_append]
        refine Or.inr ⟨n, a0, hca, hnidx, ?_⟩
        rw [h, ha2idx]
      · rcases List.mem_cons.mp h with h2 | h2
        · refine Or.inl ⟨⟨n, a0, hca, ?_⟩, ?_⟩
          · rw [h2, hm2.2]
            exact hnidx
          · rw [h2, hm2.2]
            exact List.mem_append_right _ (List.mem_singleton.mpr rfl)
        · rcases (inv.removed_iff i).mp h2 with ⟨hc, hp⟩ | hact
          · exact Or.inl ⟨hc, List.mem_append_left _ hp⟩
          · refine Or.inr ?_
            rw [isCandAct_append]
            exact Or.inl hact
    · intro hrhs
      rcases hrhs with ⟨⟨c', a', hca', hc'i⟩, hiP⟩ | hact
      · rcases List.mem_append.mp hiP with hp | hp
        · exact List.mem_cons_of_mem _ (List.mem_cons_of_mem _
            ((inv.removed_iff i).mpr (Or.inl ⟨⟨c', a', hca', hc'i⟩, hp⟩)))
        · have hiidx : i = idx := by simpa using hp
          have h2 : i = n2.index := by rw [hiidx, hm2.2]
          rw [h2]
          exact List.mem_cons_of_mem _ (List.mem_cons_self _ _)
      · rw [isCandAct_append] at hact
        rcases hact with hact | ⟨c', a', hca', hc'i, ha'i⟩
        · exact List.mem_cons_of_mem _ (List.mem_cons_of_mem _
            ((inv.removed_iff i).mpr (Or.inr hact)))
        · have hc'n : c' = n := mem_index_inj g0.nodes hv.nodes_nodup c'
            hca'.1 n hn (by rw [hc'i, hnidx])
          rw [hc'n] at hca'
          have ha'a0 : a' = a0 :=
            candPair_act_unique g0 hv.nodes_nodup n a' a0 hca' hca
          have hia2 : i = a2.index := by
            rw [← ha'i, ha'a0, ha2idx]
          rw [hia2]
          exact List.mem_cons_self _ _

/-- One scan iteration at a fresh index preserves the invariant. -/
theorem scanInv_step (g0 : Graph) (hv : ValidGraph g0) (P : List Nat)
    (st : Graph) (removed : List Nat) (inv : ScanInv g0 P st removed)
    (idx : Nat) (hidx : idx ∉ P) :
    ∃ st2 removed2, applyStep st removed idx = .ok (st2, removed2) ∧
      ScanInv g0 (P ++ [idx]) st2 removed2 := by
  cases hget : st.getNode idx with
  | none =>
      refine ⟨st, removed, applyStep_getNode_none st removed idx hget, ?_⟩
      refine scanInv_extend_nopair g0 P st removed inv idx ?_
      intro c a hca hcon
      obtain ⟨z2, hz2, hskel, _⟩ := inv.orig_fwd c hca.1
      refine List.find?_eq_none.mp hget z2 hz2 ?_
      simp only [beq_iff_eq]
      rw [hskel.1, hcon]
  | some n2 =>
      have hm2 := getNode_mem st idx n2 hget
      rcases inv.new_bwd n2 hm2.1 with ⟨n, hn, hskel, hrel⟩ | hfb
      · by_cases hcand : isFusionCandidate g0 n = true
        · exact scanInv_fuse g0 hv P st removed inv idx hidx n2 hget n hn
            hskel hrel hcand
        · have hc2 : isFusionCandidate st n2 = false := by
            rw [scanInv_cand_transfer g0 hv P st removed inv n hn n2 hskel,
              ← Bool.not_eq_true]
            exact hcand
          have hnidx : n.index = idx := by rw [← hskel.1, hm2.2]
          refine ⟨st, removed,
            applyStep_no_candidate st removed idx n2 hget hc2, ?_⟩
          refine scanInv_extend_nopair g0 P st removed inv idx ?_
          intro c a hca hcon
          have hcn2 : c = n := mem_index_inj g0.nodes hv.nodes_nodup c hca.1
            n hn (by rw [hcon, hnidx])
          rw [hcn2] at hca
          exact hcand hca.2.1
      · obtain ⟨hge, hopt, _⟩ := hfb
        have hc2 : isFusionCandidate st n2 = false :=
          isFusionCandidate_not_conv st n2 (convMatch_fusedConv n2 hopt)
        refine ⟨st, removed,
          applyStep_no_candidate st removed idx n2 hget hc2, ?_⟩
        refine scanInv_extend_nopair g0 P st removed inv idx ?_
        intro c a hca hcon
        have hlt := hv.index_lt c hca.1
        rw [hcon] at hlt
        rw [hm2.2] at hge
        omega

/-- The invariant carried over the whole scan fold. -/
theorem applyScan_inv (g0 : Graph) (hv : ValidGraph g0) :
    ∀ (ord P : List Nat) (st : Graph) (removed : List Nat),
    ScanInv g0 P st removed → (∀ i ∈ ord, i ∉ P) → ord.Nodup →
    ∃ st2 removed2,
      ord.foldlM (fun s idx => applyStep s.1 s.2 idx) (st, removed) =
        .ok (st2, removed2) ∧ ScanInv g0 (P ++ ord) st2 removed2 := by
  intro ord
  induction ord with
  | nil =>
      intro P st removed inv _ _
      refine ⟨st, removed, rfl, ?_⟩
      rw [List.append_nil]
      exact inv
  | cons i is ih =>
      intro P st removed inv hdisj hnd
      obtain ⟨st1, removed1, hstep, inv1⟩ := scanInv_step g0 hv P st removed
        inv i (hdisj i (List.mem_cons_self i is))
      have hnd2 := List.nodup_cons.mp hnd
      have hdisj2 : ∀ j ∈ is, j ∉ P ++ [i] := by
        intro j hj hcon
        rcases List.mem_append.mp hcon with h | h
        · exact hdisj j (List.mem_cons_of_mem i hj) h
        · rw [List.mem_singleton.mp h] at hj
          exact hnd2.1 hj
      obtain ⟨st2, removed2, hfold, inv2⟩ := ih (P ++ [i]) st1 removed1 inv1
        hdisj2 hnd2.2
      refine ⟨st2, removed2, ?_, ?_⟩
      · rw [List.foldlM_cons]
        dsimp only
        rw [hstep]
        simpa using hfold
      · rw [List.append_assoc] at inv2
        exact inv2

/-- Membership in the node table after the removal fold. -/
theorem removeNode_fold_mem (rs : List Nat) :
    ∀ (g : Graph) (z : Node),
    z ∈ (rs.foldl (fun h i => h.removeNode i) g).nodes ↔
      (z ∈ g.nodes ∧ ∀ r ∈ rs, z.index ≠ r) := by
  induction rs with
  | nil =>
      intro g z
      simp
  | cons r rest ih =>
      intro g z
      rw [List.foldl_cons]
      rw [ih (g.removeNode r) z]
      unfold Graph.removeNode
      simp only [List.mem_filter, decide_eq_true_eq]
      constructor
      · rintro ⟨⟨h1, h2⟩, h3⟩
        refine ⟨h1, ?_⟩
        intro x hx
        rcases List.mem_cons.mp hx with h | h
        · rw [h]
          exact h2
        · exact h3 x h
      · rintro ⟨h1, h2⟩
        exact ⟨⟨h1, h2 r (List.mem_cons_self r rest)⟩,
          fun x hx => h2 x (List.mem_cons_of_mem r hx)⟩

/-- The removal fold does not change the graph outputs. -/
theorem removeNode_fold_outs (rs : List Nat) :
    ∀ g : Graph,
    (rs.foldl (fun h i => h.removeNode i) g).graphOutputs =
      g.graphOutputs := by
  induction rs with
  | nil => intro g; rfl
  | cons r rest ih =>
      intro g
      rw [List.foldl_cons, ih (g.removeNode r)]
      rfl

/-- The removal fold's node table is a sublist of the original. -/
theorem removeNode_fold_sublist (rs : List Nat) :
    ∀ g : Graph,
    ((rs.foldl (fun h i => h.removeNode i) g).nodes).Sublist g.nodes := by
  induction rs with
  | nil => intro g; exact List.Sublist.refl _
  | cons r rest ih =>
      intro g
      rw [List.foldl_cons]
      exact (ih (g.removeNode r)).trans (List.filter_sublist _)

/-- Edges are determined by their four components. -/
theorem edge_ext (u v : Edge) (h1 : u.src = v.src) (h2 : u.dst = v.dst)
    (h3 : u.srcSlot = v.srcSlot) (h4 : u.dstSlot = v.dstSlot) : u = v := by
  cases u
  cases v
  simp_all

/-- `i` belongs to some fused candidate pair of `g`. -/
def finallyRemoved (g : Graph) (i : Nat) : Prop :=
  ∃ c a, candPair g c a ∧ (c.index = i ∨ a.index = i)

/-- Characterization of a single-output node's outgoing edges on a valid
graph: they point exactly at the in-range consumer slots holding its output
descriptor. -/
theorem conv_outputEdges_iff (g0 : Graph) (hv : ValidGraph g0) (n0 : Node)
    (hn0 : n0 ∈ g0.nodes) (hlen : n0.outputDefs.length = 1) (x : Edge) :
    x ∈ g0.outputEdges n0.index ↔ x.src = n0.index ∧ x.srcSlot = 0 ∧
      ∃ q, q ∈ g0.nodes ∧ q.index = x.dst ∧ x.dstSlot < q.inputDefs.length ∧
      q.inputDefs[x.dstSlot]? = some (n0.outputDefs.getD 0 0) := by
  constructor
  · intro hx
    have hf := List.mem_filter.mp hx
    have hsrc : x.src = n0.index := by simpa using hf.2
    obtain ⟨p, hp, q, hq, hpsrc, hqdst, hss, hds, hdefs⟩ :=
      (mem_derivedEdges g0.nodes x).mp (hv.edges_to_derived x hf.1)
    have hpn : p = n0 := mem_index_inj g0.nodes hv.nodes_nodup p hp n0 hn0
      (by rw [hpsrc, hsrc])
    rw [hpn] at hss hdefs
    have hss0 : x.srcSlot = 0 := by
      rw [hlen] at hss
      omega
    rw [hss0] at hdefs
    rw [getElem?_eq_some_getD _ _ (by omega)] at hdefs
    exact ⟨hsrc, hss0, q, hq, hqdst, hds, hdefs.symm⟩
  · rintro ⟨hsrc, hss0, q, hq, hqdst, hds, hdefs⟩
    refine List.mem_filter.mpr ⟨?_, by simpa using hsrc⟩
    refine hv.derived_to_edges x ?_
    refine (mem_derivedEdges g0.nodes x).mpr
      ⟨n0, hn0, q, hq, hsrc.symm, hqdst, ?_, hds, ?_⟩
    · rw [hss0, hlen]
      omega
    · rw [hss0, getElem?_eq_some_getD _ _ (by omega), hdefs]

/-- After the removal phase and Resolve, no fusion candidate is left: fused
nodes are not Conv-like, and a surviving Conv's consumer structure is the
original one (its descriptor is produced by no candidate), so its original
disqualification still applies. -/
theorem final_no_candidate (g0 g2 g3 : Graph) (hv : ValidGraph g0)
    (hn3 : g3.nodes = g2.nodes)
    (hedges3 : g3.edges = derivedEdges g2.nodes)
    (houts3 : g3.graphOutputs = g2.graphOutputs)
    (hnodup2 : (g2.nodes.map Node.index).Nodup)
    (houts2 : g2.graphOutputs = g0.graphOutputs)
    (hfwd : ∀ n ∈ g0.nodes, ¬ finallyRemoved g0 n.index →
      ∃ n2, n2 ∈ g2.nodes ∧ Node.skel n2 n ∧ inputsRel g0 n2 n)
    (hbwd : ∀ n2 ∈ g2.nodes,
      (∃ n, n ∈ g0.nodes ∧ ¬ finallyRemoved g0 n.index ∧ Node.skel n2 n ∧
        inputsRel g0 n2 n) ∨
      (n2.opType = "FusedConv" ∧ g0.nextIndex ≤ n2.index ∧
       ∃ c a, candPair g0 c a ∧ n2.outputDefs = c.outputDefs ∧
         n2.inputDefs.length = c.inputDefs.length ∧ inputsRel g0 n2 c))
    (hfused : ∀ c a, candPair g0 c a → ∃ f, f ∈ g2.nodes ∧
      f.opType = "FusedConv" ∧ g0.nextIndex ≤ f.index ∧
      f.outputDefs = c.outputDefs ∧ f.inputDefs.length = c.inputDefs.length ∧
      inputsRel g0 f c) :
    ∀ z ∈ g3.nodes, isFusionCandidate g3 z = false := by
  intro z hz0
  have hz : z ∈ g2.nodes := by
    rw [← hn3]
    exact hz0
  rcases hbwd z hz with ⟨n0, hn0, hnotrem, hskel, hrel⟩ | ⟨hopt, _⟩
  · by_cases hcm : convMatch n0 = true
    · have hcarity := hv.conv_arity n0 hn0 hcm
      have hnotcc : ¬ isCandConv g0 n0.index := by
        rintro ⟨c, a, hca, hci⟩
        exact hnotrem ⟨c, a, hca, Or.inl hci⟩
      have hnotca : ¬ ∃ c a, candPair g0 c a ∧ a.index = n0.index := by
        rintro ⟨c, a, hca, hai⟩
        exact hnotrem ⟨c, a, hca, Or.inr hai⟩
      have hdnotad : ¬ adSet g0 (n0.outputDefs.getD 0 0) := by
        rintro ⟨c, a, hca, hdv⟩
        obtain ⟨hamem, hane2, hcmc, hfusa, hgoa, hclenc, halena, haolen,
          e0x, hrest⟩ := candPair_facts g0 hv c a hca
        have heq : n0 = a := (hv.single_producer n0 hn0 a hamem 0 (by omega)
          0 (by omega) hdv).1
        rw [heq] at hcm
        have hne := convMatch_not_fusable a hcm
        rw [hne] at hfusa
        exact Bool.noConfusion hfusa
      have hdnotfd : ¬ fdSet g0 (n0.outputDefs.getD 0 0) := by
        rintro ⟨c, a, hca, hdv⟩
        obtain ⟨hamem, hane2, hcmc, hfusa, hgoa, hclenc, halena, haolen,
          e0x, hrest⟩ := candPair_facts g0 hv c a hca
        have heq : n0 = c := (hv.single_producer n0 hn0 c hca.1 0 (by omega)
          0 (by omega) hdv).1
        exact hnotcc ⟨c, a, hca, by rw [← heq]⟩
      have hslot_iff : ∀ (w2 w : Node),
          w2.inputDefs.length = w.inputDefs.length → inputsRel g0 w2 w →
          ∀ j : Nat, (w2.inputDefs[j]? = some (n0.outputDefs.getD 0 0) ↔
           w.inputDefs[j]? = some (n0.outputDefs.getD 0 0)) := by
        intro w2 w hlen hr j
        by_cases hj : j < w.inputDefs.length
        · rw [getElem?_eq_some_getD w2.inputDefs j (by omega),
            getElem?_eq_some_getD w.inputDefs j hj]
          constructor
          · intro h
            injection h with h
            rcases hr j with he | ⟨had, hfd⟩
            · have hw : w.inputDefs.getD j 0 = n0.outputDefs.getD 0 0 := by
                rw [← he]
                exact h
              rw [hw]
            · rw [h] at hfd
              exact absurd hfd hdnotfd
          · intro h
            injection h with h
            rcases hr j with he | ⟨had, hfd⟩
            · have hw : w2.inputDefs.getD j 0 = n0.outputDefs.getD 0 0 := by
                rw [he]
                exact h
              rw [hw]
            · rw [h] at had
              exact absurd had hdnotad
        · rw [List.getElem?_eq_none (by omega),
            List.getElem?_eq_none (by omega)]
      have hconsumer_bwd : ∀ w ∈ g2.nodes, ∀ j : Nat,
          w.inputDefs[j]? = some (n0.outputDefs.getD 0 0) →
          ∃ q, q ∈ g0.nodes ∧
            q.inputDefs[j]? = some (n0.outputDefs.getD 0 0) := by
        intro w hw j hwj
        rcases hbwd w hw with ⟨q, hq, _, hskelq, hrelq⟩ |
          ⟨_, _, c, a, hca, houtc, hlenc, hrelc⟩
        · exact ⟨q, hq, (hslot_iff w q hskelq.2.2.2.2.2.2 hrelq j).mp hwj⟩
        · exact ⟨c, hca.1, (hslot_iff w c hlenc hrelc j).mp hwj⟩
      have hconsumer_fwd : ∀ q ∈ g0.nodes, ∀ j : Nat,
          q.inputDefs[j]? = some (n0.outputDefs.getD 0 0) →
          ∃ w, w ∈ g2.nodes ∧
            w.inputDefs[j]? = some (n0.outputDefs.getD 0 0) ∧
            (w.index = q.index ∨
             (g0.nextIndex ≤ w.index ∧ w.outputDefs = q.outputDefs ∧
              q.outputDefs.length = 1)) := by
        intro q hq j hqj
        by_cases hqcc : isCandConv g0 q.index
        · obtain ⟨c, a, hca, hci⟩ := hqcc
          have hcq : c = q := mem_index_inj g0.nodes hv.nodes_nodup c hca.1
            q hq hci
          obtain ⟨f, hf, hfo, hfge, hfout, hflen, hfrel⟩ := hfused c a hca
          rw [hcq] at hfout hflen hfrel
          have hqarity : q.outputDefs.length = 1 := by
            rw [← hcq]
            exact hv.conv_arity c hca.1
              (candPair_facts g0 hv c a hca).2.2.1
          exact ⟨f, hf, (hslot_iff f q hflen hfrel j).mpr hqj,
            Or.inr ⟨hfge, hfout, hqarity⟩⟩
        · by_cases hqca : ∃ c a, candPair g0 c a ∧ a.index = q.index
          · exfalso
            obtain ⟨c, a, hca, hai⟩ := hqca
            obtain ⟨hamem, hane2, hcmc, hfusa, hgoa, hclenc, halena, haolen,
              e0x, hrest⟩ := candPair_facts g0 hv c a hca
            have haq : a = q := mem_index_inj g0.nodes hv.nodes_nodup a
              hamem q hq hai
            have hdef := hrest.2.2.2.2.2.2.2.2
            rw [← haq] at hqj
            have hjlt : j < a.inputDefs.length := by
              by_contra hcon
              rw [List.getElem?_eq_none (by omega)] at hqj
              exact Option.noConfusion hqj
            have hj0 : j = 0 := by
              rw [halena] at hjlt
              omega
            rw [hj0, getElem?_eq_some_getD _ _ (by rw [halena]; omega)]
              at hqj
            injection hqj with hqj
            refine hdnotfd ⟨c, a, hca, ?_⟩
            rw [← hqj, hdef]
          · have hnr : ¬ finallyRemoved g0 q.index := by
              rintro ⟨c, a, hca, hd | hd⟩
              · exact hqcc ⟨c, a, hca, hd⟩
              · exact hqca ⟨c, a, hca, hd⟩
            obtain ⟨w, hw, hskelw, hrelw⟩ := hfwd q hq hnr
            exact ⟨w, hw,
              (hslot_iff w q hskelw.2.2.2.2.2.2 hrelw j).mpr hqj,
              Or.inl hskelw.1⟩
      have hzidx : z.index = n0.index := hskel.1
      have hzouts : z.outputDefs = n0.outputDefs := hskel.2.2.2.2.2.1
      have hzval : z.outputDefs[0]? = some (n0.outputDefs.getD 0 0) := by
        rw [hzouts]
        exact getElem?_eq_some_getD _ _ (by omega)
      have hg3edge : ∀ x, x ∈ g3.outputEdges z.index ↔
          (x.src = z.index ∧ x.srcSlot = 0 ∧ ∃ w, w ∈ g2.nodes ∧
            w.index = x.dst ∧ x.dstSlot < w.inputDefs.length ∧
            w.inputDefs[x.dstSlot]? = some (n0.outputDefs.getD 0 0)) := by
        intro x
        constructor
        · intro hx
          have hf := List.mem_filter.mp hx
          have hsrc : x.src = z.index := by simpa using hf.2
          have hfe : x ∈ derivedEdges g2.nodes := by
            rw [← hedges3]
            exact hf.1
          obtain ⟨p, hp, w, hw, hpsrc, hwdst, hss, hds, hdefs⟩ :=
            (mem_derivedEdges g2.nodes x).mp hfe
          have hpz : p = z := mem_index_inj g2.nodes hnodup2 p hp z hz
            (by rw [hpsrc, hsrc])
          rw [hpz] at hss hdefs
          have hss0 : x.srcSlot = 0 := by
            rw [hzouts, hcarity] at hss
            omega
          rw [hss0] at hdefs
          refine ⟨hsrc, hss0, w, hw, hwdst, hds, ?_⟩
          rw [← hdefs, hzval]
        · rintro ⟨hsrc, hss0, w, hw, hwdst, hds, hwval⟩
          refine List.mem_filter.mpr ⟨?_, by simpa using hsrc⟩
          rw [hedges3]
          refine (mem_derivedEdges g2.nodes x).mpr
            ⟨z, hz, w, hw, ?_, hwdst, ?_, hds, ?_⟩
          · rw [hsrc]
          · rw [hss0, hzouts, hcarity]
            omega
          · rw [hss0, hzval, hwval]
      have hS0nodup : (g0.outputEdges n0.index).Nodup :=
        List.Nodup.filter _ hv.edges_nodup
      rcases Nat.lt_or_ge (g0.outputEdgesCount n0.index) 1 with hcnt | hcnt
      · have hc0 : g0.outputEdges n0.index = [] := by
          have hl : (g0.outputEdges n0.index).length = 0 := by
            have := hcnt
            unfold Graph.outputEdgesCount at this
            omega
          exact List.length_eq_zero.mp hl
        refine isFusionCandidate_count_ne g3 z ?_
        have hempty : g3.outputEdges z.index = [] := by
          rw [List.eq_nil_iff_forall_not_mem]
          intro x hx
          obtain ⟨hsrc, hss0, w, hw, hwdst, hds, hwval⟩ := (hg3edge x).mp hx
          obtain ⟨q, hq, hqval⟩ := hconsumer_bwd w hw x.dstSlot hwval
          have hqlt : x.dstSlot < q.inputDefs.length := by
            by_contra hcon
            rw [List.getElem?_eq_none (by omega)] at hqval
            exact Option.noConfusion hqval
          have hmem0 : (⟨n0.index, q.index, 0, x.dstSlot⟩ : Edge) ∈
              g0.outputEdges n0.index := by
            refine (conv_outputEdges_iff g0 hv n0 hn0 hcarity _).mpr
              ⟨rfl, rfl, q, hq, rfl, hqlt, hqval⟩
          rw [hc0] at hmem0
          simp at hmem0
        show (g3.outputEdges z.index).length ≠ 1
        rw [hempty]
        simp
      · rcases Nat.lt_or_ge 1 (g0.outputEdgesCount n0.index) with hcnt2 | hcnt2
        · have hlen2 : 2 ≤ (g0.outputEdges n0.index).length := by
            have := hcnt2
            unfold Graph.outputEdgesCount at this
            omega
          obtain ⟨e1, e2, he1, he2, hne⟩ : ∃ e1 e2,
              e1 ∈ g0.outputEdges n0.index ∧ e2 ∈ g0.outputEdges n0.index ∧
              e1 ≠ e2 := by
            cases hL : g0.outputEdges n0.index with
            | nil =>
                rw [hL] at hlen2
                simp at hlen2
            | cons u us =>
                cases hus : us with
                | nil =>
                    rw [hL, hus] at hlen2
                    simp at hlen2
                | cons v vs =>
                    refine ⟨u, v, ?_, ?_, ?_⟩
                    · exact List.mem_cons_self u (v :: vs)
                    · exact List.mem_cons_of_mem u (List.mem_cons_self v vs)
                    · rw [hL, hus] at hS0nodup
                      have hnd := List.nodup_cons.mp hS0nodup
                      intro hcon
                      refine hnd.1 ?_
                      rw [hcon]
                      exact List.mem_cons_self v vs
          obtain ⟨hsrc1, hss1, q1, hq1, hqd1, hql1, hqv1⟩ :=
            (conv_outputEdges_iff g0 hv n0 hn0 hcarity e1).mp he1
          obtain ⟨hsrc2, hss2, q2, hq2, hqd2, hql2, hqv2⟩ :=
            (conv_outputEdges_iff g0 hv n0 hn0 hcarity e2).mp he2
          obtain ⟨w1, hw1, hwv1, hwi1⟩ :=
            hconsumer_fwd q1 hq1 e1.dstSlot hqv1
          obtain ⟨w2, hw2, hwv2, hwi2⟩ :=
            hconsumer_fwd q2 hq2 e2.dstSlot hqv2
          have hwl1 : e1.dstSlot < w1.inputDefs.length := by
            by_contra hcon
            rw [List.getElem?_eq_none (by omega)] at hwv1
            exact Option.noConfusion hwv1
          have hwl2 : e2.dstSlot < w2.inputDefs.length := by
            by_contra hcon
            rw [List.getElem?_eq_none (by omega)] at hwv2
            exact Option.noConfusion hwv2
          have hx1 : (⟨z.index, w1.index, 0, e1.dstSlot⟩ : Edge) ∈
              g3.outputEdges z.index :=
            (hg3edge _).mpr ⟨rfl, rfl, w1, hw1, rfl, hwl1, hwv1⟩
          have hx2 : (⟨z.index, w2.index, 0, e2.dstSlot⟩ : Edge) ∈
              g3.outputEdges z.index :=
            (hg3edge _).mpr ⟨rfl, rfl, w2, hw2, rfl, hwl2, hwv2⟩
          have hxne : (⟨z.index, w1.index, 0, e1.dstSlot⟩ : Edge) ≠
              ⟨z.index, w2.index, 0, e2.dstSlot⟩ := by
            intro hcon
            have hwi : w1.index = w2.index := by
              have hh := congrArg Edge.dst hcon
              exact hh
            have hsl : e1.dstSlot = e2.dstSlot := by
              have hh := congrArg Edge.dstSlot hcon
              exact hh
            refine hne ?_
            have hq12 : q1.index = q2.index := by
              rcases hwi1 with h1 | ⟨hge1, hout1, har1⟩
              · rcases hwi2 with h2 | ⟨hge2, hout2, har2⟩
                · rw [← h1, ← h2, hwi]
                · exfalso
                  have hlt := hv.index_lt q1 hq1
                  rw [← h1, hwi] at hlt
                  omega
              · rcases hwi2 with h2 | ⟨hge2, hout2, har2⟩
                · exfalso
                  have hlt := hv.index_lt q2 hq2
                  rw [← h2, ← hwi] at hlt
                  omega
                · have hw12 : w1 = w2 := mem_index_inj g2.nodes hnodup2 w1
                    hw1 w2 hw2 hwi
                  have hqout : q1.outputDefs = q2.outputDefs := by
                    rw [← hout1, hw12, hout2]
                  have hgd : q1.outputDefs.getD 0 0 =
                      q2.outputDefs.getD 0 0 := by
                    rw [hqout]
                  have hq12' : q1 = q2 := (hv.single_producer q1 hq1 q2 hq2
                    0 (by omega) 0 (by omega) hgd).1
                  rw [hq12']
            have hdst : e1.dst = e2.dst := by
              rw [← hqd1, ← hqd2, hq12]
            exact edge_ext e1 e2 (by rw [hsrc1, hsrc2]) hdst
              (by rw [hss1, hss2]) hsl
          refine isFusionCandidate_count_ne g3 z ?_
          show (g3.outputEdges z.index).length ≠ 1
          have h2le := two_mem_two_le_length _ _ _ hx1 hx2 hxne
          omega
        · have hc1 : g0.outputEdgesCount n0.index = 1 := by omega
          obtain ⟨e0', he0'⟩ := List.length_eq_one.mp hc1
          have hh0 : (g0.outputEdges n0.index).head? = some e0' := by
            rw [he0']
            rfl
          obtain ⟨hsrc0, hss0A, a0', ha0', had0, hal0, hav0⟩ :=
            (conv_outputEdges_iff g0 hv n0 hn0 hcarity e0').mp
              (by rw [he0']; exact List.mem_singleton.mpr rfl)
          have hga0 : g0.getNode e0'.dst = some a0' := by
            have hg := getNode_of_mem g0 a0' hv.nodes_nodup ha0'
            rw [had0] at hg
            exact hg
          have hn0cand : isFusionCandidate g0 n0 = false := by
            cases hfc : isFusionCandidate g0 n0 with
            | false => rfl
            | true =>
                exfalso
                obtain ⟨_, _, e0x, a0x, hhx, hgx, _, _⟩ :=
                  isFusionCandidate_inv g0 n0 hfc
                exact hnotcc ⟨n0, a0x, ⟨hn0, hfc, e0x, hhx, hgx⟩, rfl⟩
          have hbad : isFusableActivation a0' = false ∨
              g0.isNodeOutputsInGraphOutputs a0' = true := by
            have hb := isFusionCandidate_build g0 n0 e0' a0' hh0 hga0
            rw [hn0cand] at hb
            cases hf : isFusableActivation a0' with
            | false => exact Or.inl rfl
            | true =>
                cases hg : g0.isNodeOutputsInGraphOutputs a0' with
                | true => exact Or.inr rfl
                | false =>
                    exfalso
                    have hcc : (g0.outputEdgesCount n0.index == 1) = true := by
                      rw [hc1]
                      rfl
                    rw [hcm, hf, hg, hcc] at hb
                    simp at hb
          by_cases hc3 : g3.outputEdgesCount z.index = 1
          · obtain ⟨x, hx⟩ := List.length_eq_one.mp hc3
            have hxmem : x ∈ g3.outputEdges z.index := by
              rw [hx]
              exact List.mem_singleton.mpr rfl
            have hhx : (g3.outputEdges z.index).head? = some x := by
              rw [hx]
              rfl
            obtain ⟨hxsrc, hxss, w, hw, hwdst, hwl, hwv⟩ :=
              (hg3edge x).mp hxmem
            have hgw : g3.getNode x.dst = some w := by
              have hget2 : g2.getNode w.index = some w :=
                getNode_of_mem g2 w hnodup2 hw
              show g3.nodes.find? (fun nn => nn.index == x.dst) = some w
              rw [hn3, ← hwdst]
              exact hget2
            rw [isFusionCandidate_build g3 z x w hhx hgw]
            rcases hbwd w hw with ⟨q, hq, hqnr, hskelq, hrelq⟩ | ⟨hwopt, _⟩
            · have hqv := (hslot_iff w q hskelq.2.2.2.2.2.2 hrelq
                x.dstSlot).mp hwv
              have hqlt : x.dstSlot < q.inputDefs.length := by
                by_contra hcon
                rw [List.getElem?_eq_none (by omega)] at hqv
                exact Option.noConfusion hqv
              have hmemS0 : (⟨n0.index, q.index, 0, x.dstSlot⟩ : Edge) ∈
                  g0.outputEdges n0.index :=
                (conv_outputEdges_iff g0 hv n0 hn0 hcarity _).mpr
                  ⟨rfl, rfl, q, hq, rfl, hqlt, hqv⟩
              rw [he0'] at hmemS0
              have heq0 : (⟨n0.index, q.index, 0, x.dstSlot⟩ : Edge) = e0' :=
                List.mem_singleton.mp hmemS0
              have hqa0 : q = a0' := by
                refine mem_index_inj g0.nodes hv.nodes_nodup q hq a0' ha0' ?_
                rw [had0, ← heq0]
              rcases hbad with hb | hb
              · have hwfus : isFusableActivation w = false := by
                  rw [isFusableActivation_skel w q hskelq, hqa0]
                  exact hb
                rw [hwfus]
                simp
              · have hwgo : g3.isNodeOutputsInGraphOutputs w = true := by
                  rw [graphOutputs_transfer g3 g0 w a0'
                    (by rw [houts3, houts2])
                    (by rw [hskelq.2.2.2.2.2.1, hqa0])]
                  exact hb
                rw [hwgo]
                simp
            · have hwfus : isFusableActivation w = false := by
                unfold isFusableActivation isSupportedOptypeVersionAndDomain
                rw [hwopt]
                rfl
              rw [hwfus]
              simp
          · exact isFusionCandidate_count_ne g3 z hc3
    · have hzcm : convMatch z = false := by
        rw [convMatch_skel z n0 hskel, ← Bool.not_eq_true]
        exact hcm
      exact isFusionCandidate_not_conv g3 z hzcm
  · exact isFusionCandidate_not_conv g3 z (convMatch_fusedConv z hopt)

/-- `ConvActivationFusion::Apply` after a known scan outcome: removals,
then the `modified`/Resolve control flow. -/
theorem apply_eq_of_scan (g : Graph) (m : Bool) (st2 : Graph)
    (removed2 : List Nat)
    (hscan : applyScan g g.getNodesInTopologicalOrder = .ok (st2, removed2)) :
    ConvActivationFusion.apply g m =
      (if removed2.isEmpty then
        .ok (removed2.foldl (fun h i => h.removeNode i) st2, m)
      else
        match (removed2.foldl (fun h i => h.removeNode i) st2).resolve with
        | .ok g3 => .ok (g3, true)
        | .error e => .error e) := by
  unfold ConvActivationFusion.apply
  dsimp only
  rw [hscan]
  rfl

/-- Claim C1.  Idempotence of the fusion pass: on a valid graph, a second
application immediately after a successful first application returns OK,
reports `modified = false`, and leaves the graph — node and edge set
included — exactly as the first application produced it, because every
replacement node's operator `FusedConv` in domain `com.microsoft` no longer
satisfies the Conv (version 1, default domain) predicate and no surviving
node has gained a fusable single consumer. -/
theorem convActivationFusion_idempotent (g0 g1 : Graph) (m m1 : Bool)
    (hv : ValidGraph g0)
    (happ : ConvActivationFusion.apply g0 m = .ok (g1, m1)) :
    ConvActivationFusion.apply g1 false = .ok (g1, false) := by
  have hordnd := topoOrder_nodup g0 hv.nodes_nodup
  obtain ⟨st2, removed2, hscan, inv⟩ := applyScan_inv g0 hv
    g0.getNodesInTopologicalOrder [] g0 [] (scanInv_init g0 hv)
    (fun i _ h => absurd h (List.not_mem_nil i)) hordnd
  rw [List.nil_append] at inv
  have hscan2 : applyScan g0 g0.getNodesInTopologicalOrder =
      .ok (st2, removed2) := hscan
  rw [apply_eq_of_scan g0 m st2 removed2 hscan2] at happ
  by_cases hre : removed2.isEmpty
  · rw [if_pos hre] at happ
    have hremnil : removed2 = [] := by
      cases removed2 with
      | nil => rfl
      | cons x xs => simp at hre
    have hnocand : ∀ z ∈ g0.nodes, isFusionCandidate g0 z = false := by
      intro z hz
      cases hfc : isFusionCandidate g0 z with
      | false => rfl
      | true =>
          exfalso
          obtain ⟨_, _, e0x, a0x, hhx, hgx, _, _⟩ :=
            isFusionCandidate_inv g0 z hfc
          have hmm : z.index ∈ removed2 := by
            refine (inv.removed_iff z.index).mpr
              (Or.inl ⟨⟨z, a0x, ⟨hz, hfc, e0x, hhx, hgx⟩, rfl⟩, ?_⟩)
            exact hv.topo_complete z hz
          rw [hremnil] at hmm
          simp at hmm
    have hsc0 := applyScan_no_candidate g0 hnocand
      g0.getNodesInTopologicalOrder
    rw [hscan2] at hsc0
    injection hsc0 with hpair
    have hst2 : st2 = g0 := congrArg Prod.fst hpair
    rw [hremnil, List.foldl_nil] at happ
    injection happ with hpair2
    have hg1 : g1 = st2 := (congrArg Prod.fst hpair2).symm
    rw [hg1, hst2]
    exact apply_no_candidate g0 false hnocand
  · rw [if_neg hre] at happ
    cases hres : (removed2.foldl (fun h i => h.removeNode i) st2).resolve with
    | error e =>
        rw [hres] at happ
        exact Except.noConfusion happ
    | ok g3 =>
        rw [hres] at happ
        injection happ with hpair
        have hg1 : g1 = g3 := (congrArg Prod.fst hpair).symm
        have hg3eq : g3 =
            { (removed2.foldl (fun h i => h.removeNode i) st2) with
              edges := derivedEdges
                (removed2.foldl (fun h i => h.removeNode i) st2).nodes } := by
          have hres2 := hres
          unfold Graph.resolve at hres2
          dsimp only at hres2
          split at hres2
          · injection hres2 with hh
            rw [← hh]
          · exact Except.noConfusion hres2
        have hn3 : g3.nodes =
            (removed2.foldl (fun h i => h.removeNode i) st2).nodes := by
          rw [hg3eq]
        have hedges3 : g3.edges = derivedEdges
            (removed2.foldl (fun h i => h.removeNode i) st2).nodes := by
          rw [hg3eq]
        have houts3 : g3.graphOutputs =
            (removed2.foldl (fun h i => h.removeNode i) st2).graphOutputs := by
          rw [hg3eq]
        have hnodup2 : (((removed2.foldl (fun h i => h.removeNode i)
            st2).nodes).map Node.index).Nodup :=
          List.Nodup.sublist
            (List.Sublist.map Node.index (removeNode_fold_sublist removed2 st2))
            inv.nodes_nodup
        have houts2 : (removed2.foldl (fun h i => h.removeNode i)
            st2).graphOutputs = g0.graphOutputs := by
          rw [removeNode_fold_outs removed2 st2]
          exact inv.outs_eq
        have hPord : ∀ (c a : Node), candPair g0 c a →
            c.index ∈ g0.getNodesInTopologicalOrder :=
          fun c a hca => hv.topo_complete c hca.1
        have hremiff : ∀ i, i ∈ removed2 ↔ finallyRemoved g0 i := by
          intro i
          rw [inv.removed_iff i]
          constructor
          · rintro (⟨⟨c, a, hca, hci⟩, _⟩ | ⟨c, a, hca, _, hai⟩)
            · exact ⟨c, a, hca, Or.inl hci⟩
            · exact ⟨c, a, hca, Or.inr hai⟩
          · rintro ⟨c, a, hca, hci | hai⟩
            · refine Or.inl ⟨⟨c, a, hca, hci⟩, ?_⟩
              rw [← hci]
              exact hPord c a hca
            · exact Or.inr ⟨c, a, hca, hPord c a hca, hai⟩
        have hfwd2 : ∀ n ∈ g0.nodes, ¬ finallyRemoved g0 n.index →
            ∃ n2, n2 ∈ (removed2.foldl (fun h i => h.removeNode i) st2).nodes ∧
              Node.skel n2 n ∧ inputsRel g0 n2 n := by
          intro n hn hnr
          obtain ⟨n2, hn2, hskel, hrel⟩ := inv.orig_fwd n hn
          refine ⟨n2, ?_, hskel, hrel⟩
          refine (removeNode_fold_mem removed2 st2 n2).mpr ⟨hn2, ?_⟩
          intro r hr hcon
          have hfr := (hremiff r).mp hr
          rw [← hcon, hskel.1] at hfr
          exact hnr hfr
        have hbwd2 : ∀ n2 ∈ (removed2.foldl (fun h i => h.removeNode i)
            st2).nodes,
            (∃ n, n ∈ g0.nodes ∧ ¬ finallyRemoved g0 n.index ∧
              Node.skel n2 n ∧ inputsRel g0 n2 n) ∨
            (n2.opType = "FusedConv" ∧ g0.nextIndex ≤ n2.index ∧
             ∃ c a, candPair g0 c a ∧ n2.outputDefs = c.outputDefs ∧
               n2.inputDefs.length = c.inputDefs.length ∧
               inputsRel g0 n2 c) := by
          intro n2 hn2
          have hm := (removeNode_fold_mem removed2 st2 n2).mp hn2
          rcases inv.new_bwd n2 hm.1 with ⟨n, hn, hskel, hrel⟩ |
            ⟨hge, hopt, hdom, c, a, hca, hcP, houtc, hlenc, hrelc⟩
          · refine Or.inl ⟨n, hn, ?_, hskel, hrel⟩
            intro hfr
            have hmem : n.index ∈ removed2 := (hremiff n.index).mpr hfr
            exact hm.2 n.index hmem hskel.1
          · exact Or.inr ⟨hopt, hge, c, a, hca, houtc, hlenc, hrelc⟩
        have hfused2 : ∀ c a, candPair g0 c a → ∃ f,
            f ∈ (removed2.foldl (fun h i => h.removeNode i) st2).nodes ∧
            f.opType = "FusedConv" ∧ g0.nextIndex ≤ f.index ∧
            f.outputDefs = c.outputDefs ∧
            f.inputDefs.length = c.inputDefs.length ∧ inputsRel g0 f c := by
          intro c a hca
          obtain ⟨f, hf, hge, hopt, houtc, hlenc, hrelc⟩ :=
            inv.fused_fwd c a hca (hPord c a hca)
          refine ⟨f, ?_, hopt, hge, houtc, hlenc, hrelc⟩
          refine (removeNode_fold_mem removed2 st2 f).mpr ⟨hf, ?_⟩
          intro r hr hcon
          obtain ⟨c', a', hca', hd⟩ := (hremiff r).mp hr
          rcases hd with hd | hd
          · have hlt := hv.index_lt c' hca'.1
            rw [hd] at hlt
            omega
          · have hlt := hv.index_lt a' (candPair_facts g0 hv c' a' hca').1
            rw [hd] at hlt
            omega
        have hnoc := final_no_candidate g0
          (removed2.foldl (fun h i => h.removeNode i) st2) g3 hv hn3 hedges3
          houts3 hnodup2 houts2 hfwd2 hbwd2 hfused2
        rw [hg1]
        refine apply_no_candidate g3 false ?_
        intro z hz
        exact hnoc z hz

/-- Witness for C1 on the scenario graph: the fused result of the first
application is a fixed point reporting `modified = false`. -/
theorem convActivationFusion_idempotent_witness :
    ConvActivationFusion.apply gScenarioFused false =
      .ok (gScenarioFused, false) :=
  convActivationFusion_idempotent gScenario gScenarioFused false true
    ⟨by decide, by decide, by decide, by decide, by decide, by decide,
     by decide, by decide, by decide⟩ (by rfl)
